import Mathlib

/-!
Verification development for the semantic core of the jellyc compiler.

The definitions below are a shallow embedding of the C sources:
  * src/data/tir.c   — type interning, values, type queries
  * src/type-analysis.c — elaboration (constant folding, switches, builtins)
  * src/tir-analysis.c  — the substructural (affine) checker
  * src/tir2mir.c    — TIR to MIR lowering

Machine integers are modelled as Nat / Int with explicit `% 2^w` where the C
code relies on wrap-around; `size_t` hash arithmetic is reduced modulo `2^64`
at every step.  Fallible code paths (C `abort()`, out-of-bounds reads and
other undefined behaviour) are modelled with `Option`, `none` standing for
the aborted computation.  Flat id-indexed tables become Lean lists indexed by
the same integer ids; the variable-arity `extra` side vectors are folded into
the per-entry payloads (a loss-free change of representation: the C decoder
`get_type_from_id` / `get_function_type` always reads them back as a whole).

The file `src/enums.h` (and the x-macro list `simple-types`) is not part of
the sources; the numeric primitive ids below are modelled from the spec
(section 3, "Types") under the constraints imposed by `src/wrappers.h`
(`type_is_fixed_int` is the contiguous range [i8, char], `type_is_int` is
[i8, isize], `type_is_float` is [f32, f64], id 0 is `invalid`).
-/

namespace Jellyc

/-- Modelled from the spec: primitive type ids (enums.h is missing from the
sources).  The concrete numbers satisfy every constraint of wrappers.h:
`invalid` is 0, the fixed-width integers [i8, char] are contiguous, the
integers [i8, isize] are contiguous, the floats [f32, f64] are contiguous. -/
def TYPE_INVALID : Nat := 0

def TYPE_VOID : Nat := 1

def TYPE_i8 : Nat := 2

def TYPE_i16 : Nat := 3

def TYPE_i32 : Nat := 4

def TYPE_i64 : Nat := 5

def TYPE_char : Nat := 6

def TYPE_isize : Nat := 7

def TYPE_f32 : Nat := 8

def TYPE_f64 : Nat := 9

def TYPE_bool : Nat := 10

def TYPE_byte : Nat := 11

def TYPE_SIZE_TAG : Nat := 12

def TYPE_ALIGNMENT_TAG : Nat := 13

def TYPE_COUNT : Nat := 14

def null_type : Nat := TYPE_INVALID

/-- wrappers.h: `type.id >= TYPE_i8 && type.id <= TYPE_char`. -/
def type_is_fixed_int (t : Nat) : Bool := TYPE_i8 ≤ t && t ≤ TYPE_char

/-- wrappers.h: `type.id >= TYPE_i8 && type.id <= TYPE_isize`. -/
def type_is_int (t : Nat) : Bool := TYPE_i8 ≤ t && t ≤ TYPE_isize

/-- wrappers.h: `type.id >= TYPE_f32 && type.id <= TYPE_f64`. -/
def type_is_float (t : Nat) : Bool := TYPE_f32 ≤ t && t ≤ TYPE_f64

/-- wrappers.h: arithmetic types are the integers and the floats. -/
def type_is_arithmetic (t : Nat) : Bool := type_is_int t || type_is_float t

/-- data/tir.h `Target`: 64-bit or 32-bit pointer width. -/
inductive Target where
  | isize64
  | isize32
  deriving Repr

/-- tir.c `sizeof_pointer`. -/
def sizeof_pointer : Target → Int
  | .isize64 => 8
  | .isize32 => 4

/-- Modelled from the spec: the `TypeTag` enumeration of enums.h (the tag set
is fixed by the `switch` statements of src/data/tir.c). -/
inductive TypeTag where
  | primitive
  | array
  | arrayLength
  | ptr
  | ptrMut
  | multiptr
  | multiptrMut
  | function
  | struct
  | enum
  | newtype
  | tagged
  | linear
  | typeParameter
  deriving Repr, DecidableEq

/-- Numeric value of a tag, used only inside the hash mix (the concrete
numbers are irrelevant to every theorem; they only need to be fixed). -/
def TypeTag.toNat : TypeTag → Nat
  | .primitive => 0
  | .array => 1
  | .arrayLength => 2
  | .ptr => 3
  | .ptrMut => 4
  | .multiptr => 5
  | .multiptrMut => 6
  | .function => 7
  | .struct => 8
  | .enum => 9
  | .newtype => 10
  | .tagged => 11
  | .linear => 12
  | .typeParameter => 13

/-- One entry of the type table (tir.c `TypeList`): the C stores a tag, a
`TypeData {index, extra}` pair and, for functions / structs / enums /
newtypes / tagged types, a run of the `extra` vector; each constructor below
carries exactly the data the corresponding decoder reads back. -/
inductive TypeEntry where
  /-- TYPE_ARRAY: data.index = element type, data.extra = length type. -/
  | array (elem indexType : Nat)
  /-- TYPE_ARRAY_LENGTH: the payload is the 64-bit length itself. -/
  | arrayLength (len : Int)
  | ptr (elem : Nat)
  | ptrMut (elem : Nat)
  | linear (elem : Nat)
  /-- TYPE_MULTIPTR: data.index = element, data.extra = cached byte-pointer. -/
  | multiptr (elem bytePtr : Nat)
  | multiptrMut (elem bytePtr : Nat)
  /-- TYPE_FUNCTION: extra[0] = type-parameter count, extra[1] = return,
  extra[2..] = parameters, data.extra = parameter count. -/
  | function (typeParamCount : Int) (ret : Nat) (params : List Nat)
  /-- TYPE_STRUCT: the StructTypeLayout header followed by the field ids. -/
  | struct (scope name : Int) (alignment size : Int) (isLinear : Bool)
      (typeParamCount : Int) (fields : List Nat)
  | enum (scope name : Int) (repr : Nat)
  | newtype (tags name : Int) (inner : Nat)
  | tagged (newtypeId inner : Nat) (args : List Nat)
  | typeParameter (index name : Int)
  deriving Repr

/-- Tag of a stored entry (tir.c stores it in the parallel tag array). -/
def TypeEntry.tag : TypeEntry → TypeTag
  | .array .. => .array
  | .arrayLength .. => .arrayLength
  | .ptr .. => .ptr
  | .ptrMut .. => .ptrMut
  | .linear .. => .linear
  | .multiptr .. => .multiptr
  | .multiptrMut .. => .multiptrMut
  | .function .. => .function
  | .struct .. => .struct
  | .enum .. => .enum
  | .newtype .. => .newtype
  | .tagged .. => .tagged
  | .typeParameter .. => .typeParameter

/-- tir.h `TypeSet`: the open-addressing interning table.  `ptr` has length
`capacity`; empty slots hold the id 0. -/
structure TypeSet where
  capacity : Nat
  count : Nat
  ptr : List Nat
  deriving Repr

/-- tir.h `TypeList` (the `extra` vector is folded into the entries). -/
structure TypeList where
  types : List TypeEntry
  set : TypeSet
  deriving Repr

def emptyTypeSet : TypeSet := ⟨0, 0, []⟩

def emptyTypeList : TypeList := ⟨[], emptyTypeSet⟩

/-- tir.h `TirContext` restricted to the type tables (the value table and the
string table are modelled separately where a claim needs them).  `thread`
models `ctx.thread->deps.types`: a thread-local table layered over the frozen
global one. -/
structure TirContext where
  global : TypeList
  thread : Option TypeList
  deriving Repr

def initContext : TirContext := ⟨emptyTypeList, none⟩

/-- tir.c `ctx_types`: the table written through this context. -/
def ctx_types (ctx : TirContext) : TypeList :=
  match ctx.thread with
  | some th => th
  | none => ctx.global

/-- Replace the table selected by `ctx_types`. -/
def setTypes (ctx : TirContext) (tl : TypeList) : TirContext :=
  match ctx.thread with
  | some _ => { ctx with thread := some tl }
  | none => { ctx with global := tl }

/-- Total number of type-table entries visible through the context. -/
def totalLen (ctx : TirContext) : Nat :=
  ctx.global.types.length + (match ctx.thread with
    | some th => th.types.length
    | none => 0)

/-- tir.c `get_type_index` + the table reads: entry stored for a non-primitive
id.  The C aborts (reads out of bounds) on an invalid id; that is `none`. -/
def entryAt (ctx : TirContext) (t : Nat) : Option TypeEntry :=
  if t < TYPE_COUNT then none
  else if t - TYPE_COUNT < ctx.global.types.length then
    ctx.global.types.get? (t - TYPE_COUNT)
  else
    match ctx.thread with
    | some th => th.types.get? (t - TYPE_COUNT - ctx.global.types.length)
    | none => none

/-- tir.c `get_type_tag`. -/
def get_type_tag (ctx : TirContext) (t : Nat) : Option TypeTag :=
  if t < TYPE_COUNT then some .primitive
  else (entryAt ctx t).map TypeEntry.tag

/-- tir.c `StructuralType`: the descriptor handed to the interning machinery.
For `multiptr` / `multiptrMut` the C builds the descriptor as a pair
(`.binary = {elem, cached byte pointer}`) but compares and hashes it through
the overlapping `.unary` union member, i.e. only the first component ever
takes part in identity; the second component is payload only. -/
inductive StructuralType where
  | primitive (t : Nat)
  | newtype (t : Nat)
  | struct (t : Nat)
  | enum (t : Nat)
  | typeParameter (t : Nat)
  | array (first second : Nat)
  | arrayLength (len : Int)
  | ptr (elem : Nat)
  | ptrMut (elem : Nat)
  | linear (elem : Nat)
  | multiptr (first second : Nat)
  | multiptrMut (first second : Nat)
  | function (typeParamCount : Int) (params : List Nat) (ret : Nat)
  | tagged (newtypeId inner : Nat) (args : List Nat)
  deriving Repr, DecidableEq

def StructuralType.tag : StructuralType → TypeTag
  | .primitive .. => .primitive
  | .newtype .. => .newtype
  | .struct .. => .struct
  | .enum .. => .enum
  | .typeParameter .. => .typeParameter
  | .array .. => .array
  | .arrayLength .. => .arrayLength
  | .ptr .. => .ptr
  | .ptrMut .. => .ptrMut
  | .linear .. => .linear
  | .multiptr .. => .multiptr
  | .multiptrMut .. => .multiptrMut
  | .function .. => .function
  | .tagged .. => .tagged

/-- Descriptor read back from a stored entry (the entry-driven part of tir.c
`get_type_from_id`).  A C designated initializer zeroes the unused union
bytes, so the decoded `multiptr` descriptor carries 0 in its second
component (only the first ever takes part in equality and hashing). -/
def decodeEntry (t : Nat) (e : TypeEntry) : StructuralType :=
  match e with
  | .array elem indexType => .array indexType elem
  | .arrayLength len => .arrayLength len
  | .ptr elem => .ptr elem
  | .ptrMut elem => .ptrMut elem
  | .linear elem => .linear elem
  | .multiptr elem _ => .multiptr elem 0
  | .multiptrMut elem _ => .multiptrMut elem 0
  | .function tpc ret params => .function tpc params ret
  | .struct .. => .struct t
  | .enum .. => .enum t
  | .newtype .. => .newtype t
  | .tagged n i args => .tagged n i args
  | .typeParameter .. => .typeParameter t

/-- tir.c `get_type_from_id`. -/
def get_type_from_id (ctx : TirContext) (t : Nat) : Option StructuralType :=
  if t < TYPE_COUNT then some (.primitive t)
  else (entryAt ctx t).map (decodeEntry t)

/-- tir.c `type_eq`: deep structural equality on descriptors.  Primitive and
nominal tags always compare unequal here (two ids with the same nominal tag
are only ever compared when they are distinct table entries). -/
def type_eq (a b : StructuralType) : Bool :=
  match a, b with
  | .array f1 s1, .array f2 s2 => f1 == f2 && s1 == s2
  | .arrayLength l1, .arrayLength l2 => l1 == l2
  | .ptr e1, .ptr e2 => e1 == e2
  | .ptrMut e1, .ptrMut e2 => e1 == e2
  | .linear e1, .linear e2 => e1 == e2
  | .multiptr f1 _, .multiptr f2 _ => f1 == f2
  | .multiptrMut f1 _, .multiptrMut f2 _ => f1 == f2
  | .function tpc1 p1 r1, .function tpc2 p2 r2 =>
    if tpc1 ≠ 0 || tpc2 ≠ 0 then false
    else p1 == p2 && r1 == r2
  | .tagged n1 _ a1, .tagged n2 _ a2 => n1 == n2 && a1 == a2
  | _, _ => false

/-- Modulus of the `size_t` hash arithmetic. -/
def SIZE_MOD : Nat := 2 ^ 64

/-- One step `result = 31 * result + x` of the hash mix, reduced mod 2^64. -/
def hashStep (r x : Nat) : Nat := (31 * r + x) % SIZE_MOD

/-- Bit pattern of an `int64_t` read as `size_t` (two's complement). -/
def bits64 (i : Int) : Nat := (i % (2 ^ 64 : Int)).toNat

/-- Bit pattern of an `int32_t` sign-extended and read as `size_t`. -/
def bits64of32 (i : Int) : Nat := bits64 i

/-- One layer of tir.c `hash_type` computed per id: `hrec` performs the
recursion into referenced ids.  The C recurses through `get_type_from_id`;
in every reachable table an entry only references strictly smaller ids, so
the `j < i` guards never fire on reachable states. -/
def hash_id_body (ctx : TirContext) (hrec : Nat → Nat) (i : Nat) : Nat :=
  match get_type_from_id ctx i with
  | none => 0
  | some d =>
    let r := hashStep 17 d.tag.toNat
    match d with
    | .primitive t | .newtype t | .struct t | .enum t | .typeParameter t =>
      hashStep r t
    | .array first second =>
      let r := hashStep r (if first < i then hrec first else 0)
      hashStep r (if second < i then hrec second else 0)
    | .arrayLength len => hashStep r (bits64 len)
    | .ptr e | .ptrMut e | .linear e =>
      hashStep r (if e < i then hrec e else 0)
    | .multiptr f _ | .multiptrMut f _ =>
      hashStep r (if f < i then hrec f else 0)
    | .function tpc params ret =>
      let r := hashStep r (bits64of32 tpc)
      let r := hashStep r params.length
      let r := params.foldl
        (fun r p => hashStep r (if p < i then hrec p else 0)) r
      hashStep r (if ret < i then hrec ret else 0)
    | .tagged n _ args =>
      let r := hashStep r n
      let r := hashStep r args.length
      args.foldl
        (fun r a => hashStep r (if a < i then hrec a else 0)) r

/-- Fuelled recursion: `i + 1` units of fuel always suffice because the
recursion only descends through the strictly-smaller guards. -/
def hash_idF (ctx : TirContext) : Nat → Nat → Nat
  | 0, _ => 0
  | fuel + 1, i => hash_id_body ctx (hash_idF ctx fuel) i

def hash_id (ctx : TirContext) (i : Nat) : Nat := hash_idF ctx (i + 1) i

/-- Hash of a referenced id inside a descriptor: `hash_type(ctx,
get_type_from_id(ctx, j))`. -/
def hash_ref (ctx : TirContext) (j : Nat) : Nat := hash_id ctx j

/-- tir.c `hash_type` on a freshly built descriptor (its referenced ids are
existing table entries or primitives). -/
def hash_type (ctx : TirContext) (d : StructuralType) : Nat :=
  let r := hashStep 17 d.tag.toNat
  match d with
  | .primitive t | .newtype t | .struct t | .enum t | .typeParameter t =>
    hashStep r t
  | .array first second =>
    let r := hashStep r (hash_ref ctx first)
    hashStep r (hash_ref ctx second)
  | .arrayLength len => hashStep r (bits64 len)
  | .ptr e | .ptrMut e | .linear e => hashStep r (hash_ref ctx e)
  | .multiptr f _ | .multiptrMut f _ => hashStep r (hash_ref ctx f)
  | .function tpc params ret =>
    let r := hashStep r (bits64of32 tpc)
    let r := hashStep r params.length
    let r := params.foldl (fun r p => hashStep r (hash_ref ctx p)) r
    hashStep r (hash_ref ctx ret)
  | .tagged n _ args =>
    let r := hashStep r n
    let r := hashStep r args.length
    args.foldl (fun r a => hashStep r (hash_ref ctx a)) r

/-- tir.c `typeset_init` (calloc: all slots hold the null id). -/
def typeset_init (capacity : Nat) : TypeSet :=
  ⟨capacity, 0, List.replicate capacity 0⟩

/-- Probe loop of tir.c `typeset_insert_entry`: first empty slot from the
key's home slot, stepping linearly.  The C `& (capacity - 1)` equals
`% capacity` because every reachable capacity is a power of two (64, then
doubled); `none` models the infinite loop on a full table. -/
def insert_slot_aux (set : TypeSet) : Nat → Nat → Option Nat
  | 0, _ => none
  | fuel + 1, slot =>
    match set.ptr.get? slot with
    | none => none
    | some id =>
      if id = 0 then some slot
      else insert_slot_aux set fuel ((slot + 1) % set.capacity)

/-- tir.c `typeset_insert_entry`. -/
def typeset_insert_entry (ctx : TirContext) (set : TypeSet) (key : Nat) :
    Option TypeSet :=
  match insert_slot_aux set set.capacity (hash_ref ctx key % set.capacity) with
  | none => none
  | some s => some { set with ptr := set.ptr.set s key }

/-- Single step of the tir.c `typeset_resize` rehash loop: skip empty slots,
reinsert every stored id. -/
def resizeStep (ctx : TirContext) (acc : Option TypeSet) (key : Nat) :
    Option TypeSet :=
  match acc with
  | none => none
  | some s => if key = 0 then some s else typeset_insert_entry ctx s key

/-- tir.c `typeset_resize`: double the capacity and rehash every entry. -/
def typeset_resize (ctx : TirContext) (set : TypeSet) : Option TypeSet :=
  let init : TypeSet :=
    { typeset_init (set.capacity * 2) with count := set.count }
  set.ptr.foldl (resizeStep ctx) (some init)

/-- Deep equality of a stored id against a probe descriptor, as tested inside
the probe loop of tir.c (`type_eq(get_type_from_id(ctx, slot), descriptor)`). -/
def descEq (ctx : TirContext) (id : Nat) (d : StructuralType) : Bool :=
  match get_type_from_id ctx id with
  | some e => type_eq e d
  | none => false

/-- Probe loop of tir.c `new_structural_type`: stop at an empty slot (`inr
slot`) or at an id whose stored descriptor is `type_eq` to the probe
descriptor (`inl id`). -/
def typeset_probe (ctx : TirContext) (set : TypeSet) (d : StructuralType) :
    Nat → Nat → Option (Nat ⊕ Nat)
  | 0, _ => none
  | fuel + 1, slot =>
    match set.ptr.get? slot with
    | none => none
    | some id =>
      if id = 0 then some (.inr slot)
      else if descEq ctx id d then some (.inl id)
      else typeset_probe ctx set d fuel ((slot + 1) % set.capacity)

/-- Entry stored by the `switch (descriptor.tag)` at the end of tir.c
`new_structural_type`.  Nominal and primitive descriptors abort there. -/
def StructuralType.toEntry : StructuralType → Option TypeEntry
  | .array first second => some (.array second first)
  | .arrayLength len => some (.arrayLength len)
  | .ptr e => some (.ptr e)
  | .ptrMut e => some (.ptrMut e)
  | .linear e => some (.linear e)
  | .multiptr f s => some (.multiptr f s)
  | .multiptrMut f s => some (.multiptrMut f s)
  | .function tpc params ret => some (.function tpc ret params)
  | .tagged n i args => some (.tagged n i args)
  | _ => none

/-- tir.c `new_structural_type`.  Mirrors the source: grow or initialise the
set in place (the grown set persists even when an existing id is returned),
probe the written table, then — when a thread table is layered over the
frozen global one — probe the global set, and only then allocate. -/
def new_structural_type (ctx : TirContext) (d : StructuralType) :
    Option (Nat × TirContext) :=
  let tl := ctx_types ctx
  let set0 := tl.set
  let setStep : Option TypeSet :=
    if set0.capacity = 0 then some (typeset_init 64)
    else if set0.count * 4 / set0.capacity ≥ 3 then typeset_resize ctx set0
    else some set0
  match setStep with
  | none => none
  | some set =>
    let hash := hash_type ctx d
    match typeset_probe ctx set d set.capacity (hash % set.capacity) with
    | none => none
    | some (.inl found) => some (found, setTypes ctx { tl with set := set })
    | some (.inr slot) =>
      let globalHit : Option (Option Nat) :=
        match ctx.thread with
        | none => some none
        | some _ =>
          let gset := ctx.global.set
          match typeset_probe ctx gset d gset.capacity (hash % gset.capacity) with
          | none => none
          | some (.inl gfound) => some (some gfound)
          | some (.inr _) => some none
      match globalHit with
      | none => none
      | some (some gfound) => some (gfound, setTypes ctx { tl with set := set })
      | some none =>
        match d.toEntry with
        | none => none
        | some e =>
          let t : Nat := TYPE_COUNT + ctx.global.types.length +
            (match ctx.thread with
             | some th => th.types.length
             | none => 0)
          let set := { set with ptr := set.ptr.set slot t, count := set.count + 1 }
          some (t, setTypes ctx { types := tl.types ++ [e], set := set })

/-- tir.c `new_nominal_type`: append an entry, no interning. -/
def new_nominal_type (ctx : TirContext) (e : TypeEntry) : Nat × TirContext :=
  let t : Nat := TYPE_COUNT + ctx.global.types.length +
    (match ctx.thread with
     | some th => th.types.length
     | none => 0)
  let tl := ctx_types ctx
  (t, setTypes ctx { tl with types := tl.types ++ [e] })

/-- tir.c `new_array_type`. -/
def new_array_type (ctx : TirContext) (index element : Nat) :
    Option (Nat × TirContext) :=
  new_structural_type ctx (.array index element)

/-- tir.c `new_array_length_type`. -/
def new_array_length_type (ctx : TirContext) (length : Int) :
    Option (Nat × TirContext) :=
  new_structural_type ctx (.arrayLength length)

/-- tir.c `new_ptr_type` (also used with the multipointer tags by
`replace_pointer_with_slice`, where the descriptor's second union member is
left zero). -/
def new_ptr_type (ctx : TirContext) (tag : TypeTag) (elem : Nat) :
    Option (Nat × TirContext) :=
  match tag with
  | .ptr => new_structural_type ctx (.ptr elem)
  | .ptrMut => new_structural_type ctx (.ptrMut elem)
  | .multiptr => new_structural_type ctx (.multiptr elem 0)
  | .multiptrMut => new_structural_type ctx (.multiptrMut elem 0)
  | _ => none

/-- tir.c `new_multiptr_type`: build the cached pointer-to-byte first. -/
def new_multiptr_type (ctx : TirContext) (tag : TypeTag) (elem : Nat) :
    Option (Nat × TirContext) :=
  match new_ptr_type ctx (if tag = .multiptrMut then .ptrMut else .ptr) TYPE_byte with
  | none => none
  | some (pointer, ctx) =>
    match tag with
    | .multiptr => new_structural_type ctx (.multiptr elem pointer)
    | .multiptrMut => new_structural_type ctx (.multiptrMut elem pointer)
    | _ => none

/-- tir.c `new_function_type`. -/
def new_function_type (ctx : TirContext) (typeParamCount : Int)
    (params : List Nat) (ret : Nat) : Option (Nat × TirContext) :=
  new_structural_type ctx (.function typeParamCount params ret)

/-- tir.c `new_tagged_type`. -/
def new_tagged_type (ctx : TirContext) (newtypeId inner : Nat)
    (args : List Nat) : Option (Nat × TirContext) :=
  new_structural_type ctx (.tagged newtypeId inner args)

/-- tir.c `get_array_length_type`. -/
def get_array_length_type (ctx : TirContext) (t : Nat) : Option Int :=
  match entryAt ctx t with
  | some (.arrayLength len) => some len
  | _ => none

/-- tir.c `get_linear_elem_type`. -/
def get_linear_elem_type (ctx : TirContext) (t : Nat) : Option Nat :=
  match entryAt ctx t with
  | some (.linear elem) => some elem
  | _ => none

/-- tir.c `type_is_linear`, recursive through array elements, tagged inner
types and the precomputed struct flag.  Reachable tables reference strictly
smaller ids, so the id itself bounds the recursion depth; the fuel makes the
recursion structural (kernel-evaluable) without changing the function on the
guarded calls. -/
def type_is_linearF (ctx : TirContext) : Nat → Nat → Bool
  | 0, _ => false
  | Nat.succ fuel, t =>
    match entryAt ctx t with
    | some (.array elem _) =>
      if elem < t then type_is_linearF ctx fuel elem else false
    | some (.tagged _ inner _) =>
      if inner < t then type_is_linearF ctx fuel inner else false
    | some (.struct _ _ _ _ isLinear _ _) => isLinear
    | some (.linear _) => true
    | _ => false

def type_is_linear (ctx : TirContext) (t : Nat) : Bool :=
  type_is_linearF ctx (t + 1) t

/-- tir.c `new_linear_type`: idempotent on already-linear types. -/
def new_linear_type (ctx : TirContext) (elem : Nat) :
    Option (Nat × TirContext) :=
  if get_type_tag ctx elem = some .linear then some (elem, ctx)
  else new_structural_type ctx (.linear elem)

/-- tir.c `get_struct_type_field` (null type on a non-struct or
out-of-range index). -/
def get_struct_type_field (ctx : TirContext) (t : Nat) (index : Nat) :
    Nat :=
  match entryAt ctx t with
  | some (.struct _ _ _ _ _ _ fields) => (fields.get? index).getD null_type
  | _ => null_type

/-- tir.c `get_function_type`: parameter count and return type (aborts on a
non-function id). -/
def get_function_param_count (ctx : TirContext) (t : Nat) : Option Nat :=
  match entryAt ctx t with
  | some (.function _ _ params) => some params.length
  | _ => none

/-- tir.c `get_function_type` return type. -/
def get_function_ret (ctx : TirContext) (t : Nat) : Option Nat :=
  match entryAt ctx t with
  | some (.function _ ret _) => some ret
  | _ => none

/-- tir.c `remove_pointer`. -/
def remove_pointer (ctx : TirContext) (t : Nat) : Nat :=
  match entryAt ctx t with
  | some (.ptr elem) => elem
  | some (.ptrMut elem) => elem
  | _ => null_type

/-- tir.c `remove_slice`. -/
def remove_slice (ctx : TirContext) (t : Nat) : Nat :=
  match entryAt ctx t with
  | some (.multiptr elem _) => elem
  | some (.multiptrMut elem _) => elem
  | _ => null_type

/-- tir.c `remove_tags`. -/
def remove_tags (ctx : TirContext) (t : Nat) : Nat :=
  match entryAt ctx t with
  | some (.tagged _ inner _) => inner
  | _ => t

/-- Modelled from the spec: `remove_templ` is declared in data/tir.h and used
by the elaborator to strip a tagged layer off an operand type before the
arithmetic checks, but its definition is not among the sources; the spec
describes the conversion "tag[Args...] → tag:inner: strip tagged layer", so
it is modelled like `remove_tags`. -/
def remove_templ (ctx : TirContext) (t : Nat) : Nat :=
  match entryAt ctx t with
  | some (.tagged _ inner _) => inner
  | _ => t

/-! ### Invariants of the interning tables (claim C2 machinery) -/

/-- Structural tags are everything tir.c interns (spec section 3). -/
def isStructuralTag : TypeTag → Bool
  | .primitive | .newtype | .struct | .enum | .typeParameter => false
  | _ => true

/-- Referenced ids that take part in hashing or deep equality of an entry
(the cached byte pointer of a slice and the inner type of a tagged type are
payload only: neither `type_eq` nor `hash_type` recurses into them). -/
def TypeEntry.identityRefs : TypeEntry → List Nat
  | .array elem indexType => [elem, indexType]
  | .ptr e | .ptrMut e | .linear e => [e]
  | .multiptr e _ | .multiptrMut e _ => [e]
  | .function _ ret params => ret :: params
  | .tagged _ _ args => args
  | _ => []

/-- Referenced ids of a descriptor, in the same sense. -/
def StructuralType.identityRefs : StructuralType → List Nat
  | .array first second => [first, second]
  | .ptr e | .ptrMut e | .linear e => [e]
  | .multiptr f _ | .multiptrMut f _ => [f]
  | .function _ params ret => ret :: params
  | .tagged _ _ args => args
  | _ => []

/-- A descriptor about to be interned only references ids that already exist
(this is how the elaborator always calls the constructors). -/
def DescOk (ctx : TirContext) (d : StructuralType) : Prop :=
  ∀ j ∈ d.identityRefs, j < TYPE_COUNT + totalLen ctx

/-- Global structural ids: entries of the global table with a structural tag,
addressed by their type id. -/
def globalStructural (ctx : TirContext) (t : Nat) : Prop :=
  ∃ e, TYPE_COUNT ≤ t ∧ ctx.global.types.get? (t - TYPE_COUNT) = some e ∧
    isStructuralTag e.tag = true

/-- Thread structural ids (offset past the frozen global table). -/
def threadStructural (ctx : TirContext) (t : Nat) : Prop :=
  ∃ th e, ctx.thread = some th ∧ TYPE_COUNT + ctx.global.types.length ≤ t ∧
    th.types.get? (t - TYPE_COUNT - ctx.global.types.length) = some e ∧
    isStructuralTag e.tag = true

/-- Stored id at a probe slot. -/
def slotVal (set : TypeSet) (s : Nat) : Option Nat := set.ptr.get? s

/-- Probing distance from slot `a` to slot `b` on a table of `cap` slots. -/
def dist (a b cap : Nat) : Nat := (b + cap - a) % cap

/-- Probe walk: the slot reached after `k` linear steps from `s0`. -/
def walk (s0 k cap : Nat) : Nat := (s0 + k) % cap

/-- Linear-probing chain invariant: every stored id can be reached from its
home slot without crossing an empty slot. -/
def clusterProp (ctx : TirContext) (set : TypeSet) : Prop :=
  ∀ s id, slotVal set s = some id → id ≠ 0 →
    ∀ k, k < dist (hash_ref ctx id % set.capacity) s set.capacity →
      ∃ id2, slotVal set (walk (hash_ref ctx id % set.capacity) k set.capacity)
        = some id2 ∧ id2 ≠ 0

/-- Invariant of one interning set, relative to the context used for hashing
and to the family `owns` of ids the set is responsible for. -/
structure SetInv (ctx : TirContext) (set : TypeSet) (owns : Nat → Prop) :
    Prop where
  len_eq : set.ptr.length = set.capacity
  cap_ok : set.capacity = 0 ∨ 4 ≤ set.capacity
  count_eq : set.count = (set.ptr.filter (· ≠ 0)).length
  count_lt : set.capacity = 0 ∨ set.count < set.capacity
  mem_iff : ∀ id, id ≠ 0 → (id ∈ set.ptr ↔ owns id)
  cluster : clusterProp ctx set

/-- Full invariant of a reachable pair of tables: every entry references only
strictly smaller ids, both sets satisfy their local invariant, and the deep
equality relation never identifies two distinct ids (invariant I1 of the
spec, "no two distinct ids denote structurally equal types"). -/
structure Inv (ctx : TirContext) : Prop where
  wfRefs : ∀ t e, entryAt ctx t = some e → ∀ j ∈ e.identityRefs, j < t
  globalSet : SetInv ctx ctx.global.set (globalStructural ctx)
  threadSet : ∀ th, ctx.thread = some th →
    SetInv ctx th.set (threadStructural ctx)
  uniq : ∀ i j di dj, get_type_from_id ctx i = some di →
    get_type_from_id ctx j = some dj → i ≠ j → type_eq di dj = false

/-- Table growth: every id readable in the smaller context reads the same in
the larger one, and a thread layer never disappears. -/
structure Preserves (ctx0 ctx1 : TirContext) : Prop where
  entry_stable : ∀ t, t < TYPE_COUNT + totalLen ctx0 →
    entryAt ctx1 t = entryAt ctx0 t
  len_mono : totalLen ctx0 ≤ totalLen ctx1
  global_len : ctx0.thread.isSome →
    ctx1.global.types.length = ctx0.global.types.length
  thread_mono : ctx0.thread.isSome → ctx1.thread.isSome

/-! ### Cyclic walk arithmetic -/

theorem walk_lt {cap : Nat} (h : 0 < cap) (s0 k : Nat) : walk s0 k cap < cap :=
  Nat.mod_lt _ h

theorem walk_zero {cap : Nat} (s0 : Nat) (h : s0 < cap) : walk s0 0 cap = s0 := by
  simp [walk, Nat.mod_eq_of_lt h]

theorem walk_succ {cap : Nat} (s0 k : Nat) :
    walk s0 (k + 1) cap = walk ((s0 + 1) % cap) k cap := by
  simp only [walk]
  rw [Nat.mod_add_mod]
  ring_nf

theorem dist_lt {cap : Nat} (h : 0 < cap) (a b : Nat) : dist a b cap < cap :=
  Nat.mod_lt _ h

theorem walk_dist {cap : Nat} (a b : Nat) (ha : a < cap) (hb : b < cap) :
    walk a (dist a b cap) cap = b := by
  simp only [walk, dist]
  rw [Nat.add_mod_mod]
  have h1 : a + (b + cap - a) = b + cap := by omega
  rw [h1, Nat.add_mod_right, Nat.mod_eq_of_lt hb]

/-! ### Probe loop soundness -/

/-- Slots at which the interning probe loop stops. -/
def probeStop (ctx : TirContext) (set : TypeSet) (d : StructuralType)
    (s : Nat) : Prop :=
  slotVal set s = some 0 ∨
    ∃ id, slotVal set s = some id ∧ id ≠ 0 ∧ descEq ctx id d = true

theorem probe_none_spec {ctx : TirContext} {set : TypeSet}
    {d : StructuralType} (hlen : set.ptr.length = set.capacity) :
    ∀ fuel s0, s0 < set.capacity →
      typeset_probe ctx set d fuel s0 = none →
      ∀ k, k < fuel → ¬ probeStop ctx set d (walk s0 k set.capacity) := by
  intro fuel
  induction fuel with
  | zero => intro s0 _ _ k hk; omega
  | succ fuel ih =>
    intro s0 hs0 hrun k hk
    have hget : ∃ id, set.ptr.get? s0 = some id := by
      have : s0 < set.ptr.length := hlen ▸ hs0
      exact ⟨set.ptr.get ⟨s0, this⟩, List.get?_eq_get this⟩
    obtain ⟨id, hid⟩ := hget
    simp only [typeset_probe, hid] at hrun
    by_cases h0 : id = 0
    · simp [h0] at hrun
    · rw [if_neg h0] at hrun
      by_cases heq : descEq ctx id d
      · simp [heq] at hrun
      · rw [if_neg (by simp [heq])] at hrun
        have hcap : 0 < set.capacity := Nat.lt_of_le_of_lt (Nat.zero_le _) hs0
        match k with
        | 0 =>
          rw [walk_zero s0 hs0]
          rintro (hstop | ⟨id2, hid2, hne, heq2⟩)
          · rw [slotVal, hid] at hstop; exact h0 (by injection hstop)
          · rw [slotVal, hid] at hid2
            injection hid2 with hh
            exact heq (hh ▸ heq2)
        | k + 1 =>
          rw [walk_succ]
          exact ih _ (Nat.mod_lt _ hcap) hrun k (by omega)

theorem probe_inr_spec {ctx : TirContext} {set : TypeSet}
    {d : StructuralType} (hlen : set.ptr.length = set.capacity) :
    ∀ fuel s0, s0 < set.capacity → ∀ s,
      typeset_probe ctx set d fuel s0 = some (.inr s) →
      ∃ k, k < fuel ∧ s = walk s0 k set.capacity ∧ slotVal set s = some 0 ∧
        ∀ m, m < k → ∃ id, slotVal set (walk s0 m set.capacity) = some id ∧
          id ≠ 0 ∧ descEq ctx id d = false := by
  intro fuel
  induction fuel with
  | zero => intro s0 _ s hrun; rw [typeset_probe] at hrun; exact absurd hrun (by simp)
  | succ fuel ih =>
    intro s0 hs0 s hrun
    have hcap : 0 < set.capacity := Nat.lt_of_le_of_lt (Nat.zero_le _) hs0
    have hget : ∃ id, set.ptr.get? s0 = some id := by
      have : s0 < set.ptr.length := hlen ▸ hs0
      exact ⟨set.ptr.get ⟨s0, this⟩, List.get?_eq_get this⟩
    obtain ⟨id, hid⟩ := hget
    simp only [typeset_probe, hid] at hrun
    by_cases h0 : id = 0
    · rw [if_pos h0] at hrun
      refine ⟨0, by omega, ?_, ?_, by omega⟩
      · injection hrun with hh
        rw [walk_zero s0 hs0]
        injection hh with hh2
        exact hh2.symm
      · injection hrun with hh
        injection hh with hh2
        rw [← hh2, slotVal, hid, h0]
    · rw [if_neg h0] at hrun
      by_cases heq : descEq ctx id d
      · simp [heq] at hrun
      · rw [if_neg (by simp [heq])] at hrun
        obtain ⟨k, hkf, hks, hzero, hprior⟩ :=
          ih ((s0 + 1) % set.capacity) (Nat.mod_lt _ hcap) s hrun
        refine ⟨k + 1, by omega, by rw [walk_succ]; exact hks, hzero, ?_⟩
        intro m hm
        match m with
        | 0 =>
          rw [walk_zero s0 hs0]
          exact ⟨id, by rw [slotVal, hid], h0, by simpa using heq⟩
        | m + 1 =>
          rw [walk_succ]
          exact hprior m (by omega)

theorem probe_inl_spec {ctx : TirContext} {set : TypeSet}
    {d : StructuralType} (hlen : set.ptr.length = set.capacity) :
    ∀ fuel s0, s0 < set.capacity → ∀ id,
      typeset_probe ctx set d fuel s0 = some (.inl id) →
      descEq ctx id d = true ∧ id ≠ 0 ∧
      ∃ k, k < fuel ∧ slotVal set (walk s0 k set.capacity) = some id := by
  intro fuel
  induction fuel with
  | zero => intro s0 _ id hrun; rw [typeset_probe] at hrun; exact absurd hrun (by simp)
  | succ fuel ih =>
    intro s0 hs0 id hrun
    have hcap : 0 < set.capacity := Nat.lt_of_le_of_lt (Nat.zero_le _) hs0
    have hget : ∃ v, set.ptr.get? s0 = some v := by
      have : s0 < set.ptr.length := hlen ▸ hs0
      exact ⟨set.ptr.get ⟨s0, this⟩, List.get?_eq_get this⟩
    obtain ⟨v, hv⟩ := hget
    simp only [typeset_probe, hv] at hrun
    by_cases h0 : v = 0
    · simp [h0] at hrun
    · rw [if_neg h0] at hrun
      by_cases heq : descEq ctx v d
      · rw [if_pos heq] at hrun
        injection hrun with hh
        injection hh with hh2
        subst hh2
        refine ⟨heq, h0, 0, by omega, ?_⟩
        rw [walk_zero s0 hs0, slotVal, hv]
      · rw [if_neg (by simp [heq])] at hrun
        obtain ⟨hdeq, hne, k, hkf, hslot⟩ :=
          ih ((s0 + 1) % set.capacity) (Nat.mod_lt _ hcap) id hrun
        exact ⟨hdeq, hne, k + 1, by omega, by rw [walk_succ]; exact hslot⟩

theorem exists_empty_slot {set : TypeSet}
    (hlen : set.ptr.length = set.capacity)
    (hc : (set.ptr.filter (· ≠ 0)).length < set.capacity) :
    ∃ s, s < set.capacity ∧ slotVal set s = some 0 := by
  have hltl : (set.ptr.filter (· ≠ 0)).length < set.ptr.length := hlen ▸ hc
  have hx : ∃ x ∈ set.ptr, ¬ (x ≠ 0) := by
    by_contra hall
    push_neg at hall
    have heqf : set.ptr.filter (· ≠ 0) = set.ptr :=
      List.filter_eq_self.mpr (fun a ha => by simpa using hall a ha)
    rw [heqf] at hltl
    omega
  obtain ⟨x, hmem, hx0⟩ := hx
  have hx0 : x = 0 := by simpa using hx0
  obtain ⟨s, hs⟩ := List.get?_of_mem hmem
  have hslt : s < set.ptr.length := by
    by_contra hge
    rw [List.get?_eq_none.mpr (by omega)] at hs
    exact absurd hs (by simp)
  exact ⟨s, hlen ▸ hslt, by rw [slotVal, hs, hx0]⟩

theorem probe_progress {ctx : TirContext} {set : TypeSet} {d : StructuralType}
    (hlen : set.ptr.length = set.capacity)
    (hcount : (set.ptr.filter (· ≠ 0)).length < set.capacity)
    {s0 : Nat} (hs0 : s0 < set.capacity) :
    typeset_probe ctx set d set.capacity s0 ≠ none := by
  obtain ⟨s, hslt, hs⟩ := exists_empty_slot hlen hcount
  intro hnone
  have := probe_none_spec hlen set.capacity s0 hs0 hnone (dist s0 s set.capacity)
    (dist_lt (Nat.lt_of_le_of_lt (Nat.zero_le _) hs0) _ _)
  rw [walk_dist s0 s hs0 hslt] at this
  exact this (Or.inl hs)

/-- Find correctness of the probe loop: when a stored id with a `type_eq`
descriptor exists and stands in an unbroken probe chain from its home slot
(the `cluster` invariant), the probe returns a hit with an equal descriptor. -/
theorem probe_find {ctx : TirContext} {set : TypeSet} {d : StructuralType}
    (hlen : set.ptr.length = set.capacity)
    (hcluster : clusterProp ctx set)
    {x : Nat} {sx : Nat} (hx : slotVal set sx = some x) (hx0 : x ≠ 0)
    (hsx : sx < set.capacity)
    (hhash : hash_ref ctx x % set.capacity = hash_type ctx d % set.capacity)
    (heq : descEq ctx x d = true) :
    ∃ id, typeset_probe ctx set d set.capacity
      (hash_type ctx d % set.capacity) = some (.inl id) ∧
      descEq ctx id d = true ∧ id ≠ 0 ∧ (∃ s, s < set.capacity ∧
        slotVal set s = some id) := by
  have hcap : 0 < set.capacity := Nat.lt_of_le_of_lt (Nat.zero_le _) hsx
  set s0 := hash_type ctx d % set.capacity with hs0def
  have hs0 : s0 < set.capacity := Nat.mod_lt _ hcap
  have hkstar : walk s0 (dist s0 sx set.capacity) set.capacity = sx :=
    walk_dist s0 sx hs0 hsx
  have hstop : probeStop ctx set d (walk s0 (dist s0 sx set.capacity) set.capacity) := by
    rw [hkstar]; exact Or.inr ⟨x, hx, hx0, heq⟩
  match hres : typeset_probe ctx set d set.capacity s0 with
  | none =>
    exact absurd hstop (probe_none_spec hlen set.capacity s0 hs0 hres _
      (dist_lt hcap _ _))
  | some (.inr s) =>
    exfalso
    obtain ⟨k, hkc, hks, hzero, hprior⟩ :=
      probe_inr_spec hlen set.capacity s0 hs0 s hres
    rcases Nat.lt_trichotomy k (dist s0 sx set.capacity) with hlt | heqk | hgt
    · have hclk := hcluster sx x hx hx0 k (by rw [hhash]; exact hlt)
      rw [hhash] at hclk
      obtain ⟨id2, hid2, hid2ne⟩ := hclk
      rw [← hks] at hid2
      rw [hzero] at hid2
      exact hid2ne (by injection hid2 with hh; exact hh.symm)
    · apply hx0
      have hsx2 : s = sx := by rw [hks, heqk, hkstar]
      rw [hsx2, hx] at hzero
      exact Option.some.inj hzero
    · obtain ⟨id2, hid2, hid2ne, hid2eq⟩ := hprior _ hgt
      rw [hkstar] at hid2
      rw [hx] at hid2
      injection hid2 with hh
      rw [← hh] at hid2eq
      rw [heq] at hid2eq
      exact absurd hid2eq (by simp)
  | some (.inl id) =>
    obtain ⟨hdeq, hne, k, hkc, hslot⟩ := probe_inl_spec hlen set.capacity s0 hs0 id hres
    exact ⟨id, rfl, hdeq, hne, walk s0 k set.capacity, walk_lt hcap s0 k, hslot⟩

theorem insert_slot_none_spec {set : TypeSet}
    (hlen : set.ptr.length = set.capacity) :
    ∀ fuel s0, s0 < set.capacity → insert_slot_aux set fuel s0 = none →
      ∀ k, k < fuel → ¬ slotVal set (walk s0 k set.capacity) = some 0 := by
  intro fuel
  induction fuel with
  | zero => intro s0 _ _ k hk; omega
  | succ fuel ih =>
    intro s0 hs0 hrun k hk
    have hget : ∃ id, set.ptr.get? s0 = some id := by
      have : s0 < set.ptr.length := hlen ▸ hs0
      exact ⟨set.ptr.get ⟨s0, this⟩, List.get?_eq_get this⟩
    obtain ⟨id, hid⟩ := hget
    simp only [insert_slot_aux, hid] at hrun
    by_cases h0 : id = 0
    · simp [h0] at hrun
    · rw [if_neg h0] at hrun
      have hcap : 0 < set.capacity := Nat.lt_of_le_of_lt (Nat.zero_le _) hs0
      match k with
      | 0 =>
        rw [walk_zero s0 hs0]
        intro hstop
        rw [slotVal, hid] at hstop
        exact h0 (by injection hstop)
      | k + 1 =>
        rw [walk_succ]
        exact ih _ (Nat.mod_lt _ hcap) hrun k (by omega)

theorem insert_slot_some_spec {set : TypeSet}
    (hlen : set.ptr.length = set.capacity) :
    ∀ fuel s0, s0 < set.capacity → ∀ s, insert_slot_aux set fuel s0 = some s →
      ∃ k, k < fuel ∧ s = walk s0 k set.capacity ∧ slotVal set s = some 0 ∧
        ∀ m, m < k → ∃ id, slotVal set (walk s0 m set.capacity) = some id ∧
          id ≠ 0 := by
  intro fuel
  induction fuel with
  | zero =>
    intro s0 _ s hrun
    rw [insert_slot_aux] at hrun
    exact absurd hrun (by simp)
  | succ fuel ih =>
    intro s0 hs0 s hrun
    have hcap : 0 < set.capacity := Nat.lt_of_le_of_lt (Nat.zero_le _) hs0
    have hget : ∃ id, set.ptr.get? s0 = some id := by
      have : s0 < set.ptr.length := hlen ▸ hs0
      exact ⟨set.ptr.get ⟨s0, this⟩, List.get?_eq_get this⟩
    obtain ⟨id, hid⟩ := hget
    simp only [insert_slot_aux, hid] at hrun
    by_cases h0 : id = 0
    · rw [if_pos h0] at hrun
      injection hrun with hh
      refine ⟨0, by omega, by rw [walk_zero s0 hs0, hh], ?_, by omega⟩
      rw [← hh, slotVal, hid, h0]
    · rw [if_neg h0] at hrun
      obtain ⟨k, hkf, hks, hzero, hprior⟩ :=
        ih ((s0 + 1) % set.capacity) (Nat.mod_lt _ hcap) s hrun
      refine ⟨k + 1, by omega, by rw [walk_succ]; exact hks, hzero, ?_⟩
      intro m hm
      match m with
      | 0 =>
        rw [walk_zero s0 hs0]
        exact ⟨id, by rw [slotVal, hid], h0⟩
      | m + 1 =>
        rw [walk_succ]
        exact hprior m (by omega)

/-! ### Deep equality as key equality -/

/-- Identity key of a descriptor: `type_eq` holds exactly between two
descriptors with the same (defined) key.  Nominal and primitive descriptors
and generic function types have no key: `type_eq` never identifies them,
not even with themselves. -/
def typeKey : StructuralType → Option (TypeTag × Option Int × List Nat)
  | .array f s => some (.array, none, [f, s])
  | .arrayLength l => some (.arrayLength, some l, [])
  | .ptr e => some (.ptr, none, [e])
  | .ptrMut e => some (.ptrMut, none, [e])
  | .linear e => some (.linear, none, [e])
  | .multiptr f _ => some (.multiptr, none, [f])
  | .multiptrMut f _ => some (.multiptrMut, none, [f])
  | .function tpc params ret =>
    if tpc = 0 then some (.function, none, ret :: params) else none
  | .tagged n _ args => some (.tagged, none, n :: args)
  | _ => none

theorem type_eq_iff_key (a b : StructuralType) :
    type_eq a b = true ↔ ∃ k, typeKey a = some k ∧ typeKey b = some k := by
  cases a <;> cases b <;>
    simp [type_eq, typeKey] <;>
    first
    | omega
    | (rename_i tpc1 p1 r1 tpc2 p2 r2
       by_cases h1 : tpc1 = 0 <;> by_cases h2 : tpc2 = 0 <;>
         simp [h1, h2] <;> aesop)
    | aesop

theorem type_eq_symm {a b : StructuralType} (h : type_eq a b = true) :
    type_eq b a = true := by
  rw [type_eq_iff_key] at h ⊢
  obtain ⟨k, h1, h2⟩ := h
  exact ⟨k, h2, h1⟩

theorem type_eq_trans {a b c : StructuralType} (h1 : type_eq a b = true)
    (h2 : type_eq b c = true) : type_eq a c = true := by
  rw [type_eq_iff_key] at h1 h2 ⊢
  obtain ⟨k, ha, hb⟩ := h1
  obtain ⟨k2, hb2, hc⟩ := h2
  rw [hb] at hb2
  injection hb2 with hk
  exact ⟨k, ha, hk ▸ hc⟩

/-! ### Hash agreement and stability -/

theorem foldl_hashStep_congr {f g : Nat → Nat} (l : List Nat)
    (h : ∀ x ∈ l, f x = g x) :
    ∀ r, l.foldl (fun r p => hashStep r (f p)) r
      = l.foldl (fun r p => hashStep r (g p)) r := by
  induction l with
  | nil => intro r; rfl
  | cons a l ih =>
    intro r
    simp only [List.foldl_cons]
    rw [h a (by simp)]
    exact ih (fun x hx => h x (by simp [hx])) _

/-- The hash body only reads the context through `get_type_from_id` and only
recurses below the hashed id. -/
theorem hash_id_body_congr {ctx1 ctx0 : TirContext} {h1 h2 : Nat → Nat}
    {i : Nat} (hg : get_type_from_id ctx1 i = get_type_from_id ctx0 i)
    (hh : ∀ j, j < i → h1 j = h2 j) :
    hash_id_body ctx1 h1 i = hash_id_body ctx0 h2 i := by
  rw [hash_id_body, hash_id_body, hg]
  match hd : get_type_from_id ctx0 i with
  | none => rfl
  | some d =>
    cases d with
    | primitive x | newtype x | struct x | enum x | typeParameter x => rfl
    | arrayLength l => rfl
    | array f s =>
      by_cases hf : f < i <;> by_cases hs : s < i <;>
        simp only [if_pos, if_neg, hf, hs, not_false_iff] <;>
        first
        | rw [hh f hf, hh s hs]
        | rw [hh f hf]
        | rw [hh s hs]
        | rfl
    | ptr e | ptrMut e | linear e =>
      by_cases he : e < i <;>
        simp only [if_pos, if_neg, he, not_false_iff]
      rw [hh e he]
    | multiptr f s | multiptrMut f s =>
      by_cases hf : f < i <;>
        simp only [if_pos, if_neg, hf, not_false_iff]
      rw [hh f hf]
    | function tpc params ret =>
      have hfold : ∀ r, params.foldl
          (fun r p => hashStep r (if p < i then h1 p else 0)) r
        = params.foldl
          (fun r p => hashStep r (if p < i then h2 p else 0)) r := by
        apply foldl_hashStep_congr
        intro x _
        by_cases hx : x < i
        · rw [if_pos hx, if_pos hx, hh x hx]
        · rw [if_neg hx, if_neg hx]
      by_cases hret : ret < i
      · simp only [if_pos hret, hh ret hret, hfold]
      · simp only [if_neg hret, hfold]
    | tagged n j args =>
      have hfold : ∀ r, args.foldl
          (fun r a => hashStep r (if a < i then h1 a else 0)) r
        = args.foldl
          (fun r a => hashStep r (if a < i then h2 a else 0)) r := by
        apply foldl_hashStep_congr
        intro x _
        by_cases hx : x < i
        · rw [if_pos hx, if_pos hx, hh x hx]
        · rw [if_neg hx, if_neg hx]
      exact hfold _

/-- Any fuel beyond the id evaluates the same hash. -/
theorem hash_idF_congr (ctx : TirContext) :
    ∀ i f g, i < f → i < g → hash_idF ctx f i = hash_idF ctx g i := by
  intro i
  induction i using Nat.strong_induction_on with
  | _ i ih =>
    intro f g hf hg
    obtain ⟨f2, rfl⟩ : ∃ m, f = m + 1 := ⟨f - 1, by omega⟩
    obtain ⟨g2, rfl⟩ : ∃ m, g = m + 1 := ⟨g - 1, by omega⟩
    simp only [hash_idF]
    exact hash_id_body_congr rfl (fun j hj => ih j hj f2 g2 (by omega)
      (by omega))

/-- One-step unfolding of the fuelled hash. -/
theorem hash_id_unfold (ctx : TirContext) (i : Nat) :
    hash_id ctx i = hash_id_body ctx (hash_id ctx) i := by
  rw [hash_id]
  simp only [hash_idF]
  exact hash_id_body_congr rfl
    (fun j hj => hash_idF_congr ctx j i (j + 1) hj (Nat.lt_succ_self j))

/-- The hash of a descriptor is a function of its identity key: the spec
function below recomputes tir.c `hash_type` from the key alone. -/
def keyHash (ctx : TirContext) : TypeTag × Option Int × List Nat → Nat
  | (.arrayLength, oi, _) =>
    hashStep (hashStep 17 TypeTag.arrayLength.toNat) (bits64 (oi.getD 0))
  | (.function, _, refs) =>
    match refs with
    | ret :: params =>
      let r := hashStep 17 TypeTag.function.toNat
      let r := hashStep r (bits64of32 0)
      let r := hashStep r params.length
      let r := params.foldl (fun r p => hashStep r (hash_ref ctx p)) r
      hashStep r (hash_ref ctx ret)
    | [] => 0
  | (.tagged, _, refs) =>
    match refs with
    | n :: args =>
      let r := hashStep 17 TypeTag.tagged.toNat
      let r := hashStep r n
      let r := hashStep r args.length
      args.foldl (fun r a => hashStep r (hash_ref ctx a)) r
    | [] => 0
  | (tag, _, refs) =>
    refs.foldl (fun r j => hashStep r (hash_ref ctx j)) (hashStep 17 tag.toNat)

theorem hash_type_eq_keyHash (ctx : TirContext) {a : StructuralType}
    {k : TypeTag × Option Int × List Nat} (h : typeKey a = some k) :
    hash_type ctx a = keyHash ctx k := by
  cases a with
  | primitive t => exact Option.noConfusion h
  | newtype t => exact Option.noConfusion h
  | struct t => exact Option.noConfusion h
  | enum t => exact Option.noConfusion h
  | typeParameter t => exact Option.noConfusion h
  | array f s =>
    simp only [typeKey] at h
    injection h with h2
    subst h2
    simp [hash_type, keyHash, StructuralType.tag]
  | arrayLength l =>
    simp only [typeKey] at h
    injection h with h2
    subst h2
    simp [hash_type, keyHash, StructuralType.tag]
  | ptr e =>
    simp only [typeKey] at h
    injection h with h2
    subst h2
    simp [hash_type, keyHash, StructuralType.tag]
  | ptrMut e =>
    simp only [typeKey] at h
    injection h with h2
    subst h2
    simp [hash_type, keyHash, StructuralType.tag]
  | linear e =>
    simp only [typeKey] at h
    injection h with h2
    subst h2
    simp [hash_type, keyHash, StructuralType.tag]
  | multiptr f s =>
    simp only [typeKey] at h
    injection h with h2
    subst h2
    simp [hash_type, keyHash, StructuralType.tag]
  | multiptrMut f s =>
    simp only [typeKey] at h
    injection h with h2
    subst h2
    simp [hash_type, keyHash, StructuralType.tag]
  | function tpc params ret =>
    simp only [typeKey] at h
    by_cases h0 : tpc = 0
    · rw [if_pos h0] at h
      injection h with h2
      subst h2
      subst h0
      simp [hash_type, keyHash, StructuralType.tag]
    · rw [if_neg h0] at h
      exact Option.noConfusion h
  | tagged n i args =>
    simp only [typeKey] at h
    injection h with h2
    subst h2
    simp [hash_type, keyHash, StructuralType.tag]

theorem hash_type_congr (ctx : TirContext) {a b : StructuralType}
    (h : type_eq a b = true) : hash_type ctx a = hash_type ctx b := by
  rw [type_eq_iff_key] at h
  obtain ⟨k, ha, hb⟩ := h
  rw [hash_type_eq_keyHash ctx ha, hash_type_eq_keyHash ctx hb]

theorem decode_refs_subset (t : Nat) (e : TypeEntry) :
    ∀ j ∈ (decodeEntry t e).identityRefs, j ∈ e.identityRefs := by
  cases e <;> simp [decodeEntry, StructuralType.identityRefs,
    TypeEntry.identityRefs]

theorem hash_id_eq_hash_type {ctx : TirContext}
    (hwf : ∀ t e, entryAt ctx t = some e → ∀ j ∈ e.identityRefs, j < t)
    {t : Nat} {d : StructuralType} (hd : get_type_from_id ctx t = some d) :
    hash_id ctx t = hash_type ctx d := by
  rw [hash_id_unfold, hash_id_body, hd]
  by_cases ht : t < TYPE_COUNT
  · rw [get_type_from_id, if_pos ht] at hd
    injection hd with hd2
    subst hd2
    rfl
  · rw [get_type_from_id, if_neg ht] at hd
    match he : entryAt ctx t with
    | none => rw [he] at hd; exact absurd hd (by simp)
    | some e =>
      rw [he] at hd
      injection hd with hd2
      have href : ∀ j ∈ d.identityRefs, j < t := fun j hj =>
        hwf t e he j (decode_refs_subset t e j (hd2 ▸ hj))
      cases d with
      | primitive x | newtype x | struct x | enum x | typeParameter x => rfl
      | arrayLength l => rfl
      | array f s =>
        have hf := href f (by simp [StructuralType.identityRefs])
        have hs := href s (by simp [StructuralType.identityRefs])
        simp [hash_type, hf, hs, hash_ref]
      | ptr e2 | ptrMut e2 | linear e2 =>
        have he2 := href e2 (by simp [StructuralType.identityRefs])
        simp [hash_type, he2, hash_ref]
      | multiptr f s | multiptrMut f s =>
        have hf := href f (by simp [StructuralType.identityRefs])
        simp [hash_type, hf, hash_ref]
      | function tpc params ret =>
        have hret := href ret (by simp [StructuralType.identityRefs])
        have hfold : ∀ r, params.foldl
            (fun r p => hashStep r (if p < t then hash_id ctx p else 0)) r
          = params.foldl (fun r p => hashStep r (hash_id ctx p)) r := by
          apply foldl_hashStep_congr
          intro x hx
          exact if_pos (href x (by simp [StructuralType.identityRefs, hx]))
        simp only [hash_type, hash_ref, if_pos hret]
        rw [hfold]
      | tagged n i args =>
        have hfold : ∀ r, args.foldl
            (fun r a => hashStep r (if a < t then hash_id ctx a else 0)) r
          = args.foldl (fun r a => hashStep r (hash_id ctx a)) r := by
          apply foldl_hashStep_congr
          intro x hx
          exact if_pos (href x (by simp [StructuralType.identityRefs, hx]))
        simp only [hash_type, hash_ref]
        rw [hfold]

theorem get_type_from_id_stable {ctx0 ctx1 : TirContext}
    (hP : Preserves ctx0 ctx1) {t : Nat}
    (ht : t < TYPE_COUNT + totalLen ctx0) :
    get_type_from_id ctx1 t = get_type_from_id ctx0 t := by
  rw [get_type_from_id, get_type_from_id, hP.entry_stable t ht]

theorem hash_type_congr_refs {ctx0 ctx1 : TirContext} {d : StructuralType}
    (h : ∀ j ∈ d.identityRefs, hash_id ctx1 j = hash_id ctx0 j) :
    hash_type ctx1 d = hash_type ctx0 d := by
  cases d with
  | primitive x | newtype x | struct x | enum x | typeParameter x => rfl
  | arrayLength l => rfl
  | array f s =>
    have hf := h f (by simp [StructuralType.identityRefs])
    have hs := h s (by simp [StructuralType.identityRefs])
    simp [hash_type, hash_ref, hf, hs]
  | ptr e | ptrMut e | linear e =>
    have he := h e (by simp [StructuralType.identityRefs])
    simp [hash_type, hash_ref, he]
  | multiptr f s | multiptrMut f s =>
    have hf := h f (by simp [StructuralType.identityRefs])
    simp [hash_type, hash_ref, hf]
  | function tpc params ret =>
    have hret := h ret (by simp [StructuralType.identityRefs])
    simp only [hash_type, hash_ref, hret]
    rw [foldl_hashStep_congr params
      (fun x hx => h x (by simp [StructuralType.identityRefs, hx]))]
  | tagged n i args =>
    simp only [hash_type, hash_ref]
    rw [foldl_hashStep_congr args
      (fun x hx => h x (by simp [StructuralType.identityRefs, hx]))]

theorem hash_id_stable {ctx0 ctx1 : TirContext} (hP : Preserves ctx0 ctx1)
    (hwf0 : ∀ t e, entryAt ctx0 t = some e → ∀ j ∈ e.identityRefs, j < t)
    (hwf1 : ∀ t e, entryAt ctx1 t = some e → ∀ j ∈ e.identityRefs, j < t) :
    ∀ t, t < TYPE_COUNT + totalLen ctx0 → hash_id ctx1 t = hash_id ctx0 t := by
  intro t
  induction t using Nat.strong_induction_on with
  | _ t ih =>
    intro ht
    match hd : get_type_from_id ctx0 t with
    | none =>
      rw [hash_id_unfold, hash_id_unfold, hash_id_body, hash_id_body,
        get_type_from_id_stable hP ht, hd]
    | some d =>
      rw [hash_id_eq_hash_type hwf0 hd,
        hash_id_eq_hash_type hwf1 (by rw [get_type_from_id_stable hP ht]; exact hd)]
      apply hash_type_congr_refs
      intro j hj
      have hjt : j < t := by
        by_cases htc : t < TYPE_COUNT
        · rw [get_type_from_id, if_pos htc] at hd
          injection hd with hd2
          subst hd2
          simp [StructuralType.identityRefs] at hj
        · rw [get_type_from_id, if_neg htc] at hd
          match he : entryAt ctx0 t with
          | none => rw [he] at hd; exact absurd hd (by simp)
          | some e =>
            rw [he] at hd
            injection hd with hd2
            exact hwf0 t e he j (decode_refs_subset t e j (hd2 ▸ hj))
      exact ih j hjt (Nat.lt_trans hjt ht)

theorem hash_type_stable {ctx0 ctx1 : TirContext} (hP : Preserves ctx0 ctx1)
    (hwf0 : ∀ t e, entryAt ctx0 t = some e → ∀ j ∈ e.identityRefs, j < t)
    (hwf1 : ∀ t e, entryAt ctx1 t = some e → ∀ j ∈ e.identityRefs, j < t)
    {d : StructuralType} (hd : DescOk ctx0 d) :
    hash_type ctx1 d = hash_type ctx0 d :=
  hash_type_congr_refs (fun j hj => hash_id_stable hP hwf0 hwf1 j (hd j hj))

theorem insert_slot_progress {set : TypeSet}
    (hlen : set.ptr.length = set.capacity)
    (hcount : (set.ptr.filter (· ≠ 0)).length < set.capacity)
    {s0 : Nat} (hs0 : s0 < set.capacity) :
    insert_slot_aux set set.capacity s0 ≠ none := by
  obtain ⟨s, hslt, hs⟩ := exists_empty_slot hlen hcount
  intro hnone
  have := insert_slot_none_spec hlen set.capacity s0 hs0 hnone
    (dist s0 s set.capacity) (dist_lt (Nat.lt_of_le_of_lt (Nat.zero_le _) hs0) _ _)
  rw [walk_dist s0 s hs0 hslt] at this
  exact this hs

/-! ### Effect of inserting into a slot -/

/-- Number of occupied slots. -/
def countNZ (l : List Nat) : Nat := (l.filter (· ≠ 0)).length

theorem countNZ_set_of_zero {l : List Nat} :
    ∀ s, l.get? s = some 0 → ∀ id, id ≠ 0 →
      countNZ (l.set s id) = countNZ l + 1 := by
  induction l with
  | nil => intro s hs; rw [List.get?_eq_none.mpr (by simp)] at hs; exact absurd hs (by simp)
  | cons a rest ih =>
    intro s hs id hid
    match s with
    | 0 =>
      injection hs with hs2
      subst hs2
      simp [countNZ, List.set, hid]
    | s + 1 =>
      simp only [List.get?] at hs
      simp only [List.set]
      by_cases ha : a = 0
      · simp [countNZ, ha, ih s hs id hid]
        have := ih s hs id hid
        simp [countNZ] at this
        omega
      · simp [countNZ, ha]
        have := ih s hs id hid
        simp [countNZ] at this
        omega

theorem mem_set_of_zero {l : List Nat} {s : Nat} (hs : l.get? s = some 0)
    {id : Nat} {x : Nat} (hx : x ≠ 0) :
    x ∈ l.set s id ↔ x ∈ l ∨ x = id := by
  have hslt : s < l.length := by
    by_contra hge
    rw [List.get?_eq_none.mpr (by omega)] at hs
    exact absurd hs (by simp)
  constructor
  · intro hmem
    exact List.mem_or_eq_of_mem_set hmem
  · rintro (hmem | rfl)
    · obtain ⟨i, hi⟩ := List.get?_of_mem hmem
      have hne : s ≠ i := by
        intro heq
        rw [← heq, hs] at hi
        exact hx (by injection hi with hh; exact hh.symm)
      have hgi : (l.set s id).get? i = l.get? i := List.get?_set_ne id l hne
      exact List.get?_mem (by rw [hgi, hi])
    · exact List.get?_mem (List.get?_set_eq_of_lt x hslt)

theorem dist_walk {cap : Nat} (s0 k : Nat) (hs0 : s0 < cap) (hk : k < cap) :
    dist s0 (walk s0 k cap) cap = k := by
  simp only [dist, walk]
  rcases Nat.lt_or_ge (s0 + k) cap with hlt | hge
  · rw [Nat.mod_eq_of_lt hlt]
    have h1 : s0 + k + cap - s0 = k + cap := by omega
    rw [h1, Nat.add_mod_right, Nat.mod_eq_of_lt hk]
  · have h2 : (s0 + k) % cap = s0 + k - cap := by
      rw [Nat.mod_eq_sub_mod hge, Nat.mod_eq_of_lt (by omega)]
    rw [h2]
    have h3 : s0 + k - cap + cap - s0 = k := by omega
    rw [h3, Nat.mod_eq_of_lt hk]

/-- Writing a fresh id into an empty slot that terminates an unbroken probe
chain from the id's home preserves the chain invariant. -/
theorem cluster_insert {ctx : TirContext} {set : TypeSet}
    (hlen : set.ptr.length = set.capacity) (hclu : clusterProp ctx set)
    {key : Nat} (hkey : key ≠ 0) {s : Nat}
    (hzero : slotVal set s = some 0)
    (hpath : ∀ m, m < dist (hash_ref ctx key % set.capacity) s set.capacity →
      ∃ id, slotVal set
        (walk (hash_ref ctx key % set.capacity) m set.capacity) = some id ∧
        id ≠ 0) :
    clusterProp ctx { set with ptr := set.ptr.set s key } := by
  have hslen : s < set.ptr.length := by
    by_contra hge
    rw [slotVal, List.get?_eq_none.mpr (by omega)] at hzero
    exact absurd hzero (by simp)
  have hcap : 0 < set.capacity := by omega
  intro s2 id2 hs2 hid2 k hk
  replace hk : k < dist (hash_ref ctx id2 % set.capacity) s2 set.capacity := hk
  simp only [slotVal] at hs2
  by_cases hss : s2 = s
  · subst hss
    rw [List.get?_set_eq_of_lt key hslen] at hs2
    injection hs2 with hkey2
    subst hkey2
    have hwalkne : walk (hash_ref ctx key % set.capacity) k set.capacity ≠ s2 := by
      intro heqw
      have := dist_walk (hash_ref ctx key % set.capacity) k
        (Nat.mod_lt _ hcap) (Nat.lt_trans hk (dist_lt hcap _ _))
      rw [heqw] at this
      omega
    obtain ⟨id3, hid3, hid3ne⟩ := hpath k hk
    refine ⟨id3, ?_, hid3ne⟩
    simp only [slotVal] at hid3 ⊢
    rw [List.get?_set_ne key set.ptr (fun hh => hwalkne hh.symm)]
    exact hid3
  · rw [List.get?_set_ne key set.ptr (fun hh => hss hh.symm)] at hs2
    have hold := hclu s2 id2 hs2 hid2 k hk
    obtain ⟨id3, hid3, hid3ne⟩ := hold
    by_cases hw : walk (hash_ref ctx id2 % set.capacity) k set.capacity = s
    · refine ⟨key, ?_, hkey⟩
      simp only [slotVal, hw]
      exact List.get?_set_eq_of_lt key hslen
    · refine ⟨id3, ?_, hid3ne⟩
      simp only [slotVal] at hid3 ⊢
      rw [List.get?_set_ne key set.ptr (fun hh => hw hh.symm)]
      exact hid3



theorem countNZ_replicate_zero (n : Nat) : countNZ (List.replicate n 0) = 0 := by
  induction n with
  | zero => rfl
  | succ n ih => simpa [countNZ, List.replicate] using ih

theorem slotVal_replicate {n : Nat} {c : TypeSet} (h : c.ptr = List.replicate n 0)
    {s : Nat} {id : Nat} (hs : slotVal c s = some id) : id = 0 := by
  rw [slotVal, h] at hs
  rcases Nat.lt_or_ge s n with hlt | hge
  · rw [List.get?_eq_get (by simpa using hlt)] at hs
    injection hs with hh
    rw [← hh]
    exact (List.get_replicate _ _).symm ▸ rfl
  · rw [List.get?_eq_none.mpr (by simpa using hge)] at hs
    exact absurd hs (by simp)

theorem typeset_insert_entry_spec {ctx : TirContext} {set : TypeSet}
    {key : Nat} (hlen : set.ptr.length = set.capacity)
    (hclu : clusterProp ctx set) (hkey : key ≠ 0) {set2 : TypeSet}
    (hrun : typeset_insert_entry ctx set key = some set2) :
    set2.capacity = set.capacity ∧ set2.count = set.count ∧
    set2.ptr.length = set.capacity ∧
    countNZ set2.ptr = countNZ set.ptr + 1 ∧
    (∀ x, x ≠ 0 → (x ∈ set2.ptr ↔ x ∈ set.ptr ∨ x = key)) ∧
    clusterProp ctx set2 := by
  rw [typeset_insert_entry] at hrun
  match hins : insert_slot_aux set set.capacity (hash_ref ctx key % set.capacity) with
  | none => rw [hins] at hrun; exact absurd hrun (by simp)
  | some s =>
    rw [hins] at hrun
    injection hrun with hrun2
    subst hrun2
    have hcap : 0 < set.capacity := by
      by_contra hz
      have hz : set.capacity = 0 := by omega
      rw [hz, insert_slot_aux] at hins
      exact absurd hins (by simp)
    obtain ⟨k, hkc, hks, hzero, hprior⟩ :=
      insert_slot_some_spec hlen set.capacity _ (Nat.mod_lt _ hcap) s hins
    have hdist : dist (hash_ref ctx key % set.capacity) s set.capacity = k := by
      rw [hks]; exact dist_walk _ k (Nat.mod_lt _ hcap) hkc
    refine ⟨rfl, rfl, by simpa [List.length_set] using hlen, ?_, ?_, ?_⟩
    · exact countNZ_set_of_zero s hzero key hkey
    · intro x hx
      exact mem_set_of_zero hzero hx
    · exact cluster_insert hlen hclu hkey hzero
        (fun m hm => hprior m (by omega))

theorem typeset_insert_entry_progress {ctx : TirContext} {set : TypeSet}
    {key : Nat} (hlen : set.ptr.length = set.capacity)
    (hcnt : countNZ set.ptr < set.capacity) :
    typeset_insert_entry ctx set key ≠ none := by
  have hcap : 0 < set.capacity := by
    have : 0 ≤ countNZ set.ptr := Nat.zero_le _
    omega
  rw [typeset_insert_entry]
  match hins : insert_slot_aux set set.capacity (hash_ref ctx key % set.capacity) with
  | none =>
    exact absurd hins (insert_slot_progress hlen hcnt (Nat.mod_lt _ hcap))
  | some s => simp

theorem resize_fold_spec {ctx : TirContext} : ∀ (l : List Nat) (s : TypeSet),
    s.ptr.length = s.capacity → clusterProp ctx s →
    countNZ s.ptr + countNZ l < s.capacity →
    ∃ s2, List.foldl (resizeStep ctx) (some s) l = some s2 ∧
      s2.capacity = s.capacity ∧ s2.count = s.count ∧
      s2.ptr.length = s.capacity ∧
      countNZ s2.ptr = countNZ s.ptr + countNZ l ∧
      (∀ x, x ≠ 0 → (x ∈ s2.ptr ↔ x ∈ s.ptr ∨ x ∈ l)) ∧
      clusterProp ctx s2 := by
  intro l
  induction l with
  | nil =>
    intro s hlen hclu hroom
    exact ⟨s, rfl, rfl, rfl, hlen, by simp [countNZ], fun x hx => by simp, hclu⟩
  | cons key rest ih =>
    intro s hlen hclu hroom
    by_cases hkey : key = 0
    · subst hkey
      have hcnt : countNZ (0 :: rest) = countNZ rest := by simp [countNZ]
      rw [hcnt] at hroom
      obtain ⟨s2, hfold, hc, hcount, hl, hnz, hmem, hclu2⟩ := ih s hlen hclu hroom
      refine ⟨s2, ?_, hc, hcount, hl, by rw [hnz, hcnt], ?_, hclu2⟩
      · rw [List.foldl_cons]
        simpa [resizeStep]
      · intro x hx
        rw [hmem x hx]
        constructor
        · rintro (h | h)
          · exact Or.inl h
          · exact Or.inr (by simp [h])
        · rintro (h | h)
          · exact Or.inl h
          · rcases List.mem_cons.mp h with h0 | h0
            · exact absurd h0 hx
            · exact Or.inr h0
    · have hcnt : countNZ (key :: rest) = countNZ rest + 1 := by
        simp [countNZ, hkey]
      rw [hcnt] at hroom
      have hins : typeset_insert_entry ctx s key ≠ none :=
        typeset_insert_entry_progress hlen (by omega)
      match hrun : typeset_insert_entry ctx s key with
      | none => exact absurd hrun hins
      | some s1 =>
        obtain ⟨hc1, hcount1, hl1, hnz1, hmem1, hclu1⟩ :=
          typeset_insert_entry_spec hlen hclu hkey hrun
        obtain ⟨s2, hfold, hc2, hcount2, hl2, hnz2, hmem2, hclu2⟩ :=
          ih s1 (hc1 ▸ hl1) hclu1 (by rw [hnz1, hc1]; omega)
        refine ⟨s2, ?_, by rw [hc2, hc1], by rw [hcount2, hcount1],
          by rw [hl2, hc1], by rw [hnz2, hnz1]; omega, ?_, hclu2⟩
        · rw [List.foldl_cons]
          simpa [resizeStep, hkey, hrun]
        · intro x hx
          rw [hmem2 x hx, hmem1 x hx]
          constructor
          · rintro ((h | h) | h)
            · exact Or.inl h
            · exact Or.inr (by simp [h])
            · exact Or.inr (by simp [h])
          · rintro (h | h)
            · exact Or.inl (Or.inl h)
            · rcases List.mem_cons.mp h with h0 | h0
              · exact Or.inl (Or.inr h0)
              · exact Or.inr h0

theorem typeset_resize_spec {ctx : TirContext} {set : TypeSet}
    (hlen : set.ptr.length = set.capacity)
    (hcnteq : set.count = countNZ set.ptr)
    (hcnt : set.count < set.capacity) :
    ∃ set2, typeset_resize ctx set = some set2 ∧
      set2.capacity = set.capacity * 2 ∧ set2.count = set.count ∧
      set2.ptr.length = set2.capacity ∧
      countNZ set2.ptr = set.count ∧
      (∀ x, x ≠ 0 → (x ∈ set2.ptr ↔ x ∈ set.ptr)) ∧
      clusterProp ctx set2 := by
  obtain ⟨s2, hfold, hc, hcount, hl, hnz, hmem, hclu⟩ :=
    resize_fold_spec set.ptr
      (⟨set.capacity * 2, set.count, List.replicate (set.capacity * 2) 0⟩ : TypeSet)
      (by simp)
      (fun s id hs hid _ _ => absurd (slotVal_replicate rfl hs) hid)
      (by simp only [countNZ_replicate_zero]; rw [← hcnteq]; simpa using (by omega : set.count < set.capacity * 2))
  simp only at hc hcount hl hnz hmem
  refine ⟨s2, ?_, hc, hcount, by rw [hl, hc], ?_, ?_, hclu⟩
  · rw [typeset_resize]
    exact hfold
  · rw [hnz, countNZ_replicate_zero, ← hcnteq]
    omega
  · intro x hx
    rw [hmem x hx]
    constructor
    · rintro (h | h)
      · exact absurd (List.eq_of_mem_replicate h) hx
      · exact h
    · exact Or.inr

/-! ### Stored entries of freshly interned descriptors -/

theorem toEntry_refs_subset {d : StructuralType} {e : TypeEntry}
    (h : d.toEntry = some e) : ∀ j ∈ e.identityRefs, j ∈ d.identityRefs := by
  cases d with
  | primitive t => exact Option.noConfusion h
  | newtype t => exact Option.noConfusion h
  | struct t => exact Option.noConfusion h
  | enum t => exact Option.noConfusion h
  | typeParameter t => exact Option.noConfusion h
  | array f s =>
    injection h with h
    subst h
    intro j hj
    simp only [TypeEntry.identityRefs, List.mem_cons,
      List.not_mem_nil, or_false] at hj
    simp only [StructuralType.identityRefs, List.mem_cons,
      List.not_mem_nil, or_false]
    tauto
  | arrayLength l =>
    injection h with h
    subst h
    intro j hj
    exact absurd hj (by simp [TypeEntry.identityRefs])
  | ptr elem => injection h with h; subst h; intro j hj; exact hj
  | ptrMut elem => injection h with h; subst h; intro j hj; exact hj
  | linear elem => injection h with h; subst h; intro j hj; exact hj
  | multiptr f s => injection h with h; subst h; intro j hj; exact hj
  | multiptrMut f s => injection h with h; subst h; intro j hj; exact hj
  | function tpc params ret =>
    injection h with h; subst h; intro j hj; exact hj
  | tagged n i args => injection h with h; subst h; intro j hj; exact hj

theorem toEntry_tag_structural {d : StructuralType} {e : TypeEntry}
    (h : d.toEntry = some e) : isStructuralTag e.tag = true := by
  cases d with
  | primitive t => exact Option.noConfusion h
  | newtype t => exact Option.noConfusion h
  | struct t => exact Option.noConfusion h
  | enum t => exact Option.noConfusion h
  | typeParameter t => exact Option.noConfusion h
  | array f s => injection h with h; subst h; rfl
  | arrayLength l => injection h with h; subst h; rfl
  | ptr elem => injection h with h; subst h; rfl
  | ptrMut elem => injection h with h; subst h; rfl
  | linear elem => injection h with h; subst h; rfl
  | multiptr f s => injection h with h; subst h; rfl
  | multiptrMut f s => injection h with h; subst h; rfl
  | function tpc params ret => injection h with h; subst h; rfl
  | tagged n i args => injection h with h; subst h; rfl

theorem typeKey_decode_toEntry {d : StructuralType} {e : TypeEntry}
    (h : d.toEntry = some e) (t : Nat) :
    typeKey (decodeEntry t e) = typeKey d := by
  cases d with
  | primitive t2 => exact Option.noConfusion h
  | newtype t2 => exact Option.noConfusion h
  | struct t2 => exact Option.noConfusion h
  | enum t2 => exact Option.noConfusion h
  | typeParameter t2 => exact Option.noConfusion h
  | array f s => injection h with h; subst h; rfl
  | arrayLength l => injection h with h; subst h; rfl
  | ptr elem => injection h with h; subst h; rfl
  | ptrMut elem => injection h with h; subst h; rfl
  | linear elem => injection h with h; subst h; rfl
  | multiptr f s => injection h with h; subst h; rfl
  | multiptrMut f s => injection h with h; subst h; rfl
  | function tpc params ret => injection h with h; subst h; rfl
  | tagged n i args => injection h with h; subst h; rfl

theorem hash_type_decode_toEntry (ctx : TirContext) {d : StructuralType}
    {e : TypeEntry} (h : d.toEntry = some e) (t : Nat) :
    hash_type ctx (decodeEntry t e) = hash_type ctx d := by
  cases d with
  | primitive t2 => exact Option.noConfusion h
  | newtype t2 => exact Option.noConfusion h
  | struct t2 => exact Option.noConfusion h
  | enum t2 => exact Option.noConfusion h
  | typeParameter t2 => exact Option.noConfusion h
  | array f s => injection h with h; subst h; rfl
  | arrayLength l => injection h with h; subst h; rfl
  | ptr elem => injection h with h; subst h; rfl
  | ptrMut elem => injection h with h; subst h; rfl
  | linear elem => injection h with h; subst h; rfl
  | multiptr f s => injection h with h; subst h; rfl
  | multiptrMut f s => injection h with h; subst h; rfl
  | function tpc params ret => injection h with h; subst h; rfl
  | tagged n i args => injection h with h; subst h; rfl

theorem typeKey_primitive_none (t : Nat) :
    typeKey (.primitive t) = none := rfl

/-- Descriptors of nominal entries have no identity key. -/
theorem typeKey_decode_nominal {t : Nat} {e : TypeEntry}
    (h : isStructuralTag e.tag = false) :
    typeKey (decodeEntry t e) = none := by
  cases e <;> simp_all [TypeEntry.tag, isStructuralTag, decodeEntry, typeKey]

theorem typeKey_eq_of_type_eq {a b : StructuralType}
    (h : type_eq a b = true) : typeKey a = typeKey b := by
  obtain ⟨k, h1, h2⟩ := (type_eq_iff_key a b).mp h
  rw [h1, h2]

/-! ### Ownership and id-space bookkeeping -/

theorem globalStructural_bound {ctx : TirContext} {x : Nat}
    (h : globalStructural ctx x) :
    TYPE_COUNT ≤ x ∧ x < TYPE_COUNT + ctx.global.types.length := by
  obtain ⟨e, hle, hget, _⟩ := h
  simp only [TYPE_COUNT] at hle ⊢
  have hlt : x - 14 < ctx.global.types.length := by
    by_contra hge
    rw [List.get?_eq_none.mpr (by simp only [TYPE_COUNT]; omega)] at hget
    exact absurd hget (by simp)
  omega

theorem threadStructural_bound {ctx : TirContext} {x : Nat}
    (h : threadStructural ctx x) :
    ∃ th, ctx.thread = some th ∧
      TYPE_COUNT + ctx.global.types.length ≤ x ∧
      x < TYPE_COUNT + ctx.global.types.length + th.types.length := by
  obtain ⟨th, e, hth, hle, hget, _⟩ := h
  simp only [TYPE_COUNT] at hle ⊢
  have hlt : x - 14 - ctx.global.types.length < th.types.length := by
    by_contra hge
    rw [List.get?_eq_none.mpr (by simp only [TYPE_COUNT]; omega)] at hget
    exact absurd hget (by simp)
  exact ⟨th, hth, hle, by omega⟩

theorem globalStructural_entryAt {ctx : TirContext} {x : Nat}
    (h : globalStructural ctx x) :
    ∃ e, entryAt ctx x = some e ∧ isStructuralTag e.tag = true := by
  obtain ⟨hle, hlt⟩ := globalStructural_bound h
  obtain ⟨e, hle2, hget, hs⟩ := h
  refine ⟨e, ?_, hs⟩
  simp only [TYPE_COUNT] at hle hlt
  have h1 : ¬ x < TYPE_COUNT := by simp only [TYPE_COUNT]; omega
  have h2 : x - TYPE_COUNT < ctx.global.types.length := by
    simp only [TYPE_COUNT]; omega
  rw [entryAt, if_neg h1, if_pos h2]
  exact hget

theorem threadStructural_entryAt {ctx : TirContext} {x : Nat}
    (h : threadStructural ctx x) :
    ∃ e, entryAt ctx x = some e ∧ isStructuralTag e.tag = true := by
  obtain ⟨th2, hth2, hle2, hlt2⟩ := threadStructural_bound h
  obtain ⟨th, e, hth, hle, hget, hs⟩ := h
  rw [hth] at hth2
  injection hth2 with hth3
  subst hth3
  refine ⟨e, ?_, hs⟩
  simp only [TYPE_COUNT] at hle2 hlt2
  have h1 : ¬ x < TYPE_COUNT := by simp only [TYPE_COUNT]; omega
  have h2 : ¬ x - TYPE_COUNT < ctx.global.types.length := by
    simp only [TYPE_COUNT]; omega
  rw [entryAt, if_neg h1, if_neg h2, hth]
  exact hget

/-- Conversely: a structural entry in range is owned by its layer. -/
theorem owns_of_entryAt {ctx : TirContext} {x : Nat} {e : TypeEntry}
    (he : entryAt ctx x = some e) (hs : isStructuralTag e.tag = true) :
    globalStructural ctx x ∨ threadStructural ctx x := by
  rw [entryAt] at he
  by_cases h1 : x < TYPE_COUNT
  · rw [if_pos h1] at he
    exact absurd he (by simp)
  · rw [if_neg h1] at he
    simp only [TYPE_COUNT, not_lt] at h1
    by_cases h2 : x - TYPE_COUNT < ctx.global.types.length
    · rw [if_pos h2] at he
      have hle : TYPE_COUNT ≤ x := by simp only [TYPE_COUNT]; omega
      exact Or.inl ⟨e, hle, he, hs⟩
    · rw [if_neg h2] at he
      simp only [TYPE_COUNT, not_lt] at h2
      match hth : ctx.thread with
      | none => rw [hth] at he; exact absurd he (by simp)
      | some th =>
        rw [hth] at he
        have hle : TYPE_COUNT + ctx.global.types.length ≤ x := by
          simp only [TYPE_COUNT]; omega
        exact Or.inr ⟨th, e, hth, hle, he, hs⟩

/-! ### Context surgery -/

/-- Hashing only reads the entry tables: contexts with the same entries hash
every id alike. -/
theorem hash_id_congr {ctx0 ctx1 : TirContext}
    (h : ∀ x, entryAt ctx1 x = entryAt ctx0 x) :
    ∀ t, hash_id ctx1 t = hash_id ctx0 t := by
  intro t
  induction t using Nat.strong_induction_on with
  | _ t ih =>
    have hg : get_type_from_id ctx1 t = get_type_from_id ctx0 t := by
      rw [get_type_from_id, get_type_from_id, h t]
    rw [hash_id_unfold, hash_id_unfold]
    exact hash_id_body_congr hg (fun j hj => ih j hj)

/-- Replacing only the interning set of the written table leaves every entry
in place. -/
theorem entryAt_set_only (ctx : TirContext) (s : TypeSet) (x : Nat) :
    entryAt (setTypes ctx { ctx_types ctx with set := s }) x
      = entryAt ctx x := by
  match hth : ctx.thread with
  | none => simp [setTypes, ctx_types, hth, entryAt]
  | some th => simp [setTypes, ctx_types, hth, entryAt]

theorem totalLen_set_only (ctx : TirContext) (s : TypeSet) :
    totalLen (setTypes ctx { ctx_types ctx with set := s })
      = totalLen ctx := by
  match hth : ctx.thread with
  | none => simp [setTypes, ctx_types, hth, totalLen]
  | some th => simp [setTypes, ctx_types, hth, totalLen]

theorem thread_set_only (ctx : TirContext) (s : TypeSet) :
    (setTypes ctx { ctx_types ctx with set := s }).thread.isSome
      = ctx.thread.isSome := by
  match hth : ctx.thread with
  | none => simp [setTypes, ctx_types, hth]
  | some th => simp [setTypes, ctx_types, hth]

theorem global_types_set_only (ctx : TirContext) (s : TypeSet) :
    (setTypes ctx { ctx_types ctx with set := s }).global.types
      = ctx.global.types := by
  match hth : ctx.thread with
  | none => simp [setTypes, ctx_types, hth]
  | some th => simp [setTypes, ctx_types, hth]

theorem gtfi_set_only (ctx : TirContext) (s : TypeSet) (x : Nat) :
    get_type_from_id (setTypes ctx { ctx_types ctx with set := s }) x
      = get_type_from_id ctx x := by
  rw [get_type_from_id, get_type_from_id, entryAt_set_only]

theorem preserves_set_only (ctx : TirContext) (s : TypeSet) :
    Preserves ctx (setTypes ctx { ctx_types ctx with set := s }) := by
  refine ⟨fun t _ => entryAt_set_only ctx s t, ?_, ?_, ?_⟩
  · rw [totalLen_set_only]
  · intro _; rw [global_types_set_only]
  · intro h; rw [← thread_set_only ctx s] at h; exact h

theorem globalStructural_set_only (ctx : TirContext) (s : TypeSet) (x : Nat) :
    globalStructural (setTypes ctx { ctx_types ctx with set := s }) x
      ↔ globalStructural ctx x := by
  rw [globalStructural, globalStructural, global_types_set_only]

theorem threadStructural_set_only (ctx : TirContext) (s : TypeSet) (x : Nat) :
    threadStructural (setTypes ctx { ctx_types ctx with set := s }) x
      ↔ threadStructural ctx x := by
  match hth : ctx.thread with
  | none =>
    simp [threadStructural, setTypes, ctx_types, hth]
  | some th =>
    simp [threadStructural, setTypes, ctx_types, hth]

/-- Transport a set invariant along equal ownership when the stored ids hash
alike in both contexts. -/
theorem SetInv_congr {ctx0 ctx1 : TirContext} {set : TypeSet}
    {owns0 owns1 : Nat → Prop}
    (hh : ∀ id, id ≠ 0 → id ∈ set.ptr → hash_ref ctx1 id = hash_ref ctx0 id)
    (ho : ∀ id, id ≠ 0 → (owns1 id ↔ owns0 id))
    (h : SetInv ctx0 set owns0) : SetInv ctx1 set owns1 := by
  refine ⟨h.len_eq, h.cap_ok, h.count_eq, h.count_lt, ?_, ?_⟩
  · intro id hid
    rw [ho id hid]
    exact h.mem_iff id hid
  · intro s id hs hid k hk
    have hmem : id ∈ set.ptr := List.get?_mem hs
    rw [hh id hid hmem] at hk ⊢
    exact h.cluster s id hs hid k hk

/-- Appending one entry to the written table leaves every existing id in
place. -/
theorem app_entryAt_lt {ctx : TirContext} (e : TypeEntry) (s : TypeSet)
    {x : Nat} (hx : x < TYPE_COUNT + totalLen ctx) :
    entryAt (setTypes ctx ⟨(ctx_types ctx).types ++ [e], s⟩) x
      = entryAt ctx x := by
  simp only [totalLen, TYPE_COUNT] at hx
  match hth : ctx.thread with
  | none =>
    simp only [hth, Nat.add_zero] at hx
    simp only [setTypes, ctx_types, hth, entryAt, List.length_append,
      List.length_singleton, TYPE_COUNT]
    by_cases h1 : x < 14
    · rw [if_pos h1, if_pos h1]
    · by_cases h2 : x - 14 < ctx.global.types.length
      · have h3 : x - 14 < ctx.global.types.length + 1 := by omega
        rw [if_neg h1, if_neg h1, if_pos h3, if_pos h2, List.get?_append h2]
      · omega
  | some th =>
    simp only [hth] at hx
    simp only [setTypes, ctx_types, hth, entryAt, List.length_append,
      List.length_singleton, TYPE_COUNT]
    by_cases h1 : x < 14
    · rw [if_pos h1, if_pos h1]
    · by_cases h2 : x - 14 < ctx.global.types.length
      · rw [if_neg h1, if_neg h1, if_pos h2, if_pos h2]
      · have h3 : x - 14 - ctx.global.types.length < th.types.length := by
          omega
        rw [if_neg h1, if_neg h1, if_neg h2, if_neg h2,
          List.get?_append h3]

/-- The appended entry is readable at the fresh id. -/
theorem app_entryAt_new {ctx : TirContext} (e : TypeEntry) (s : TypeSet) :
    entryAt (setTypes ctx ⟨(ctx_types ctx).types ++ [e], s⟩)
        (TYPE_COUNT + totalLen ctx)
      = some e := by
  match hth : ctx.thread with
  | none =>
    simp only [setTypes, ctx_types, hth, entryAt, totalLen, TYPE_COUNT,
      List.length_append, List.length_singleton, Nat.add_zero]
    have h1 : ¬ 14 + ctx.global.types.length < 14 := by omega
    have h2 : 14 + ctx.global.types.length - 14
        < ctx.global.types.length + 1 := by omega
    rw [if_neg h1, if_pos h2]
    have h3 : 14 + ctx.global.types.length - 14
        = ctx.global.types.length := by omega
    rw [h3]
    exact List.get?_concat_length _ _
  | some th =>
    simp only [setTypes, ctx_types, hth, entryAt, totalLen, TYPE_COUNT,
      List.length_append, List.length_singleton]
    have h1 : ¬ 14 + (ctx.global.types.length + th.types.length) < 14 := by
      omega
    have h2 : ¬ 14 + (ctx.global.types.length + th.types.length) - 14
        < ctx.global.types.length := by omega
    rw [if_neg h1, if_neg h2]
    have h3 : 14 + (ctx.global.types.length + th.types.length) - 14
        - ctx.global.types.length = th.types.length := by omega
    rw [h3]
    exact List.get?_concat_length _ _

theorem app_totalLen (ctx : TirContext) (e : TypeEntry) (s : TypeSet) :
    totalLen (setTypes ctx ⟨(ctx_types ctx).types ++ [e], s⟩)
      = totalLen ctx + 1 := by
  match hth : ctx.thread with
  | none => simp [setTypes, ctx_types, hth, totalLen]
  | some th => simp [setTypes, ctx_types, hth, totalLen]; omega

theorem app_thread_isSome (ctx : TirContext) (e : TypeEntry) (s : TypeSet) :
    (setTypes ctx ⟨(ctx_types ctx).types ++ [e], s⟩).thread.isSome
      = ctx.thread.isSome := by
  match hth : ctx.thread with
  | none => simp [setTypes, ctx_types, hth]
  | some th => simp [setTypes, ctx_types, hth]

theorem app_global_some {ctx : TirContext} {th : TypeList}
    (hth : ctx.thread = some th) (e : TypeEntry) (s : TypeSet) :
    (setTypes ctx ⟨(ctx_types ctx).types ++ [e], s⟩).global
      = ctx.global := by
  simp [setTypes, ctx_types, hth]

theorem preserves_app (ctx : TirContext) (e : TypeEntry) (s : TypeSet) :
    Preserves ctx (setTypes ctx ⟨(ctx_types ctx).types ++ [e], s⟩) := by
  refine ⟨fun t ht => app_entryAt_lt e s ht, ?_, ?_, ?_⟩
  · rw [app_totalLen]; omega
  · intro h
    match hth : ctx.thread with
    | none => rw [hth] at h; exact absurd h (by simp)
    | some th => rw [app_global_some hth]
  · intro h; rw [← app_thread_isSome ctx e s] at h; exact h

theorem globalStructural_record {ctx : TirContext} {tl : TypeList} {x : Nat} :
    globalStructural { ctx with global := tl } x
      ↔ ∃ e2, TYPE_COUNT ≤ x ∧ tl.types.get? (x - TYPE_COUNT) = some e2 ∧
          isStructuralTag e2.tag = true := by
  simp [globalStructural]

theorem threadStructural_record {ctx : TirContext} {tl : TypeList} {x : Nat} :
    threadStructural { ctx with thread := some tl } x
      ↔ ∃ e2, TYPE_COUNT + ctx.global.types.length ≤ x ∧
          tl.types.get? (x - TYPE_COUNT - ctx.global.types.length) = some e2 ∧
          isStructuralTag e2.tag = true := by
  simp [threadStructural]

/-- Ownership after an append, global mode: the new id joins the global
layer. -/
theorem app_globalStructural_none {ctx : TirContext}
    (hth : ctx.thread = none) {e : TypeEntry}
    (hs : isStructuralTag e.tag = true) (s : TypeSet) (x : Nat) :
    globalStructural (setTypes ctx ⟨(ctx_types ctx).types ++ [e], s⟩) x
      ↔ globalStructural ctx x ∨ x = TYPE_COUNT + totalLen ctx := by
  have hC : setTypes ctx ⟨(ctx_types ctx).types ++ [e], s⟩
      = { ctx with global := ⟨ctx.global.types ++ [e], s⟩ } := by
    simp [setTypes, ctx_types, hth]
  rw [hC, globalStructural_record]
  constructor
  · rintro ⟨e2, hle, hget, hs2⟩
    by_cases hidx : x - TYPE_COUNT < ctx.global.types.length
    · rw [List.get?_append hidx] at hget
      exact Or.inl ⟨e2, hle, hget, hs2⟩
    · right
      have hlen : x - TYPE_COUNT < ctx.global.types.length + 1 := by
        obtain ⟨hlt, -⟩ := List.get?_eq_some.mp hget
        simpa using hlt
      simp only [totalLen, hth, TYPE_COUNT, Nat.add_zero] at *
      omega
  · rintro (⟨e2, hle, hget, hs2⟩ | hx)
    · refine ⟨e2, hle, ?_, hs2⟩
      obtain ⟨hlt, -⟩ := List.get?_eq_some.mp hget
      rw [List.get?_append hlt]
      exact hget
    · subst hx
      refine ⟨e, ?_, ?_, hs⟩
      · simp only [TYPE_COUNT]; omega
      · have h4 : TYPE_COUNT + totalLen ctx - TYPE_COUNT
            = ctx.global.types.length := by
          simp only [totalLen, hth, TYPE_COUNT]; omega
        rw [h4]
        exact List.get?_concat_length _ _

/-- With no thread layer, the appended context still has none. -/
theorem app_threadStructural_none {ctx : TirContext}
    (hth : ctx.thread = none) (e : TypeEntry) (s : TypeSet) (x : Nat) :
    ¬ threadStructural (setTypes ctx ⟨(ctx_types ctx).types ++ [e], s⟩) x := by
  rintro ⟨th2, e2, hth2, -⟩
  have : (setTypes ctx ⟨(ctx_types ctx).types ++ [e], s⟩).thread = none := by
    simp [setTypes, ctx_types, hth]
  rw [this] at hth2
  exact Option.noConfusion hth2

/-- Ownership after an append, thread mode: the global layer is untouched. -/
theorem app_globalStructural_some {ctx : TirContext} {th : TypeList}
    (hth : ctx.thread = some th) (e : TypeEntry) (s : TypeSet) (x : Nat) :
    globalStructural (setTypes ctx ⟨(ctx_types ctx).types ++ [e], s⟩) x
      ↔ globalStructural ctx x := by
  rw [globalStructural, globalStructural, app_global_some hth]

/-- Ownership after an append, thread mode: the new id joins the thread
layer. -/
theorem app_threadStructural_some {ctx : TirContext} {th : TypeList}
    (hth : ctx.thread = some th) {e : TypeEntry}
    (hs : isStructuralTag e.tag = true) (s : TypeSet) (x : Nat) :
    threadStructural (setTypes ctx ⟨(ctx_types ctx).types ++ [e], s⟩) x
      ↔ threadStructural ctx x ∨ x = TYPE_COUNT + totalLen ctx := by
  have hC : setTypes ctx ⟨(ctx_types ctx).types ++ [e], s⟩
      = { ctx with thread := some ⟨th.types ++ [e], s⟩ } := by
    simp [setTypes, ctx_types, hth]
  rw [hC, threadStructural_record]
  constructor
  · rintro ⟨e2, hle, hget, hs2⟩
    by_cases hidx : x - TYPE_COUNT - ctx.global.types.length
        < th.types.length
    · rw [List.get?_append hidx] at hget
      exact Or.inl ⟨th, e2, hth, hle, hget, hs2⟩
    · right
      have hlen : x - TYPE_COUNT - ctx.global.types.length
          < th.types.length + 1 := by
        obtain ⟨hlt, -⟩ := List.get?_eq_some.mp hget
        simpa using hlt
      simp only [totalLen, hth, TYPE_COUNT] at *
      omega
  · rintro (⟨th2, e2, hth2, hle, hget, hs2⟩ | hx)
    · rw [hth] at hth2
      injection hth2 with h3
      subst h3
      refine ⟨e2, hle, ?_, hs2⟩
      obtain ⟨hlt, -⟩ := List.get?_eq_some.mp hget
      rw [List.get?_append hlt]
      exact hget
    · subst hx
      refine ⟨e, ?_, ?_, hs⟩
      · simp only [totalLen, hth, TYPE_COUNT]; omega
      · have h4 : TYPE_COUNT + totalLen ctx - TYPE_COUNT
            - ctx.global.types.length = th.types.length := by
          simp only [totalLen, hth, TYPE_COUNT]; omega
        rw [h4]
        exact List.get?_concat_length _ _

/-- Specification of the set preparation step at the head of tir.c
`new_structural_type`: initialise an empty set to 64 slots, grow at ¾ load,
otherwise keep the set.  The result always has room below ¾ load. -/
theorem set_step_spec {ctx : TirContext} {set0 : TypeSet} {owns : Nat → Prop}
    (hSI : SetInv ctx set0 owns) {set : TypeSet}
    (hrun : (if set0.capacity = 0 then some (typeset_init 64)
      else if set0.count * 4 / set0.capacity ≥ 3 then typeset_resize ctx set0
      else some set0) = some set) :
    set.ptr.length = set.capacity ∧ 4 ≤ set.capacity ∧
    set.count = countNZ set.ptr ∧ set.count * 4 < 3 * set.capacity ∧
    (∀ x, x ≠ 0 → (x ∈ set.ptr ↔ owns x)) ∧ clusterProp ctx set := by
  by_cases hcap0 : set0.capacity = 0
  · rw [if_pos hcap0] at hrun
    injection hrun with hrun2
    subst hrun2
    have hptr0 : set0.ptr = [] := by
      have := hSI.len_eq
      rw [hcap0] at this
      exact List.eq_nil_of_length_eq_zero this
    refine ⟨by simp [typeset_init], by simp [typeset_init],
      (countNZ_replicate_zero 64).symm, by simp [typeset_init],
      ?_, ?_⟩
    · intro x hx
      have hno : ¬ owns x := by
        rw [← hSI.mem_iff x hx, hptr0]
        simp
      simp only [typeset_init, List.mem_replicate]
      constructor
      · rintro ⟨-, h⟩
        exact absurd h hx
      · intro h
        exact absurd h hno
    · intro s id hs hid
      exact absurd (slotVal_replicate rfl hs) hid
  · rw [if_neg hcap0] at hrun
    have hcap4 : 4 ≤ set0.capacity := by
      rcases hSI.cap_ok with h | h
      · exact absurd h hcap0
      · exact h
    have hcnt : set0.count < set0.capacity := by
      rcases hSI.count_lt with h | h
      · exact absurd h hcap0
      · exact h
    by_cases hload : set0.count * 4 / set0.capacity ≥ 3
    · rw [if_pos hload] at hrun
      obtain ⟨set2, hres, hc, hcount, hl, hnz, hmem, hclu⟩ :=
        typeset_resize_spec hSI.len_eq hSI.count_eq hcnt
      rw [hres] at hrun
      injection hrun with hrun2
      subst hrun2
      refine ⟨hl, by omega, by rw [hnz, hcount], by omega, ?_, hclu⟩
      intro x hx
      rw [hmem x hx]
      exact hSI.mem_iff x hx
    · rw [if_neg hload] at hrun
      injection hrun with hrun2
      subst hrun2
      have hlt : set0.count * 4 < 3 * set0.capacity := by
        have hdiv : set0.count * 4 / set0.capacity < 3 := by omega
        have := (Nat.div_lt_iff_lt_mul (by omega : 0 < set0.capacity)).mp hdiv
        omega
      exact ⟨hSI.len_eq, hcap4, hSI.count_eq, hlt, hSI.mem_iff, hSI.cluster⟩

theorem entryAt_none_of_ge {ctx : TirContext} {x : Nat}
    (h : TYPE_COUNT + totalLen ctx ≤ x) : entryAt ctx x = none := by
  simp only [totalLen, TYPE_COUNT] at h
  match hth : ctx.thread with
  | none =>
    simp only [hth] at h
    have h1 : ¬ x < TYPE_COUNT := by simp only [TYPE_COUNT]; omega
    have h2 : ¬ x - TYPE_COUNT < ctx.global.types.length := by
      simp only [TYPE_COUNT]; omega
    rw [entryAt, if_neg h1, if_neg h2, hth]
  | some th =>
    simp only [hth] at h
    have h1 : ¬ x < TYPE_COUNT := by simp only [TYPE_COUNT]; omega
    have h2 : ¬ x - TYPE_COUNT < ctx.global.types.length := by
      simp only [TYPE_COUNT]; omega
    have h3 : th.types.length ≤ x - TYPE_COUNT - ctx.global.types.length := by
      simp only [TYPE_COUNT]; omega
    rw [entryAt, if_neg h1, if_neg h2, hth]
    exact List.get?_eq_none.mpr h3

/-- Ids owned by the table written through the context (`ctx_types`). -/
def writtenStructural (ctx : TirContext) (x : Nat) : Prop :=
  match ctx.thread with
  | some _ => threadStructural ctx x
  | none => globalStructural ctx x

theorem written_set_inv {ctx : TirContext} (hInv : Inv ctx) :
    SetInv ctx (ctx_types ctx).set (writtenStructural ctx) := by
  match hth : ctx.thread with
  | none =>
    have h1 : ctx_types ctx = ctx.global := by rw [ctx_types, hth]
    rw [h1]
    refine SetInv_congr (fun id _ _ => rfl) (fun id _ => ?_) hInv.globalSet
    rw [writtenStructural, hth]
  | some th =>
    have h1 : ctx_types ctx = th := by rw [ctx_types, hth]
    rw [h1]
    refine SetInv_congr (fun id _ _ => rfl) (fun id _ => ?_)
      (hInv.threadSet th hth)
    rw [writtenStructural, hth]

theorem globalStructural_lt_total {ctx : TirContext} {x : Nat}
    (h : globalStructural ctx x) : x < TYPE_COUNT + totalLen ctx := by
  obtain ⟨-, hlt⟩ := globalStructural_bound h
  have : ctx.global.types.length ≤ totalLen ctx := by
    rw [totalLen]
    omega
  omega

theorem threadStructural_lt_total {ctx : TirContext} {x : Nat}
    (h : threadStructural ctx x) : x < TYPE_COUNT + totalLen ctx := by
  obtain ⟨th, hth, -, hlt⟩ := threadStructural_bound h
  have : totalLen ctx = ctx.global.types.length + th.types.length := by
    rw [totalLen, hth]
  omega

theorem writtenStructural_lt_total {ctx : TirContext} {x : Nat}
    (h : writtenStructural ctx x) : x < TYPE_COUNT + totalLen ctx := by
  rw [writtenStructural] at h
  match hth : ctx.thread with
  | none =>
    rw [hth] at h
    exact globalStructural_lt_total h
  | some th =>
    rw [hth] at h
    exact threadStructural_lt_total h

theorem writtenStructural_pos {ctx : TirContext} {x : Nat}
    (h : writtenStructural ctx x) : x ≠ 0 := by
  rw [writtenStructural] at h
  match hth : ctx.thread with
  | none =>
    rw [hth] at h
    obtain ⟨hle, -⟩ := globalStructural_bound h
    simp only [TYPE_COUNT] at hle
    omega
  | some th =>
    rw [hth] at h
    obtain ⟨-, -, hle, -⟩ := threadStructural_bound h
    simp only [TYPE_COUNT] at hle
    omega

/-- Every id with a readable descriptor is in range. -/
theorem gtfi_lt {ctx : TirContext} {i : Nat} {di : StructuralType}
    (h : get_type_from_id ctx i = some di) :
    i < TYPE_COUNT + totalLen ctx := by
  by_contra hge
  push_neg at hge
  have h14 : ¬ i < TYPE_COUNT := by
    simp only [TYPE_COUNT] at hge ⊢
    omega
  rw [get_type_from_id, if_neg h14, entryAt_none_of_ge hge] at h
  exact absurd h (by simp)

theorem descEq_of_gtfi {ctx : TirContext} {x : Nat} {dx d : StructuralType}
    (hx : get_type_from_id ctx x = some dx) (heq : type_eq dx d = true) :
    descEq ctx x d = true := by
  rw [descEq, hx]
  exact heq

/-- Hit path of `new_structural_type`: an id whose stored descriptor is
`type_eq` to the probe descriptor is returned; only the written set (already
grown) is replaced. -/
theorem nst_hit_spec {ctx : TirContext} {d dfound : StructuralType}
    {found : Nat} {set : TypeSet} (hInv : Inv ctx)
    (hfound : get_type_from_id ctx found = some dfound)
    (heq : type_eq dfound d = true)
    (hlen : set.ptr.length = set.capacity) (hcap4 : 4 ≤ set.capacity)
    (hcnt : set.count = countNZ set.ptr)
    (hload : set.count * 4 < 3 * set.capacity)
    (hmem : ∀ x, x ≠ 0 → (x ∈ set.ptr ↔ writtenStructural ctx x))
    (hclu : clusterProp ctx set) :
    Preserves ctx (setTypes ctx { ctx_types ctx with set := set }) ∧
    Inv (setTypes ctx { ctx_types ctx with set := set }) ∧
    (∃ dd, get_type_from_id (setTypes ctx { ctx_types ctx with set := set })
        found = some dd ∧ typeKey dd = typeKey d) ∧
    ∀ x dx, get_type_from_id ctx x = some dx → type_eq dx d = true →
      found = x := by
  have hhash : ∀ x, hash_ref (setTypes ctx { ctx_types ctx with set := set }) x
      = hash_ref ctx x := fun x => hash_id_congr (entryAt_set_only ctx set) x
  have hwf2 : ∀ t2 e2,
      entryAt (setTypes ctx { ctx_types ctx with set := set }) t2 = some e2 →
      ∀ j ∈ e2.identityRefs, j < t2 := by
    intro t2 e2 he
    rw [entryAt_set_only] at he
    exact hInv.wfRefs t2 e2 he
  have hsetinv : SetInv (setTypes ctx { ctx_types ctx with set := set }) set
      (writtenStructural ctx) := by
    refine ⟨hlen, Or.inr hcap4, hcnt, Or.inr (by omega), hmem, ?_⟩
    intro s id hs hid k hk
    rw [hhash id] at hk ⊢
    exact hclu s id hs hid k hk
  refine ⟨preserves_set_only ctx set, ⟨hwf2, ?_, ?_, ?_⟩, ?_, ?_⟩
  · -- global set invariant
    match hth : ctx.thread with
    | none =>
      have hgs : (setTypes ctx { ctx_types ctx with set := set }).global.set
          = set := by
        simp [setTypes, ctx_types, hth]
      rw [hgs]
      refine SetInv_congr (fun id _ _ => rfl) (fun id _ => ?_) hsetinv
      rw [globalStructural_set_only, writtenStructural, hth]
    | some th =>
      have hgs : (setTypes ctx { ctx_types ctx with set := set }).global
          = ctx.global := by
        simp [setTypes, ctx_types, hth]
      rw [hgs]
      refine SetInv_congr (fun id _ _ => hhash id) (fun id _ => ?_)
        hInv.globalSet
      rw [globalStructural_set_only]
  · -- thread set invariant
    intro th2 hth2
    match hth : ctx.thread with
    | none =>
      have : (setTypes ctx { ctx_types ctx with set := set }).thread
          = none := by
        simp [setTypes, ctx_types, hth]
      rw [this] at hth2
      exact Option.noConfusion hth2
    | some th =>
      have hthr : (setTypes ctx { ctx_types ctx with set := set }).thread
          = some ({ th with set := set } : TypeList) := by
        simp [setTypes, ctx_types, hth]
      rw [hthr] at hth2
      injection hth2 with hth3
      subst hth3
      refine SetInv_congr (fun id _ _ => rfl) (fun id _ => ?_) hsetinv
      rw [threadStructural_set_only, writtenStructural, hth]
  · -- uniqueness is untouched
    intro i j di dj hi hj hne
    rw [gtfi_set_only] at hi hj
    exact hInv.uniq i j di dj hi hj hne
  · -- the returned id decodes to an equal key
    refine ⟨dfound, ?_, typeKey_eq_of_type_eq heq⟩
    rw [gtfi_set_only]
    exact hfound
  · -- any equal stored descriptor is this very id
    intro x dx hx hxeq
    by_contra hne
    have hF : type_eq dx dfound = false :=
      hInv.uniq x found dx dfound hx hfound (fun hc => hne (hc ▸ rfl))
    have hT : type_eq dx dfound = true :=
      type_eq_trans hxeq (type_eq_symm heq)
    rw [hT] at hF
    exact Bool.noConfusion hF

/-- Fresh path of `new_structural_type`: no equal descriptor is stored
anywhere, so a new entry is appended, its id is written into the empty probe
slot, and the whole invariant survives. -/
theorem nst_fresh_spec {ctx : TirContext} {d : StructuralType} {e : TypeEntry}
    {set : TypeSet} {slot : Nat} {t : Nat} (hInv : Inv ctx)
    (hok : DescOk ctx d) (hent : d.toEntry = some e)
    (ht : t = TYPE_COUNT + totalLen ctx)
    (hlen : set.ptr.length = set.capacity) (hcap4 : 4 ≤ set.capacity)
    (hcnt : set.count = countNZ set.ptr)
    (hload : set.count * 4 < 3 * set.capacity)
    (hmem : ∀ x, x ≠ 0 → (x ∈ set.ptr ↔ writtenStructural ctx x))
    (hclu : clusterProp ctx set)
    (hprobe : typeset_probe ctx set d set.capacity
      (hash_type ctx d % set.capacity) = some (.inr slot))
    (hnohit : ∀ x dx, get_type_from_id ctx x = some dx →
      type_eq dx d = true → False) :
    Preserves ctx (setTypes ctx ⟨(ctx_types ctx).types ++ [e],
      { set with ptr := set.ptr.set slot t, count := set.count + 1 }⟩) ∧
    Inv (setTypes ctx ⟨(ctx_types ctx).types ++ [e],
      { set with ptr := set.ptr.set slot t, count := set.count + 1 }⟩) ∧
    (∃ dd, get_type_from_id (setTypes ctx ⟨(ctx_types ctx).types ++ [e],
        { set with ptr := set.ptr.set slot t, count := set.count + 1 }⟩) t
        = some dd ∧ typeKey dd = typeKey d) ∧
    ∀ x dx, get_type_from_id ctx x = some dx → type_eq dx d = true →
      t = x := by
  have hcap : 0 < set.capacity := by omega
  have hs0 : hash_type ctx d % set.capacity < set.capacity := Nat.mod_lt _ hcap
  obtain ⟨k, hkc, hks, hzero, hprior⟩ :=
    probe_inr_spec hlen set.capacity _ hs0 slot hprobe
  have htpos : t ≠ 0 := by
    rw [ht]; simp only [TYPE_COUNT]; omega
  have hT14 : ¬ t < TYPE_COUNT := by
    rw [ht]; simp only [TYPE_COUNT]; omega
  have hestr : isStructuralTag e.tag = true := toEntry_tag_structural hent
  have hP : Preserves ctx (setTypes ctx ⟨(ctx_types ctx).types ++ [e],
      { set with ptr := set.ptr.set slot t, count := set.count + 1 }⟩) :=
    preserves_app ctx e _
  have hwf2 : ∀ t2 e2, entryAt (setTypes ctx ⟨(ctx_types ctx).types ++ [e],
      { set with ptr := set.ptr.set slot t, count := set.count + 1 }⟩) t2
      = some e2 → ∀ j ∈ e2.identityRefs, j < t2 := by
    intro t2 e2 he
    rcases Nat.lt_trichotomy t2 (TYPE_COUNT + totalLen ctx) with hlt | heq2 | hgt
    · rw [app_entryAt_lt e _ hlt] at he
      exact hInv.wfRefs t2 e2 he
    · rw [← ht] at heq2
      subst heq2
      rw [ht, app_entryAt_new] at he
      injection he with he2
      subst he2
      intro j hj
      rw [ht]
      exact hok j (toEntry_refs_subset hent j hj)
    · rw [entryAt_none_of_ge (by rw [app_totalLen]; omega)] at he
      exact absurd he (by simp)
  have hhash : ∀ x, x < TYPE_COUNT + totalLen ctx →
      hash_id (setTypes ctx ⟨(ctx_types ctx).types ++ [e],
        { set with ptr := set.ptr.set slot t, count := set.count + 1 }⟩) x
      = hash_id ctx x := hash_id_stable hP hInv.wfRefs hwf2
  have hgtfiNew : get_type_from_id (setTypes ctx
      ⟨(ctx_types ctx).types ++ [e],
        { set with ptr := set.ptr.set slot t, count := set.count + 1 }⟩) t
      = some (decodeEntry t e) := by
    rw [get_type_from_id, if_neg hT14, ht, app_entryAt_new, ← ht]
    rfl
  have hhasht : hash_ref (setTypes ctx ⟨(ctx_types ctx).types ++ [e],
      { set with ptr := set.ptr.set slot t, count := set.count + 1 }⟩) t
      = hash_type ctx d := by
    rw [hash_ref, hash_id_eq_hash_type hwf2 hgtfiNew,
      hash_type_decode_toEntry _ hent,
      hash_type_stable hP hInv.wfRefs hwf2 hok]
  have hstored_hash : ∀ id, id ≠ 0 → id ∈ set.ptr →
      hash_ref (setTypes ctx ⟨(ctx_types ctx).types ++ [e],
        { set with ptr := set.ptr.set slot t, count := set.count + 1 }⟩) id
      = hash_ref ctx id := by
    intro id hid hmemid
    exact hhash id (writtenStructural_lt_total ((hmem id hid).mp hmemid))
  have hclu2 : clusterProp (setTypes ctx ⟨(ctx_types ctx).types ++ [e],
      { set with ptr := set.ptr.set slot t, count := set.count + 1 }⟩)
      set := by
    intro s id hs hid kk hkk
    have hmemid : id ∈ set.ptr := List.get?_mem hs
    rw [hstored_hash id hid hmemid] at hkk ⊢
    exact hclu s id hs hid kk hkk
  have hdist : dist (hash_type ctx d % set.capacity) slot set.capacity
      = k := by
    rw [hks]
    exact dist_walk _ k hs0 hkc
  have hpath : ∀ m, m < dist (hash_ref (setTypes ctx
        ⟨(ctx_types ctx).types ++ [e],
          { set with ptr := set.ptr.set slot t, count := set.count + 1 }⟩) t
        % set.capacity) slot set.capacity →
      ∃ id, slotVal set (walk (hash_ref (setTypes ctx
        ⟨(ctx_types ctx).types ++ [e],
          { set with ptr := set.ptr.set slot t, count := set.count + 1 }⟩) t
        % set.capacity) m set.capacity) = some id ∧ id ≠ 0 := by
    rw [hhasht, hdist]
    intro m hm
    obtain ⟨id, hsl, hne, -⟩ := hprior m hm
    exact ⟨id, hsl, hne⟩
  have hcluIns := cluster_insert hlen hclu2 htpos hzero hpath
  have hsetinv2 : SetInv (setTypes ctx ⟨(ctx_types ctx).types ++ [e],
      { set with ptr := set.ptr.set slot t, count := set.count + 1 }⟩)
      { set with ptr := set.ptr.set slot t, count := set.count + 1 }
      (fun x => writtenStructural ctx x ∨ x = t) := by
    have hcount := countNZ_set_of_zero slot hzero t htpos
    refine ⟨?_, Or.inr hcap4, ?_,
      Or.inr (by show set.count + 1 < set.capacity; omega), ?_, ?_⟩
    · show (set.ptr.set slot t).length = set.capacity
      rw [List.length_set]
      exact hlen
    · show set.count + 1 = countNZ (set.ptr.set slot t)
      rw [hcount, ← hcnt]
    · intro x hx
      show x ∈ set.ptr.set slot t ↔ _
      rw [mem_set_of_zero hzero hx, hmem x hx]
    · exact hcluIns
  refine ⟨hP, ⟨hwf2, ?_, ?_, ?_⟩, ?_, ?_⟩
  · -- global set invariant
    match hth : ctx.thread with
    | none =>
      have hgs : (setTypes ctx ⟨(ctx_types ctx).types ++ [e],
          { set with ptr := set.ptr.set slot t, count := set.count + 1 }⟩).global.set
          = { set with ptr := set.ptr.set slot t, count := set.count + 1 } := by
        simp [setTypes, ctx_types, hth]
      rw [hgs]
      refine SetInv_congr (fun id _ _ => rfl) (fun id _ => ?_) hsetinv2
      rw [ht, app_globalStructural_none hth hestr, writtenStructural, hth]
    | some th =>
      have hgs : (setTypes ctx ⟨(ctx_types ctx).types ++ [e],
          { set with ptr := set.ptr.set slot t, count := set.count + 1 }⟩).global = ctx.global := by
        simp [setTypes, ctx_types, hth]
      rw [hgs]
      refine SetInv_congr (fun id hid hmemid => ?_) (fun id _ => ?_)
        hInv.globalSet
      · exact hhash id (globalStructural_lt_total
          ((hInv.globalSet.mem_iff id hid).mp hmemid))
      · exact app_globalStructural_some hth e _ id
  · -- thread set invariant
    intro th2 hth2
    match hth : ctx.thread with
    | none =>
      have : (setTypes ctx ⟨(ctx_types ctx).types ++ [e],
          { set with ptr := set.ptr.set slot t, count := set.count + 1 }⟩).thread = none := by
        simp [setTypes, ctx_types, hth]
      rw [this] at hth2
      exact Option.noConfusion hth2
    | some th =>
      have hthr : (setTypes ctx ⟨(ctx_types ctx).types ++ [e],
          { set with ptr := set.ptr.set slot t, count := set.count + 1 }⟩).thread
          = some (⟨th.types ++ [e],
              { set with ptr := set.ptr.set slot t, count := set.count + 1 }⟩ : TypeList) := by
        simp [setTypes, ctx_types, hth]
      rw [hthr] at hth2
      injection hth2 with hth3
      subst hth3
      refine SetInv_congr (fun id _ _ => rfl) (fun id _ => ?_) hsetinv2
      rw [ht, app_threadStructural_some hth hestr, writtenStructural, hth]
  · -- uniqueness with the fresh entry
    intro i j di dj hi hj hne
    have hiB := gtfi_lt hi
    have hjB := gtfi_lt hj
    rw [app_totalLen] at hiB hjB
    rcases Bool.eq_false_or_eq_true (type_eq di dj) with hT | hF
    · exfalso
      by_cases hit : i = t
      · subst hit
        rw [hgtfiNew] at hi
        injection hi with hi2
        subst hi2
        by_cases hjt : j = i
        · exact hne hjt.symm
        · have hjlt : j < TYPE_COUNT + totalLen ctx := by
            rw [ht] at hjt
            omega
          rw [get_type_from_id_stable hP hjlt] at hj
          obtain ⟨kk, hk1, hk2⟩ := (type_eq_iff_key _ _).mp hT
          rw [typeKey_decode_toEntry hent] at hk1
          exact hnohit j dj hj ((type_eq_iff_key dj d).mpr ⟨kk, hk2, hk1⟩)
      · by_cases hjt : j = t
        · subst hjt
          rw [hgtfiNew] at hj
          injection hj with hj2
          subst hj2
          have hilt : i < TYPE_COUNT + totalLen ctx := by
            rw [ht] at hit
            omega
          rw [get_type_from_id_stable hP hilt] at hi
          obtain ⟨kk, hk1, hk2⟩ := (type_eq_iff_key _ _).mp hT
          rw [typeKey_decode_toEntry hent] at hk2
          exact hnohit i di hi ((type_eq_iff_key di d).mpr ⟨kk, hk1, hk2⟩)
        · have hilt : i < TYPE_COUNT + totalLen ctx := by
            rw [ht] at hit
            omega
          have hjlt : j < TYPE_COUNT + totalLen ctx := by
            rw [ht] at hjt
            omega
          rw [get_type_from_id_stable hP hilt] at hi
          rw [get_type_from_id_stable hP hjlt] at hj
          have := hInv.uniq i j di dj hi hj hne
          rw [hT] at this
          exact Bool.noConfusion this
    · exact hF
  · exact ⟨decodeEntry t e, hgtfiNew, typeKey_decode_toEntry hent t⟩
  · intro x dx hx hxe
    exact (hnohit x dx hx hxe).elim

theorem descEq_true_elim {ctx : TirContext} {id : Nat} {d : StructuralType}
    (h : descEq ctx id d = true) :
    ∃ dx, get_type_from_id ctx id = some dx ∧ type_eq dx d = true := by
  rw [descEq] at h
  match hx : get_type_from_id ctx id with
  | none => rw [hx] at h; exact Bool.noConfusion h
  | some dx => rw [hx] at h; exact ⟨dx, rfl, h⟩

theorem writtenStructural_none {ctx : TirContext} (hth : ctx.thread = none)
    (x : Nat) : writtenStructural ctx x ↔ globalStructural ctx x := by
  simp only [writtenStructural, hth]

theorem writtenStructural_some {ctx : TirContext} {th : TypeList}
    (hth : ctx.thread = some th) (x : Nat) :
    writtenStructural ctx x ↔ threadStructural ctx x := by
  simp only [writtenStructural, hth]

/-- A stored descriptor with an identity key lives in one of the two
structural layers. -/
theorem owns_of_key {ctx : TirContext} {x : Nat} {dx : StructuralType}
    (hx : get_type_from_id ctx x = some dx)
    {kk : TypeTag × Option Int × List Nat} (hkey : typeKey dx = some kk) :
    globalStructural ctx x ∨ threadStructural ctx x := by
  by_cases h14 : x < TYPE_COUNT
  · rw [get_type_from_id, if_pos h14] at hx
    injection hx with hx2
    rw [← hx2, typeKey_primitive_none] at hkey
    exact Option.noConfusion hkey
  · rw [get_type_from_id, if_neg h14] at hx
    match he : entryAt ctx x with
    | none => rw [he] at hx; exact absurd hx (by simp)
    | some ex =>
      rw [he] at hx
      injection hx with hx2
      by_cases hstr : isStructuralTag ex.tag = true
      · exact owns_of_entryAt he hstr
      · have hnom : isStructuralTag ex.tag = false := by
          simpa using hstr
        rw [← hx2, typeKey_decode_nominal hnom] at hkey
        exact Option.noConfusion hkey

/-- A probe that ends at an empty slot rules out any stored equal descriptor
in that set. -/
theorem no_hit_of_probe_inr {ctx : TirContext} {set : TypeSet}
    {d : StructuralType} {slot : Nat}
    (hlen : set.ptr.length = set.capacity)
    (hclu : clusterProp ctx set)
    (hwf : ∀ t e, entryAt ctx t = some e → ∀ j ∈ e.identityRefs, j < t)
    (hprobe : typeset_probe ctx set d set.capacity
      (hash_type ctx d % set.capacity) = some (.inr slot)) :
    ∀ x dx, get_type_from_id ctx x = some dx → type_eq dx d = true →
      x ≠ 0 → x ∈ set.ptr → False := by
  intro x dx hx heq hx0 hmemx
  obtain ⟨sx, hsx⟩ := List.get?_of_mem hmemx
  have hsxlt : sx < set.capacity := by
    obtain ⟨hlt, -⟩ := List.get?_eq_some.mp hsx
    rw [hlen] at hlt
    exact hlt
  have hhash : hash_ref ctx x % set.capacity
      = hash_type ctx d % set.capacity := by
    rw [hash_ref, hash_id_eq_hash_type hwf hx, hash_type_congr ctx heq]
  obtain ⟨id, hfind, -⟩ := probe_find hlen hclu hsx hx0 hsxlt hhash
    (descEq_of_gtfi hx heq)
  rw [hprobe] at hfind
  exact Sum.noConfusion (Option.some.inj hfind)

/-- Master specification of tir.c `new_structural_type` on an invariant
state: the tables only grow, the invariant is preserved, the returned id
denotes a descriptor with the probe descriptor's identity key, and any id
that already denoted a `type_eq`-equal descriptor is returned itself. -/
theorem nst_spec {ctx : TirContext} {d : StructuralType} {t : Nat}
    {ctx2 : TirContext} (hInv : Inv ctx) (hok : DescOk ctx d)
    (hrun : new_structural_type ctx d = some (t, ctx2)) :
    Preserves ctx ctx2 ∧ Inv ctx2 ∧
    (∃ dd, get_type_from_id ctx2 t = some dd ∧ typeKey dd = typeKey d) ∧
    ∀ x dx, get_type_from_id ctx x = some dx → type_eq dx d = true →
      t = x := by
  have hSI := written_set_inv hInv
  simp only [new_structural_type] at hrun
  split at hrun
  · exact absurd hrun (by simp)
  rename_i set hset
  obtain ⟨hlen, hcap4, hcnt, hload, hmem, hclu⟩ := set_step_spec hSI hset
  have hcap : 0 < set.capacity := by omega
  have hs0 : hash_type ctx d % set.capacity < set.capacity :=
    Nat.mod_lt _ hcap
  split at hrun
  · exact absurd hrun (by simp)
  · -- hit in the written set
    rename_i found hpfound
    injection hrun with hrun2
    injection hrun2 with hA hB
    subst hA
    subst hB
    obtain ⟨hdesc, -, -⟩ :=
      probe_inl_spec hlen set.capacity _ hs0 found hpfound
    obtain ⟨dfound, hfound, heq⟩ := descEq_true_elim hdesc
    exact nst_hit_spec hInv hfound heq hlen hcap4 hcnt hload hmem hclu
  · -- empty slot in the written set
    rename_i slot hpslot
    split at hrun
    · exact absurd hrun (by simp)
    · -- hit in the frozen global set
      rename_i gfound hghit
      injection hrun with hrun2
      injection hrun2 with hA hB
      subst hA
      subst hB
      match hth : ctx.thread with
      | none =>
        rw [hth] at hghit
        exact absurd (Option.some.inj hghit) (by simp)
      | some th =>
        rw [hth] at hghit
        split at hghit
        · exact absurd hghit (by simp)
        split at hghit
        · exact absurd hghit (by simp)
        · rename_i g2 hpg2
          injection hghit with hghit2
          injection hghit2 with hg
          rw [hg] at hpg2
          have hgcap : 0 < ctx.global.set.capacity := by
            by_contra hz
            have hz0 : ctx.global.set.capacity = 0 := by omega
            rw [hz0, typeset_probe] at hpg2
            exact absurd hpg2 (by simp)
          obtain ⟨hdesc, -, -⟩ := probe_inl_spec hInv.globalSet.len_eq
            ctx.global.set.capacity _ (Nat.mod_lt _ hgcap) gfound hpg2
          obtain ⟨dfound, hfound, heq⟩ := descEq_true_elim hdesc
          exact nst_hit_spec hInv hfound heq hlen hcap4 hcnt hload hmem hclu
        · exact absurd (Option.some.inj hghit) (by simp)
    · -- full miss: fresh entry
      rename_i hgmiss
      split at hrun
      · exact absurd hrun (by simp)
      · rename_i e hent
        injection hrun with hrun2
        injection hrun2 with hA hB
        have ht : t = TYPE_COUNT + totalLen ctx := by
          rw [← hA, totalLen, Nat.add_assoc]
        subst hB
        rw [hA]
        have hnohit : ∀ x dx, get_type_from_id ctx x = some dx →
            type_eq dx d = true → False := by
          intro x dx hx heq
          obtain ⟨kk, hkx, -⟩ := (type_eq_iff_key dx d).mp heq
          have howns := owns_of_key hx hkx
          match hth : ctx.thread with
          | none =>
            have hg : globalStructural ctx x := by
              rcases howns with h | h
              · exact h
              · obtain ⟨th2, -, hth2, -⟩ := h
                rw [hth] at hth2
                exact Option.noConfusion hth2
            have hw : writtenStructural ctx x :=
              (writtenStructural_none hth x).mpr hg
            exact no_hit_of_probe_inr hlen hclu hInv.wfRefs hpslot x dx hx
              heq (writtenStructural_pos hw) ((hmem x
                (writtenStructural_pos hw)).mpr hw)
          | some th =>
            rcases howns with hg | hthr
            · -- ruled out by the global probe
              rw [hth] at hgmiss
              split at hgmiss
              · rename_i heq0
                exact absurd heq0 (by simp)
              split at hgmiss
              · exact absurd hgmiss (by simp)
              · exact absurd (Option.some.inj hgmiss) (by simp)
              · rename_i gslot hpg
                have hx0 : x ≠ 0 := by
                  obtain ⟨hle, -⟩ := globalStructural_bound hg
                  simp only [TYPE_COUNT] at hle
                  omega
                exact no_hit_of_probe_inr hInv.globalSet.len_eq
                  hInv.globalSet.cluster hInv.wfRefs hpg x dx hx heq hx0
                  ((hInv.globalSet.mem_iff x hx0).mpr hg)
            · have hw : writtenStructural ctx x :=
                (writtenStructural_some hth x).mpr hthr
              exact no_hit_of_probe_inr hlen hclu hInv.wfRefs hpslot x dx hx
                heq (writtenStructural_pos hw) ((hmem x
                  (writtenStructural_pos hw)).mpr hw)
        exact nst_fresh_spec hInv hok hent ht hlen hcap4 hcnt hload hmem
          hclu hpslot hnohit

/-! ### Reachable states -/

theorem entryAt_initContext (x : Nat) : entryAt initContext x = none := by
  rw [entryAt]
  by_cases h14 : x < TYPE_COUNT
  · rw [if_pos h14]
  · rw [if_neg h14]
    simp [initContext, emptyTypeList]

/-- The empty program state satisfies the full invariant. -/
theorem Inv_initContext : Inv initContext := by
  refine ⟨?_, ?_, ?_, ?_⟩
  · intro t e he
    rw [entryAt_initContext] at he
    exact absurd he (by simp)
  · refine ⟨rfl, Or.inl rfl, rfl, Or.inl rfl, ?_, ?_⟩
    · intro id hid
      constructor
      · intro h
        exact absurd h (by simp [initContext, emptyTypeList, emptyTypeSet])
      · rintro ⟨e, -, hget, -⟩
        simp [initContext, emptyTypeList] at hget
    · intro s id hs
      rw [slotVal] at hs
      simp [initContext, emptyTypeList, emptyTypeSet] at hs
  · intro th hth
    exact Option.noConfusion hth
  · intro i j di dj hi hj hne
    rw [get_type_from_id] at hi hj
    by_cases h14i : i < TYPE_COUNT
    · rw [if_pos h14i] at hi
      by_cases h14j : j < TYPE_COUNT
      · rw [if_pos h14j] at hj
        injection hi with hi2
        injection hj with hj2
        rw [← hi2, ← hj2]
        rfl
      · rw [if_neg h14j, entryAt_initContext] at hj
        exact absurd hj (by simp)
    · rw [if_neg h14i, entryAt_initContext] at hi
      exact absurd hi (by simp)

/-- Nominal entries carry no identity references. -/
theorem nominal_refs_nil {e : TypeEntry}
    (h : isStructuralTag e.tag = false) : e.identityRefs = [] := by
  cases e <;> simp_all [TypeEntry.tag, isStructuralTag, TypeEntry.identityRefs]

theorem typeKey_decode_none_left {t : Nat} {e : TypeEntry}
    (h : isStructuralTag e.tag = false) (b : StructuralType) :
    type_eq (decodeEntry t e) b = false := by
  rcases Bool.eq_false_or_eq_true (type_eq (decodeEntry t e) b) with hT | hF
  · obtain ⟨kk, hk1, -⟩ := (type_eq_iff_key _ _).mp hT
    rw [typeKey_decode_nominal h] at hk1
    exact absurd hk1 (by simp)
  · exact hF

theorem typeKey_decode_none_right {t : Nat} {e : TypeEntry}
    (h : isStructuralTag e.tag = false) (b : StructuralType) :
    type_eq b (decodeEntry t e) = false := by
  rcases Bool.eq_false_or_eq_true (type_eq b (decodeEntry t e)) with hT | hF
  · obtain ⟨kk, -, hk2⟩ := (type_eq_iff_key _ _).mp hT
    rw [typeKey_decode_nominal h] at hk2
    exact absurd hk2 (by simp)
  · exact hF

/-- Appending a nominal entry does not extend either structural layer. -/
theorem app_globalStructural_nominal {ctx : TirContext} {e : TypeEntry}
    (hnom : isStructuralTag e.tag = false) (s : TypeSet) (x : Nat) :
    globalStructural (setTypes ctx ⟨(ctx_types ctx).types ++ [e], s⟩) x
      ↔ globalStructural ctx x := by
  match hth : ctx.thread with
  | some th => exact app_globalStructural_some hth e s x
  | none =>
    have hC : setTypes ctx ⟨(ctx_types ctx).types ++ [e], s⟩
        = { ctx with global := ⟨ctx.global.types ++ [e], s⟩ } := by
      simp [setTypes, ctx_types, hth]
    rw [hC, globalStructural_record]
    constructor
    · rintro ⟨e2, hle, hget, hs2⟩
      by_cases hidx : x - TYPE_COUNT < ctx.global.types.length
      · rw [List.get?_append hidx] at hget
        exact ⟨e2, hle, hget, hs2⟩
      · have hlen : x - TYPE_COUNT < ctx.global.types.length + 1 := by
          obtain ⟨hlt, -⟩ := List.get?_eq_some.mp hget
          simpa using hlt
        have hidx2 : x - TYPE_COUNT = ctx.global.types.length := by omega
        rw [hidx2, List.get?_concat_length] at hget
        injection hget with hget2
        rw [← hget2] at hs2
        rw [hnom] at hs2
        exact absurd hs2 (by simp)
    · rintro ⟨e2, hle, hget, hs2⟩
      refine ⟨e2, hle, ?_, hs2⟩
      obtain ⟨hlt, -⟩ := List.get?_eq_some.mp hget
      rw [List.get?_append hlt]
      exact hget

theorem app_threadStructural_nominal {ctx : TirContext} {e : TypeEntry}
    (hnom : isStructuralTag e.tag = false) (s : TypeSet) (x : Nat) :
    threadStructural (setTypes ctx ⟨(ctx_types ctx).types ++ [e], s⟩) x
      ↔ threadStructural ctx x := by
  match hth : ctx.thread with
  | none =>
    constructor
    · intro h
      exact absurd h (app_threadStructural_none hth e s x)
    · rintro ⟨th2, e2, hth2, -⟩
      rw [hth] at hth2
      exact Option.noConfusion hth2
  | some th =>
    have hC : setTypes ctx ⟨(ctx_types ctx).types ++ [e], s⟩
        = { ctx with thread := some ⟨th.types ++ [e], s⟩ } := by
      simp [setTypes, ctx_types, hth]
    rw [hC, threadStructural_record]
    constructor
    · rintro ⟨e2, hle, hget, hs2⟩
      by_cases hidx : x - TYPE_COUNT - ctx.global.types.length
          < th.types.length
      · rw [List.get?_append hidx] at hget
        exact ⟨th, e2, hth, hle, hget, hs2⟩
      · have hlen : x - TYPE_COUNT - ctx.global.types.length
            < th.types.length + 1 := by
          obtain ⟨hlt, -⟩ := List.get?_eq_some.mp hget
          simpa using hlt
        have hidx2 : x - TYPE_COUNT - ctx.global.types.length
            = th.types.length := by omega
        rw [hidx2, List.get?_concat_length] at hget
        injection hget with hget2
        rw [← hget2] at hs2
        rw [hnom] at hs2
        exact absurd hs2 (by simp)
    · rintro ⟨th2, e2, hth2, hle, hget, hs2⟩
      rw [hth] at hth2
      injection hth2 with hth3
      subst hth3
      refine ⟨e2, hle, ?_, hs2⟩
      obtain ⟨hlt, -⟩ := List.get?_eq_some.mp hget
      rw [List.get?_append hlt]
      exact hget

theorem app_global_set (ctx : TirContext) (e : TypeEntry) :
    (setTypes ctx ⟨(ctx_types ctx).types ++ [e],
      (ctx_types ctx).set⟩).global.set = ctx.global.set := by
  match hth : ctx.thread with
  | none => simp [setTypes, ctx_types, hth]
  | some th => simp [setTypes, ctx_types, hth]

/-- Specification of tir.c `new_nominal_type`: the entry is appended without
interning, and — because nominal descriptors never take part in deep
equality — the whole invariant survives. -/
theorem nnt_spec {ctx : TirContext} {e : TypeEntry} {t : Nat}
    {ctx2 : TirContext} (hInv : Inv ctx)
    (hnom : isStructuralTag e.tag = false)
    (hrun : new_nominal_type ctx e = (t, ctx2)) :
    Preserves ctx ctx2 ∧ Inv ctx2 := by
  simp only [new_nominal_type] at hrun
  injection hrun with hA hB
  have ht : t = TYPE_COUNT + totalLen ctx := by
    rw [← hA, totalLen, Nat.add_assoc]
  subst hB
  have hP : Preserves ctx (setTypes ctx ⟨(ctx_types ctx).types ++ [e],
      (ctx_types ctx).set⟩) := preserves_app ctx e _
  have hwf2 : ∀ t2 e2, entryAt (setTypes ctx
      ⟨(ctx_types ctx).types ++ [e], (ctx_types ctx).set⟩) t2 = some e2 →
      ∀ j ∈ e2.identityRefs, j < t2 := by
    intro t2 e2 he
    rcases Nat.lt_trichotomy t2 (TYPE_COUNT + totalLen ctx) with hlt | heq2 | hgt
    · rw [app_entryAt_lt e _ hlt] at he
      exact hInv.wfRefs t2 e2 he
    · subst heq2
      rw [app_entryAt_new] at he
      injection he with he2
      subst he2
      rw [nominal_refs_nil hnom]
      intro j hj
      exact absurd hj (by simp)
    · rw [entryAt_none_of_ge (by rw [app_totalLen]; omega)] at he
      exact absurd he (by simp)
  have hhash : ∀ x, x < TYPE_COUNT + totalLen ctx →
      hash_id (setTypes ctx ⟨(ctx_types ctx).types ++ [e],
        (ctx_types ctx).set⟩) x = hash_id ctx x :=
    hash_id_stable hP hInv.wfRefs hwf2
  have hgtfiNew : get_type_from_id (setTypes ctx
      ⟨(ctx_types ctx).types ++ [e], (ctx_types ctx).set⟩) t
      = some (decodeEntry t e) := by
    rw [get_type_from_id, if_neg (by rw [ht]; simp only [TYPE_COUNT]; omega),
      ht, app_entryAt_new, ← ht]
    rfl
  refine ⟨hP, hwf2, ?_, ?_, ?_⟩
  · -- global set
    rw [app_global_set]
    refine SetInv_congr (fun id hid hmemid => ?_) (fun id _ => ?_)
      hInv.globalSet
    · exact hhash id (globalStructural_lt_total
        ((hInv.globalSet.mem_iff id hid).mp hmemid))
    · exact app_globalStructural_nominal hnom _ id
  · -- thread set
    intro th2 hth2
    match hth : ctx.thread with
    | none =>
      have : (setTypes ctx ⟨(ctx_types ctx).types ++ [e],
          (ctx_types ctx).set⟩).thread = none := by
        simp [setTypes, ctx_types, hth]
      rw [this] at hth2
      exact Option.noConfusion hth2
    | some th =>
      have hthr : (setTypes ctx ⟨(ctx_types ctx).types ++ [e],
          (ctx_types ctx).set⟩).thread
          = some (⟨th.types ++ [e], th.set⟩ : TypeList) := by
        simp [setTypes, ctx_types, hth]
      rw [hthr] at hth2
      injection hth2 with hth3
      subst hth3
      refine SetInv_congr (fun id hid hmemid => ?_) (fun id _ => ?_)
        (hInv.threadSet th hth)
      · exact hhash id (threadStructural_lt_total
          ((((hInv.threadSet th hth)).mem_iff id hid).mp hmemid))
      · exact app_threadStructural_nominal hnom _ id
  · -- uniqueness
    intro i j di dj hi hj hne
    by_cases hit : i = t
    · subst hit
      rw [hgtfiNew] at hi
      injection hi with hi2
      rw [← hi2]
      exact typeKey_decode_none_left hnom dj
    · by_cases hjt : j = t
      · subst hjt
        rw [hgtfiNew] at hj
        injection hj with hj2
        rw [← hj2]
        exact typeKey_decode_none_right hnom di
      · have hiB := gtfi_lt hi
        have hjB := gtfi_lt hj
        rw [app_totalLen] at hiB hjB
        have hilt : i < TYPE_COUNT + totalLen ctx := by
          rw [ht] at hit
          omega
        have hjlt : j < TYPE_COUNT + totalLen ctx := by
          rw [ht] at hjt
          omega
        rw [get_type_from_id_stable hP hilt] at hi
        rw [get_type_from_id_stable hP hjlt] at hj
        exact hInv.uniq i j di dj hi hj hne

/-- Spawning a thread layers an empty table over the frozen global one
(tir.c `thread_context_init`); nothing readable changes. -/
theorem spawn_spec {ctx : TirContext} (hInv : Inv ctx)
    (hth : ctx.thread = none) :
    Preserves ctx { ctx with thread := some emptyTypeList } ∧
    Inv { ctx with thread := some emptyTypeList } := by
  have hent : ∀ x, entryAt { ctx with thread := some emptyTypeList } x
      = entryAt ctx x := by
    intro x
    rw [entryAt, entryAt, hth]
    by_cases h1 : x < TYPE_COUNT
    · rw [if_pos h1, if_pos h1]
    · rw [if_neg h1, if_neg h1]
      by_cases h2 : x - TYPE_COUNT < ctx.global.types.length
      · rw [if_pos h2, if_pos h2]
      · rw [if_neg h2, if_neg h2]
        simp [emptyTypeList]
  have hlen : totalLen { ctx with thread := some emptyTypeList }
      = totalLen ctx := by
    simp [totalLen, hth, emptyTypeList]
  have hgtfi : ∀ x, get_type_from_id { ctx with thread := some emptyTypeList } x
      = get_type_from_id ctx x := by
    intro x
    rw [get_type_from_id, get_type_from_id, hent x]
  have hh : ∀ x, hash_id { ctx with thread := some emptyTypeList } x
      = hash_id ctx x := hash_id_congr hent
  refine ⟨⟨fun t _ => hent t, by omega, fun _ => rfl, fun _ => rfl⟩,
    ?_, ?_, ?_, ?_⟩
  · intro t e he
    rw [hent] at he
    exact hInv.wfRefs t e he
  · exact SetInv_congr (fun id _ _ => hh id) (fun id _ => Iff.rfl)
      hInv.globalSet
  · intro th2 hth2
    have : th2 = emptyTypeList := (Option.some.inj hth2).symm
    subst this
    refine ⟨rfl, Or.inl rfl, rfl, Or.inl rfl, ?_, ?_⟩
    · intro id hid
      constructor
      · intro h
        exact absurd h (by simp [emptyTypeList, emptyTypeSet])
      · rintro ⟨th3, e3, hth3, -, hget, -⟩
        injection hth3 with hth4
        rw [← hth4] at hget
        simp [emptyTypeList] at hget
    · intro s id hs
      rw [slotVal] at hs
      simp [emptyTypeList, emptyTypeSet] at hs
  · intro i j di dj hi hj hne
    rw [hgtfi] at hi hj
    exact hInv.uniq i j di dj hi hj hne

theorem Preserves_refl (ctx : TirContext) : Preserves ctx ctx :=
  ⟨fun _ _ => rfl, Nat.le_refl _, fun _ => rfl, fun h => h⟩

theorem Preserves_trans {a b c : TirContext} (h1 : Preserves a b)
    (h2 : Preserves b c) : Preserves a c := by
  refine ⟨?_, Nat.le_trans h1.len_mono h2.len_mono, ?_,
    fun h => h2.thread_mono (h1.thread_mono h)⟩
  · intro t ht
    have htb : t < TYPE_COUNT + totalLen b :=
      Nat.lt_of_lt_of_le ht (Nat.add_le_add_left h1.len_mono _)
    rw [h2.entry_stable t htb, h1.entry_stable t ht]
  · intro h
    rw [h2.global_len (h1.thread_mono h), h1.global_len h]

/-- Construction traces: all interleavings of interning structural
descriptors, appending nominal entries and spawning a thread layer. -/
inductive Steps : TirContext → TirContext → Prop where
  | refl (ctx : TirContext) : Steps ctx ctx
  | structural {a b : TirContext} {d : StructuralType} {t : Nat}
      {c : TirContext} : Steps a b → DescOk b d →
      new_structural_type b d = some (t, c) → Steps a c
  | nominal {a b : TirContext} {e : TypeEntry} {t : Nat} {c : TirContext} :
      Steps a b → isStructuralTag e.tag = false →
      new_nominal_type b e = (t, c) → Steps a c
  | spawn {a b : TirContext} : Steps a b → b.thread = none →
      Steps a { b with thread := some emptyTypeList }

/-- States reachable from the empty program state. -/
def Reach (ctx : TirContext) : Prop := Steps initContext ctx

theorem Steps_inv_pres {a b : TirContext} (h : Steps a b) (hInv : Inv a) :
    Inv b ∧ Preserves a b := by
  induction h with
  | refl => exact ⟨hInv, Preserves_refl _⟩
  | structural hs hok hrun ih =>
    obtain ⟨hib, hpab⟩ := ih
    obtain ⟨hp, hi, -, -⟩ := nst_spec hib hok hrun
    exact ⟨hi, Preserves_trans hpab hp⟩
  | nominal hs hnom hrun ih =>
    obtain ⟨hib, hpab⟩ := ih
    obtain ⟨hp, hi⟩ := nnt_spec hib hnom hrun
    exact ⟨hi, Preserves_trans hpab hp⟩
  | spawn hs hth ih =>
    obtain ⟨hib, hpab⟩ := ih
    obtain ⟨hp, hi⟩ := spawn_spec hib hth
    exact ⟨hi, Preserves_trans hpab hp⟩

theorem Reach_Inv {ctx : TirContext} (h : Reach ctx) : Inv ctx :=
  (Steps_inv_pres h Inv_initContext).1

/-- **C2**: Structural interning is consistent across every construction
order.  First conjunct: once a structural descriptor has been interned
(returning id `t1`), interning any `type_eq`-equal descriptor in any later
state of the same trace — through a thread-local table layered over the
frozen global table or through the global table alone — returns the same id.
Second conjunct: in every reachable state no two distinct ids denote
structurally equal types. -/
theorem C2_structural_interning :
    (∀ ctx0 ctx1 d1 d2 t1 c1 t2 c2,
      Reach ctx0 → DescOk ctx0 d1 →
      new_structural_type ctx0 d1 = some (t1, c1) →
      Steps c1 ctx1 → DescOk ctx1 d2 →
      type_eq d2 d1 = true →
      new_structural_type ctx1 d2 = some (t2, c2) →
      t2 = t1) ∧
    (∀ ctx i j di dj, Reach ctx →
      get_type_from_id ctx i = some di → get_type_from_id ctx j = some dj →
      i ≠ j → type_eq di dj = false) := by
  constructor
  · intro ctx0 ctx1 d1 d2 t1 c1 t2 c2 hR hok1 h1 hsteps hok2 heq h2
    have hInv0 := Reach_Inv hR
    obtain ⟨hp1, hInv1, ⟨dd, hdd, hkey⟩, -⟩ := nst_spec hInv0 hok1 h1
    obtain ⟨hInvc1, hpc1⟩ := Steps_inv_pres hsteps hInv1
    have ht1B : t1 < TYPE_COUNT + totalLen c1 := gtfi_lt hdd
    have hdd1 : get_type_from_id ctx1 t1 = some dd := by
      rw [get_type_from_id_stable hpc1 ht1B]
      exact hdd
    obtain ⟨-, -, -, hdedup⟩ := nst_spec hInvc1 hok2 h2
    obtain ⟨kk, hk2, hk1⟩ := (type_eq_iff_key d2 d1).mp heq
    have hkdd : typeKey dd = some kk := by rw [hkey, hk1]
    exact hdedup t1 dd hdd1 ((type_eq_iff_key dd d2).mpr ⟨kk, hkdd, hk2⟩)
  · intro ctx i j di dj hR hi hj hne
    exact (Reach_Inv hR).uniq i j di dj hi hj hne

theorem C2_structural_interning_witness :
    (∃ t1 c1 t2 c2, new_structural_type initContext (.ptr TYPE_i32)
        = some (t1, c1) ∧
      new_structural_type c1 (.ptr TYPE_i32) = some (t2, c2) ∧ t2 = t1) ∧
    type_eq (.primitive TYPE_i32) (.ptr TYPE_i32) = false := by
  constructor
  · refine ⟨14, _, 14, _, rfl, rfl, ?_⟩
    exact C2_structural_interning.1 initContext _ (.ptr TYPE_i32)
      (.ptr TYPE_i32) 14 _ 14 _ (Steps.refl _)
      (by unfold DescOk; decide) rfl (Steps.refl _)
      (by unfold DescOk; decide) rfl rfl
  · exact C2_structural_interning.2 _ TYPE_i32 14
      (.primitive TYPE_i32) (.ptr TYPE_i32)
      (Steps.structural (Steps.refl _) (by unfold DescOk; decide)
        (rfl : new_structural_type initContext (.ptr TYPE_i32) = some (14, _)))
      rfl rfl (by decide)

/-! ### The interned ids of linear and array-length descriptors -/

theorem typeKey_linear_elim {dd : StructuralType} {oi : Option Int}
    {l : List Nat} (h : typeKey dd = some (.linear, oi, l)) :
    ∃ e, dd = .linear e := by
  cases dd with
  | linear e => exact ⟨e, rfl⟩
  | function tpc params ret =>
    rw [typeKey] at h
    by_cases h0 : tpc = 0
    · rw [if_pos h0] at h
      injection h with h2
      exact absurd (congrArg Prod.fst h2) (by simp)
    · rw [if_neg h0] at h
      exact Option.noConfusion h
  | primitive x => exact Option.noConfusion h
  | newtype x => exact Option.noConfusion h
  | struct x => exact Option.noConfusion h
  | enum x => exact Option.noConfusion h
  | typeParameter x => exact Option.noConfusion h
  | array f s =>
    injection h with h2
    exact absurd (congrArg Prod.fst h2) (by simp)
  | arrayLength len =>
    injection h with h2
    exact absurd (congrArg Prod.fst h2) (by simp)
  | ptr e =>
    injection h with h2
    exact absurd (congrArg Prod.fst h2) (by simp)
  | ptrMut e =>
    injection h with h2
    exact absurd (congrArg Prod.fst h2) (by simp)
  | multiptr f s =>
    injection h with h2
    exact absurd (congrArg Prod.fst h2) (by simp)
  | multiptrMut f s =>
    injection h with h2
    exact absurd (congrArg Prod.fst h2) (by simp)
  | tagged n i args =>
    injection h with h2
    exact absurd (congrArg Prod.fst h2) (by simp)

theorem typeKey_arrayLength_elim {dd : StructuralType} {oi : Option Int}
    {l : List Nat} (h : typeKey dd = some (.arrayLength, oi, l)) :
    ∃ len, dd = .arrayLength len ∧ oi = some len := by
  cases dd with
  | arrayLength len =>
    injection h with h2
    exact ⟨len, rfl, (congrArg (fun p => p.2.1) h2).symm⟩
  | function tpc params ret =>
    rw [typeKey] at h
    by_cases h0 : tpc = 0
    · rw [if_pos h0] at h
      injection h with h2
      exact absurd (congrArg Prod.fst h2) (by simp)
    · rw [if_neg h0] at h
      exact Option.noConfusion h
  | primitive x => exact Option.noConfusion h
  | newtype x => exact Option.noConfusion h
  | struct x => exact Option.noConfusion h
  | enum x => exact Option.noConfusion h
  | typeParameter x => exact Option.noConfusion h
  | array f s =>
    injection h with h2
    exact absurd (congrArg Prod.fst h2) (by simp)
  | ptr e =>
    injection h with h2
    exact absurd (congrArg Prod.fst h2) (by simp)
  | ptrMut e =>
    injection h with h2
    exact absurd (congrArg Prod.fst h2) (by simp)
  | linear e =>
    injection h with h2
    exact absurd (congrArg Prod.fst h2) (by simp)
  | multiptr f s =>
    injection h with h2
    exact absurd (congrArg Prod.fst h2) (by simp)
  | multiptrMut f s =>
    injection h with h2
    exact absurd (congrArg Prod.fst h2) (by simp)
  | tagged n i args =>
    injection h with h2
    exact absurd (congrArg Prod.fst h2) (by simp)

theorem entry_of_decode_linear {t : Nat} {ex : TypeEntry} {e : Nat}
    (h : decodeEntry t ex = .linear e) : ex = .linear e := by
  cases ex <;> simp_all [decodeEntry]

theorem entry_of_decode_arrayLength {t : Nat} {ex : TypeEntry} {len : Int}
    (h : decodeEntry t ex = .arrayLength len) : ex = .arrayLength len := by
  cases ex <;> simp_all [decodeEntry]

/-- An id whose stored descriptor is `.linear` reads back the LINEAR tag. -/
theorem tag_of_gtfi_linear {ctx : TirContext} {t : Nat} {e : Nat}
    (h : get_type_from_id ctx t = some (.linear e)) :
    get_type_tag ctx t = some .linear := by
  rw [get_type_from_id] at h
  by_cases h14 : t < TYPE_COUNT
  · rw [if_pos h14] at h
    injection h with h2
    exact absurd h2 (by simp)
  · rw [if_neg h14] at h
    match he : entryAt ctx t with
    | none => rw [he] at h; exact absurd h (by simp)
    | some ex =>
      rw [he] at h
      injection h with h2
      rw [get_type_tag, if_neg h14, he, entry_of_decode_linear h2]
      rfl

theorem gtfi_arrayLength {ctx : TirContext} {t : Nat} {len : Int}
    (h : get_type_from_id ctx t = some (.arrayLength len)) :
    get_array_length_type ctx t = some len := by
  rw [get_type_from_id] at h
  by_cases h14 : t < TYPE_COUNT
  · rw [if_pos h14] at h
    injection h with h2
    exact absurd h2 (by simp)
  · rw [if_neg h14] at h
    match he : entryAt ctx t with
    | none => rw [he] at h; exact absurd h (by simp)
    | some ex =>
      rw [he] at h
      injection h with h2
      rw [get_array_length_type, he, entry_of_decode_arrayLength h2]

/-- **C10**: The linear-type constructor is idempotent.  First conjunct: on
an id whose tag is already LINEAR, `new_linear_type` returns that very id
and leaves the state untouched.  Second conjunct: wrapping any type twice
(`Affine (Affine T)`) yields the same id and state as wrapping it once. -/
theorem C10_linear_idempotent :
    (∀ ctx elem, get_type_tag ctx elem = some .linear →
      new_linear_type ctx elem = some (elem, ctx)) ∧
    (∀ ctx elem t1 ctx1, Reach ctx → DescOk ctx (.linear elem) →
      new_linear_type ctx elem = some (t1, ctx1) →
      new_linear_type ctx1 t1 = some (t1, ctx1)) := by
  constructor
  · intro ctx elem htag
    rw [new_linear_type, if_pos htag]
  · intro ctx elem t1 ctx1 hR hok hrun
    rw [new_linear_type] at hrun
    by_cases htag : get_type_tag ctx elem = some TypeTag.linear
    · rw [if_pos htag] at hrun
      injection hrun with hrun2
      injection hrun2 with hA hB
      subst hA
      subst hB
      rw [new_linear_type, if_pos htag]
    · rw [if_neg htag] at hrun
      obtain ⟨-, -, ⟨dd, hdd, hkey⟩, -⟩ :=
        nst_spec (Reach_Inv hR) hok hrun
      rw [typeKey] at hkey
      obtain ⟨e2, he2⟩ := typeKey_linear_elim hkey
      subst he2
      rw [new_linear_type, if_pos (tag_of_gtfi_linear hdd)]

theorem C10_linear_idempotent_witness :
    ∃ c1, new_linear_type initContext TYPE_i32 = some (14, c1) ∧
      new_linear_type c1 14 = some (14, c1) := by
  refine ⟨_, rfl, ?_⟩
  exact C10_linear_idempotent.2 initContext TYPE_i32 14 _ (Steps.refl _)
    (by unfold DescOk; decide) rfl

/-! ### Elaboration of the ArrayLength builtin (claim C9) -/

/-- diagnostic.h `ErrorKind`, restricted to the kinds the modelled passes
can emit. -/
inductive ErrorKind where
  | ERROR_TYPE_INFERENCE
  | ERROR_CAST
  | ERROR_CONST_INT_OVERFLOW
  | ERROR_CONST_NEGATIVE_SHIFT
  | ERROR_MISSING_RETURN
  | ERROR_DUPLICATE_SWITCH_CASE
  | ERROR_ELSE_CASE_UNREACHABLE
  | ERROR_SWITCH_NOT_EXHAUSTIVE
  | ERROR_SWITCH_INCOMPATIBLE_CASES
  | ERROR_MOVE_BORROWED
  | ERROR_BORROWED_MUTABLE_SHARED
  | ERROR_MULTIBLE_MUTABLE_BORROWS
  | ERROR_CONSUMED_VALUE_USED
  | ERROR_CONSUMED_IN_LOOP
  | ERROR_LINEAR_ASSIGNMENT
  | ERROR_WRONG_COUNT
  deriving Repr, DecidableEq

/-- type-analysis.c `analyze_array_length_type` after its operand has been
elaborated: `operandConst` carries the 64-bit integer constant behind the
operand value whenever `try_get_int_const` succeeds.  The C passes the
literal `1` to `new_array_length_type` — not the constant — and falls back
to the null type without a diagnostic of its own when the operand is not an
integer constant. -/
def analyze_array_length_type (ctx : TirContext)
    (operandConst : Option Int) :
    Option ((Nat × TirContext) × List ErrorKind) :=
  match operandConst with
  | some _ =>
    match new_array_length_type ctx 1 with
    | some (t, ctx1) => some ((t, ctx1), [])
    | none => none
  | none => some ((null_type, ctx), [])

/-- **C9**: For every use of the `ArrayLength` builtin whose argument
elaborates to an integer constant `n`, the produced type is the array-length
type encoding 1 — regardless of `n` — with no diagnostic; a non-constant
argument yields the null type with no diagnostic. -/
theorem C9_array_length_type_one :
    (∀ ctx n t ctx1 diags, Reach ctx →
      analyze_array_length_type ctx (some n) = some ((t, ctx1), diags) →
      get_array_length_type ctx1 t = some 1 ∧ diags = []) ∧
    (∀ ctx, analyze_array_length_type ctx none
      = some ((null_type, ctx), [])) := by
  constructor
  · intro ctx n t ctx1 diags hR hrun
    rw [analyze_array_length_type] at hrun
    match hna : new_array_length_type ctx 1 with
    | none => rw [hna] at hrun; exact absurd hrun (by simp)
    | some (t2, c2) =>
      rw [hna] at hrun
      injection hrun with hrun2
      injection hrun2 with hAB hdg
      injection hAB with hA hB
      subst hA
      subst hB
      refine ⟨?_, hdg.symm⟩
      rw [new_array_length_type] at hna
      obtain ⟨-, -, ⟨dd, hdd, hkey⟩, -⟩ := nst_spec (Reach_Inv hR)
        (fun j hj => absurd hj (by simp [StructuralType.identityRefs])) hna
      rw [typeKey] at hkey
      obtain ⟨len, hdd2, hoi⟩ := typeKey_arrayLength_elim hkey
      injection hoi with hlen
      subst hlen
      subst hdd2
      exact gtfi_arrayLength hdd
  · intro ctx
    rfl

theorem C9_array_length_type_one_witness :
    ∃ c1, analyze_array_length_type initContext (some 42)
        = some ((14, c1), []) ∧
      get_array_length_type c1 14 = some 1 := by
  refine ⟨_, rfl, ?_⟩
  exact (C9_array_length_type_one.1 initContext 42 14 _ [] (Steps.refl _)
    rfl).1

/-! ### Constant folding of arithmetic, bitwise and relational operators -/

def INT64_MIN : Int := -(2 ^ 63)

def INT64_MAX : Int := 2 ^ 63 - 1

/-- Read a 64-bit two's-complement bit pattern back as a signed value. -/
def toInt64 (n : Nat) : Int :=
  if n < 2 ^ 63 then (n : Int) else (n : Int) - 2 ^ 64

/-- tir.c `int_fits_in_bytes` (aborts on a byte count it does not know). -/
def int_fits_in_bytes (i : Int) (bytes : Int) : Option Bool :=
  if bytes = 1 then some (decide ((-128 : Int) ≤ i ∧ i ≤ 127))
  else if bytes = 2 then some (decide ((-32768 : Int) ≤ i ∧ i ≤ 32767))
  else if bytes = 4 then
    some (decide ((-2147483648 : Int) ≤ i ∧ i ≤ 2147483647))
  else if bytes = 8 then some true
  else none

/-- tir.c `sizeof_primitive` (aborts past the primitive range). -/
def sizeof_primitive (t : Nat) (target : Target) : Option Int :=
  if t = TYPE_INVALID ∨ t = TYPE_VOID then some (-1)
  else if t = TYPE_i8 ∨ t = TYPE_char ∨ t = TYPE_bool ∨ t = TYPE_byte then
    some 1
  else if t = TYPE_i16 then some 2
  else if t = TYPE_i32 ∨ t = TYPE_f32 then some 4
  else if t = TYPE_i64 ∨ t = TYPE_f64 then some 8
  else if t = TYPE_SIZE_TAG ∨ t = TYPE_ALIGNMENT_TAG ∨ t = TYPE_isize then
    some (sizeof_pointer target)
  else none

/-- tir.c `int_fits_in_type`. -/
def int_fits_in_type (i : Int) (t : Nat) (target : Target) : Option Bool :=
  if t = TYPE_char ∨ t = TYPE_i8 ∨ t = TYPE_i16 ∨ t = TYPE_i32 ∨
      t = TYPE_i64 ∨ t = TYPE_isize then
    match sizeof_primitive t target with
    | some n => int_fits_in_bytes i n
    | none => none
  else some false

/-- tir.c `bigger_primitive_type`. -/
def bigger_primitive_type (a b : Nat) (target : Target) : Option Nat :=
  match sizeof_primitive a target, sizeof_primitive b target with
  | some sa, some sb => some (if sb < sa then a else b)
  | _, _ => none

/-- The arithmetic TIR tags type-analysis.c `analyze_bin_arithmetic`
dispatches on. -/
inductive ArithTag where
  | TIR_ADD
  | TIR_SUB
  | TIR_MUL
  | TIR_DIV
  | TIR_MOD
  deriving Repr, DecidableEq

/-- The bitwise TIR tags of `analyze_bin_bit`. -/
inductive BitTag where
  | TIR_AND
  | TIR_OR
  | TIR_XOR
  | TIR_SHL
  | TIR_SHR
  deriving Repr, DecidableEq

/-- The relational TIR tags of `analyze_eq` / `analyze_rel`. -/
inductive RelTag where
  | TIR_EQ
  | TIR_NE
  | TIR_LT
  | TIR_GT
  | TIR_LE
  | TIR_GE
  deriving Repr, DecidableEq

/-- Outcome of the constant-folding path of a binary operator: a diagnostic
with the null value, or a folded typed constant (`new_int_constant`). -/
inductive FoldResult where
  | diag (kind : ErrorKind)
  | const (type : Nat) (value : Int)
  deriving Repr, DecidableEq

/-- The CONSTANT_INT arm of type-analysis.c `analyze_bin_arithmetic`,
entered once both operands are integer constants `l`, `r` of the common
arithmetic type `left_type`.  `__builtin_*_overflow` signals exactly when
the exact result leaves int64; C undefined behaviour — `INT64_MIN % -1` —
is `none`. -/
def analyze_bin_arithmetic_const (target : Target) (tag : ArithTag)
    (left_type : Nat) (l r : Int) : Option FoldResult :=
  let step : Option (Int × Bool) :=
    match tag with
    | .TIR_ADD => some (l + r, decide (l + r < INT64_MIN ∨ INT64_MAX < l + r))
    | .TIR_SUB => some (l - r, decide (l - r < INT64_MIN ∨ INT64_MAX < l - r))
    | .TIR_MUL => some (l * r, decide (l * r < INT64_MIN ∨ INT64_MAX < l * r))
    | .TIR_DIV =>
      if r = 0 ∨ (l = INT64_MIN ∧ r = -1) then some (0, true)
      else some (l.tdiv r, false)
    | .TIR_MOD =>
      if r = 0 then some (0, true)
      else if l = INT64_MIN ∧ r = -1 then none
      else some (l.tmod r, false)
  match step with
  | none => none
  | some (value, overflow) =>
    match int_fits_in_type value left_type target with
    | none => none
    | some fits =>
      if overflow || !fits then some (.diag .ERROR_CONST_INT_OVERFLOW)
      else some (.const left_type value)

/-- The CONSTANT_INT arm of type-analysis.c `analyze_bin_bit`, entered once
both operands are integer constants of the common integer primitive type.
C undefined behaviour is `none`: the mask computation `1 << 64` for an
8-byte type, and a left shift of a negative value or one whose exact result
leaves int64.  A defined left shift is **not** truncated to the operand
type and is never checked against it; a right shift is the
arithmetic (sign-filling) shift gcc and clang define. -/
def analyze_bin_bit_const (target : Target) (tag : BitTag)
    (left_type : Nat) (l r : Int) : Option FoldResult :=
  match sizeof_primitive left_type target with
  | none => none
  | some int_size =>
    if int_size * 8 < 64 ∧ 0 ≤ int_size then
      let maskN : Nat := 2 ^ (int_size * 8).toNat - 1
      match tag with
      | .TIR_AND => some (.const left_type (toInt64 (bits64 l &&& bits64 r)))
      | .TIR_OR => some (.const left_type (toInt64 (bits64 l ||| bits64 r)))
      | .TIR_XOR => some (.const left_type (toInt64 (bits64 l ^^^ bits64 r)))
      | .TIR_SHL =>
        if r < 0 then some (.diag .ERROR_CONST_NEGATIVE_SHIFT)
        else if int_size * 8 ≤ r then some (.const left_type 0)
        else if l < 0 ∨ INT64_MAX < l * 2 ^ r.toNat then none
        else some (.const left_type
          (if (l * 2 ^ r.toNat).toNat &&& maskN = 0 then 0
           else l * 2 ^ r.toNat))
      | .TIR_SHR =>
        if r < 0 then some (.diag .ERROR_CONST_NEGATIVE_SHIFT)
        else if int_size * 8 ≤ r then
          some (.const left_type (if l < 0 then -1 else 0))
        else some (.const left_type (Int.fdiv l (2 ^ r.toNat)))
    else none

/-- The CONSTANT_INT arms of type-analysis.c `analyze_eq` / `analyze_rel`:
comparisons of equal-typed integer constants fold to a bool constant. -/
def analyze_rel_const (tag : RelTag) (l r : Int) : FoldResult :=
  .const TYPE_bool
    (match tag with
     | .TIR_EQ => if l = r then 1 else 0
     | .TIR_NE => if l = r then 0 else 1
     | .TIR_LT => if l < r then 1 else 0
     | .TIR_GT => if r < l then 1 else 0
     | .TIR_LE => if l ≤ r then 1 else 0
     | .TIR_GE => if r ≤ l then 1 else 0)

theorem int_fits_total (i : Int) (t : Nat) (target : Target) :
    ∃ b, int_fits_in_type i t target = some b := by
  rw [int_fits_in_type]
  by_cases h : t = TYPE_char ∨ t = TYPE_i8 ∨ t = TYPE_i16 ∨ t = TYPE_i32 ∨
      t = TYPE_i64 ∨ t = TYPE_isize
  · rw [if_pos h]
    rcases h with h | h | h | h | h | h <;> subst h <;> cases target <;>
      exact ⟨_, rfl⟩
  · rw [if_neg h]
    exact ⟨false, rfl⟩

/-- Claim C3's own description of integer constant folding, stated from the
spec's words: the folded constant carries the exact result; exactly
`ERROR_CONST_INT_OVERFLOW` is reported when signed add/sub/mul leaves
int64, the divisor of a division or modulo is zero, the division is
`INT64_MIN / -1`, or the result does not fit the operand type. -/
def arith_claim_spec (target : Target) (tag : ArithTag) (left_type : Nat)
    (l r : Int) : Option FoldResult :=
  match tag with
  | .TIR_ADD =>
    if (l + r < INT64_MIN ∨ INT64_MAX < l + r) ∨
        int_fits_in_type (l + r) left_type target ≠ some true
    then some (.diag .ERROR_CONST_INT_OVERFLOW)
    else some (.const left_type (l + r))
  | .TIR_SUB =>
    if (l - r < INT64_MIN ∨ INT64_MAX < l - r) ∨
        int_fits_in_type (l - r) left_type target ≠ some true
    then some (.diag .ERROR_CONST_INT_OVERFLOW)
    else some (.const left_type (l - r))
  | .TIR_MUL =>
    if (l * r < INT64_MIN ∨ INT64_MAX < l * r) ∨
        int_fits_in_type (l * r) left_type target ≠ some true
    then some (.diag .ERROR_CONST_INT_OVERFLOW)
    else some (.const left_type (l * r))
  | .TIR_DIV =>
    if r = 0 ∨ (l = INT64_MIN ∧ r = -1) then
      some (.diag .ERROR_CONST_INT_OVERFLOW)
    else if int_fits_in_type (l.tdiv r) left_type target ≠ some true then
      some (.diag .ERROR_CONST_INT_OVERFLOW)
    else some (.const left_type (l.tdiv r))
  | .TIR_MOD =>
    if r = 0 then some (.diag .ERROR_CONST_INT_OVERFLOW)
    else if int_fits_in_type (l.tmod r) left_type target ≠ some true then
      some (.diag .ERROR_CONST_INT_OVERFLOW)
    else some (.const left_type (l.tmod r))

/-- **C3** (corrected): Integer constant folding.  (1) The arithmetic
operators refine the claim's description exactly (away from the one C
undefined-behaviour point `INT64_MIN % -1`): exact truncated-division
semantics, with exactly `ERROR_CONST_INT_OVERFLOW` on int64 overflow of
add/sub/mul, a zero divisor, `INT64_MIN / -1`, or a result that does not
fit the operand type.  (2) AND/OR/XOR fold to the exact two's-complement
result on the stored 64-bit representation.  (3) A left shift by a negative
count is `ERROR_CONST_NEGATIVE_SHIFT`, at or past the operand width it
yields 0, and otherwise — contrary to the claim — the folded value is the
**64-bit** product `l·2^r`, never truncated to the operand type and never
checked against it.  (4) A right shift by a negative count is
`ERROR_CONST_NEGATIVE_SHIFT`, at or past the width it sign-fills to -1 or
0, and otherwise it is the arithmetic shift.  (5) Integer comparisons fold
to the exact bool constant. -/
theorem C3_const_folding :
    (∀ target tag ty l r, ¬ (tag = ArithTag.TIR_MOD ∧ l = INT64_MIN ∧
        r = -1) →
      analyze_bin_arithmetic_const target tag ty l r
        = arith_claim_spec target tag ty l r) ∧
    (∀ target ty l r s, sizeof_primitive ty target = some s → s * 8 < 64 →
      0 ≤ s →
      analyze_bin_bit_const target .TIR_AND ty l r
          = some (.const ty (toInt64 (bits64 l &&& bits64 r))) ∧
      analyze_bin_bit_const target .TIR_OR ty l r
          = some (.const ty (toInt64 (bits64 l ||| bits64 r))) ∧
      analyze_bin_bit_const target .TIR_XOR ty l r
          = some (.const ty (toInt64 (bits64 l ^^^ bits64 r)))) ∧
    (∀ target ty l r s, sizeof_primitive ty target = some s → s * 8 < 64 →
      0 ≤ s →
      (r < 0 → analyze_bin_bit_const target .TIR_SHL ty l r
          = some (.diag .ERROR_CONST_NEGATIVE_SHIFT)) ∧
      (0 ≤ r → s * 8 ≤ r → analyze_bin_bit_const target .TIR_SHL ty l r
          = some (.const ty 0)) ∧
      (0 ≤ r → r < s * 8 → 0 ≤ l → l * 2 ^ r.toNat ≤ INT64_MAX →
        analyze_bin_bit_const target .TIR_SHL ty l r
          = some (.const ty
              (if (l * 2 ^ r.toNat).toNat &&& (2 ^ (s * 8).toNat - 1) = 0
               then 0 else l * 2 ^ r.toNat)))) ∧
    (∀ target ty l r s, sizeof_primitive ty target = some s → s * 8 < 64 →
      0 ≤ s →
      (r < 0 → analyze_bin_bit_const target .TIR_SHR ty l r
          = some (.diag .ERROR_CONST_NEGATIVE_SHIFT)) ∧
      (0 ≤ r → s * 8 ≤ r → analyze_bin_bit_const target .TIR_SHR ty l r
          = some (.const ty (if l < 0 then -1 else 0))) ∧
      (0 ≤ r → r < s * 8 → analyze_bin_bit_const target .TIR_SHR ty l r
          = some (.const ty (Int.fdiv l (2 ^ r.toNat))))) ∧
    (∀ l r,
      analyze_rel_const .TIR_EQ l r
          = .const TYPE_bool (if l = r then 1 else 0) ∧
      analyze_rel_const .TIR_NE l r
          = .const TYPE_bool (if l ≠ r then 1 else 0) ∧
      analyze_rel_const .TIR_LT l r
          = .const TYPE_bool (if l < r then 1 else 0) ∧
      analyze_rel_const .TIR_GT l r
          = .const TYPE_bool (if r < l then 1 else 0) ∧
      analyze_rel_const .TIR_LE l r
          = .const TYPE_bool (if l ≤ r then 1 else 0) ∧
      analyze_rel_const .TIR_GE l r
          = .const TYPE_bool (if r ≤ l then 1 else 0)) := by
  refine ⟨?_, ?_, ?_, ?_, ?_⟩
  · intro target tag ty l r hub
    cases tag with
    | TIR_ADD =>
      obtain ⟨b, hb⟩ := int_fits_total (l + r) ty target
      by_cases hovf : l + r < INT64_MIN ∨ INT64_MAX < l + r <;>
        cases b <;>
          simp [analyze_bin_arithmetic_const, arith_claim_spec, hb, hovf]
    | TIR_SUB =>
      obtain ⟨b, hb⟩ := int_fits_total (l - r) ty target
      by_cases hovf : l - r < INT64_MIN ∨ INT64_MAX < l - r <;>
        cases b <;>
          simp [analyze_bin_arithmetic_const, arith_claim_spec, hb, hovf]
    | TIR_MUL =>
      obtain ⟨b, hb⟩ := int_fits_total (l * r) ty target
      by_cases hovf : l * r < INT64_MIN ∨ INT64_MAX < l * r <;>
        cases b <;>
          simp [analyze_bin_arithmetic_const, arith_claim_spec, hb, hovf]
    | TIR_DIV =>
      by_cases hz : r = 0 ∨ (l = INT64_MIN ∧ r = -1)
      · obtain ⟨b0, hb0⟩ := int_fits_total 0 ty target
        simp [analyze_bin_arithmetic_const, arith_claim_spec, hz, hb0]
      · obtain ⟨b, hb⟩ := int_fits_total (l.tdiv r) ty target
        cases b <;>
          simp [analyze_bin_arithmetic_const, arith_claim_spec, hz, hb]
    | TIR_MOD =>
      have hub2 : ¬ (l = INT64_MIN ∧ r = -1) := fun hc => hub ⟨rfl, hc⟩
      by_cases hz : r = 0
      · obtain ⟨b0, hb0⟩ := int_fits_total 0 ty target
        simp [analyze_bin_arithmetic_const, arith_claim_spec, hz, hb0]
      · obtain ⟨b, hb⟩ := int_fits_total (l.tmod r) ty target
        cases b <;>
          simp [analyze_bin_arithmetic_const, arith_claim_spec, hz, hub2, hb]
  · intro target ty l r s hs hlt hpos
    refine ⟨?_, ?_, ?_⟩ <;>
      simp [analyze_bin_bit_const, hs, hlt, hpos]
  · intro target ty l r s hs hlt hpos
    refine ⟨?_, ?_, ?_⟩
    · intro hneg
      simp [analyze_bin_bit_const, hs, hlt, hpos, hneg]
    · intro h0 hge
      have hneg : ¬ r < 0 := by omega
      simp [analyze_bin_bit_const, hs, hlt, hpos, hneg, hge]
    · intro h0 hltw hl0 hmax
      have hneg : ¬ r < 0 := by omega
      have hge : ¬ s * 8 ≤ r := by omega
      have hub : ¬ (l < 0 ∨ INT64_MAX < l * 2 ^ r.toNat) := by
        push_neg
        exact ⟨by omega, hmax⟩
      simp [analyze_bin_bit_const, hs, hlt, hpos, hneg, hge, hub]
  · intro target ty l r s hs hlt hpos
    refine ⟨?_, ?_, ?_⟩
    · intro hneg
      simp [analyze_bin_bit_const, hs, hlt, hpos, hneg]
    · intro h0 hge
      have hneg : ¬ r < 0 := by omega
      simp [analyze_bin_bit_const, hs, hlt, hpos, hneg, hge]
    · intro h0 hltw
      have hneg : ¬ r < 0 := by omega
      have hge : ¬ s * 8 ≤ r := by omega
      simp [analyze_bin_bit_const, hs, hlt, hpos, hneg, hge]
  · intro l r
    refine ⟨?_, ?_, ?_, ?_, ?_, ?_⟩
    · by_cases h : l = r <;> simp [analyze_rel_const, h]
    · by_cases h : l = r <;> simp [analyze_rel_const, h]
    · by_cases h : l < r <;> simp [analyze_rel_const, h]
    · by_cases h : r < l <;> simp [analyze_rel_const, h]
    · by_cases h : l ≤ r <;> simp [analyze_rel_const, h]
    · by_cases h : r ≤ l <;> simp [analyze_rel_const, h]

/-- The left-shift fold is not truncated to the operand type and reports no
overflow: `3 << 31` at type i32 folds to the constant 6442450944 — not the
32-bit two's-complement value -2147483648 — although 6442450944 does not
fit i32, with no diagnostic. -/
theorem C3_const_folding_shl_counterexample :
    analyze_bin_bit_const .isize64 .TIR_SHL TYPE_i32 3 31
        = some (.const TYPE_i32 6442450944) ∧
    int_fits_in_type 6442450944 TYPE_i32 .isize64 = some false ∧
    (6442450944 : Int) ≠ -2147483648 := by
  refine ⟨by decide, by decide, by decide⟩

theorem C3_const_folding_witness :
    (analyze_bin_arithmetic_const .isize64 .TIR_ADD TYPE_i32 2 3
      = arith_claim_spec .isize64 .TIR_ADD TYPE_i32 2 3) ∧
    analyze_bin_bit_const .isize64 .TIR_SHR TYPE_i32 (-8) 2
      = some (.const TYPE_i32 (-2)) := by
  constructor
  · exact (C3_const_folding.1 .isize64 .TIR_ADD TYPE_i32 2 3 (by simp))
  · have h := ((C3_const_folding.2.2.2.1 .isize64 TYPE_i32 (-8) 2 4
      (by decide) (by decide) (by decide)).2.2 (by decide) (by decide))
    rw [h]
    decide

/-! ### The zero_extend builtin (claim C8) -/

/-- What type-analysis.c `analyze_zero_extend` can return: a diagnostic
with the null value, the operand value unchanged, a folded constant
(`new_int_constant`), or a `TIR_ZEXT` instruction of the hint type. -/
inductive ZextResult where
  | diag (kind : ErrorKind)
  | operand
  | const (type : Nat) (value : Int)
  | zext (type : Nat)
  deriving Repr, DecidableEq

/-- type-analysis.c `analyze_zero_extend` after the operand has been
elaborated: `operand_type` is the operand value's type and `operandConst`
its integer constant when it has one. -/
def analyze_zero_extend (target : Target) (hint operand_type : Nat)
    (operandConst : Option Int) : Option ZextResult :=
  if hint = 0 ∨ type_is_fixed_int hint = false then
    some (.diag .ERROR_TYPE_INFERENCE)
  else if type_is_fixed_int operand_type = false then
    some (.diag .ERROR_CAST)
  else
    match bigger_primitive_type hint operand_type target with
    | none => none
    | some bigger =>
      if bigger = operand_type then some .operand
      else
        match operandConst with
        | some v =>
          match sizeof_primitive operand_type target with
          | none => none
          | some int_size =>
            if int_size * 8 < 64 ∧ 0 ≤ int_size then
              some (.const hint
                ((bits64 v &&& (2 ^ (int_size * 8).toNat - 1) : Nat) : Int))
            else none
        | none => some (.zext hint)

/-- **C8** (corrected): `zero_extend`.  A null or non-fixed-width-integer
hint is `ERROR_TYPE_INFERENCE` with the null value; a non-fixed-width
operand is a cast error; when the operand is strictly narrower than the
hint, a constant operand folds to its low bits zero-extended at the hint
type and a non-constant operand becomes `TIR_ZEXT` at the hint type; but —
contrary to the claim — when the operand is at least as wide as the hint,
the operand value is returned unchanged, keeping its own type. -/
theorem C8_zero_extend :
    (∀ target hint ot oc, hint = 0 ∨ type_is_fixed_int hint = false →
      analyze_zero_extend target hint ot oc
        = some (.diag .ERROR_TYPE_INFERENCE)) ∧
    (∀ target hint ot oc, ¬ (hint = 0 ∨ type_is_fixed_int hint = false) →
      type_is_fixed_int ot = false →
      analyze_zero_extend target hint ot oc = some (.diag .ERROR_CAST)) ∧
    (∀ target hint ot sh so,
      ¬ (hint = 0 ∨ type_is_fixed_int hint = false) →
      type_is_fixed_int ot = true →
      sizeof_primitive hint target = some sh →
      sizeof_primitive ot target = some so →
      ((so < sh → 0 ≤ so → so * 8 < 64 →
        (∀ v, analyze_zero_extend target hint ot (some v)
          = some (.const hint
              ((bits64 v &&& (2 ^ (so * 8).toNat - 1) : Nat) : Int))) ∧
        analyze_zero_extend target hint ot none = some (.zext hint)) ∧
      (sh ≤ so → ∀ oc,
        analyze_zero_extend target hint ot oc = some .operand))) := by
  refine ⟨?_, ?_, ?_⟩
  · intro target hint ot oc h
    rw [analyze_zero_extend.eq_def, if_pos h]
  · intro target hint ot oc hh hot
    rw [analyze_zero_extend.eq_def, if_neg hh, if_pos hot]
  · intro target hint ot sh so hh hot hsh hso
    have hne : ¬ type_is_fixed_int ot = false := by simp [hot]
    constructor
    · intro hlt hpos hw
      have hbig : bigger_primitive_type hint ot target = some hint := by
        simp only [bigger_primitive_type, hsh, hso]
        rw [if_pos hlt]
      have hhne : ¬ hint = ot := by
        intro hq
        subst hq
        rw [hsh] at hso
        injection hso with hq2
        omega
      constructor
      · intro v
        rw [analyze_zero_extend.eq_def, if_neg hh, if_neg hne]
        simp only [hbig]
        rw [if_neg hhne]
        simp only [hso]
        rw [if_pos ⟨hw, hpos⟩]
      · rw [analyze_zero_extend.eq_def, if_neg hh, if_neg hne]
        simp only [hbig]
        rw [if_neg hhne]
    · intro hge oc
      have hnl : ¬ so < sh := by omega
      have hbig : bigger_primitive_type hint ot target = some ot := by
        simp only [bigger_primitive_type, hsh, hso]
        rw [if_neg hnl]
      rw [analyze_zero_extend.eq_def, if_neg hh, if_neg hne]
      simp [hbig]

/-- With an i16 hint and an i64 constant operand, `zero_extend` returns the
operand unchanged — an i64-typed value, not a value of the hint type. -/
theorem C8_zero_extend_counterexample :
    analyze_zero_extend .isize64 TYPE_i16 TYPE_i64 (some 5)
        = some .operand ∧
    ∀ v, (ZextResult.operand : ZextResult) ≠ .const TYPE_i16 v := by
  constructor
  · decide
  · intro v
    simp

theorem C8_zero_extend_witness :
    analyze_zero_extend .isize64 TYPE_i32 TYPE_i8 (some (-1))
      = some (.const TYPE_i32 255) := by
  have h := ((C8_zero_extend.2.2 .isize64 TYPE_i32 TYPE_i8 4 1 (by decide)
    (by decide) (by decide) (by decide)).1 (by decide) (by decide)
    (by decide)).1 (-1)
  rw [h]
  decide

/-! ### Enum-switch validation (claim C6) -/

/-- One branch step of type-analysis.c `validate_exhaustive_enum_switch`:
`none` is the else arm, `some v` a pattern whose constant value is `v`
(`try_get_int_const` leaves 0 on failure).  The C indexes the `seen` array
directly with the value; an out-of-range value reads out of bounds, which
is `none`. -/
def vees_step (count : Nat) (acc : Option (List Bool × Bool × List ErrorKind))
    (b : Option Int) : Option (List Bool × Bool × List ErrorKind) :=
  match acc with
  | none => none
  | some (seen, hasElse, diags) =>
    match b with
    | none => some (seen, true, diags)
    | some v =>
      if 0 ≤ v ∧ v.toNat < count then
        if seen.get? v.toNat = some true then
          some (seen, hasElse, diags ++ [.ERROR_DUPLICATE_SWITCH_CASE])
        else some (seen.set v.toNat true, hasElse, diags)
      else none

/-- type-analysis.c `validate_exhaustive_enum_switch` over `count` enum
constants. -/
def validate_exhaustive_enum_switch (count : Nat)
    (branches : List (Option Int)) : Option (List ErrorKind) :=
  match branches.foldl (vees_step count)
      (some (List.replicate count false, false, [])) with
  | none => none
  | some (seen, hasElse, diags) =>
    let has_all := seen.all (fun b => b)
    let diags2 := if has_all = true ∧ hasElse = true then
        diags ++ [.ERROR_ELSE_CASE_UNREACHABLE] else diags
    let diags3 := if ¬ has_all = true ∧ ¬ hasElse = true then
        diags2 ++ [.ERROR_SWITCH_NOT_EXHAUSTIVE] else diags2
    some diags3

/-- The validation gate at the end of type-analysis.c `analyze_switch`: a
diagnostic is only possible when the result type is non-null; incompatible
arms win; then the exhaustiveness machinery runs only for a **non-void**
result type, dispatching to the enum validator for an enum discriminant. -/
def analyze_switch_validation (result_type : Nat) (consistent_types : Bool)
    (pattern_is_enum : Bool) (count : Nat)
    (branches : List (Option Int)) : Option (List ErrorKind) :=
  if result_type ≠ 0 then
    if consistent_types = false then
      some [.ERROR_SWITCH_INCOMPATIBLE_CASES]
    else if result_type ≠ TYPE_VOID then
      if pattern_is_enum then
        validate_exhaustive_enum_switch count branches
      else if branches.contains none then some []
      else some [.ERROR_SWITCH_NOT_EXHAUSTIVE]
    else some []
  else some []

theorem vees_fold_none (count : Nat) (l : List (Option Int)) :
    l.foldl (vees_step count) none = none := by
  induction l with
  | nil => rfl
  | cons b rest ih => rw [List.foldl_cons]; exact ih

/-- The fold only grows the diagnostics, the seen set and the else flag. -/
theorem vees_fold_mono (count : Nat) : ∀ (l : List (Option Int)) seen
    (he : Bool) (dg : List ErrorKind) res,
    l.foldl (vees_step count) (some (seen, he, dg)) = some res →
    seen.length = res.1.length ∧
    (∀ k, k ∈ dg → k ∈ res.2.2) ∧
    (∀ u, seen.get? u = some true → res.1.get? u = some true) ∧
    (he = true → res.2.1 = true) := by
  intro l
  induction l with
  | nil =>
    intro seen he dg res h
    rw [List.foldl_nil] at h
    injection h with h2
    subst h2
    exact ⟨rfl, fun k hk => hk, fun u hu => hu, fun x => x⟩
  | cons b rest ih =>
    intro seen he dg res h
    rw [List.foldl_cons] at h
    match b with
    | none =>
      simp only [vees_step] at h
      obtain ⟨hlen, hdg, hseen, -⟩ := ih seen true dg res h
      exact ⟨hlen, hdg, hseen, fun _ => (ih seen true dg res h).2.2.2 rfl⟩
    | some v =>
      simp only [vees_step] at h
      by_cases hr : 0 ≤ v ∧ v.toNat < count
      · rw [if_pos hr] at h
        by_cases hdup : seen.get? v.toNat = some true
        · rw [if_pos hdup] at h
          obtain ⟨hlen, hdg, hseen, hel⟩ := ih _ _ _ res h
          exact ⟨hlen, fun k hk => hdg k (by simp [hk]), hseen, hel⟩
        · rw [if_neg hdup] at h
          obtain ⟨hlen, hdg, hseen, hel⟩ := ih _ _ _ res h
          refine ⟨by rw [← hlen, List.length_set], hdg, ?_, hel⟩
          intro u hu
          apply hseen
          by_cases huv : v.toNat = u
          · subst huv
            exact absurd hu hdup
          · rw [List.get?_set_ne true seen huv]
            exact hu
      · rw [if_neg hr, vees_fold_none] at h
        exact absurd h (by simp)

/-- A pattern occurrence marks its enum value as seen. -/
theorem vees_fold_covers (count : Nat) : ∀ (l : List (Option Int)) seen
    (he : Bool) (dg : List ErrorKind) res (v : Int),
    l.foldl (vees_step count) (some (seen, he, dg)) = some res →
    seen.length = count →
    some v ∈ l → 0 ≤ v → v.toNat < count →
    res.1.get? v.toNat = some true := by
  intro l
  induction l with
  | nil =>
    intro seen he dg res v h hlen hmem
    exact absurd hmem (by simp)
  | cons b rest ih =>
    intro seen he dg res v h hlen hmem h0 hcount
    rw [List.foldl_cons] at h
    rcases List.mem_cons.mp hmem with hb | hrest
    · subst hb
      simp only [vees_step] at h
      rw [if_pos ⟨h0, hcount⟩] at h
      by_cases hdup : seen.get? v.toNat = some true
      · rw [if_pos hdup] at h
        exact (vees_fold_mono count rest _ _ _ res h).2.2.1 v.toNat hdup
      · rw [if_neg hdup] at h
        refine (vees_fold_mono count rest _ _ _ res h).2.2.1 v.toNat ?_
        exact List.get?_set_eq_of_lt true (by omega)
    · match b with
      | none =>
        simp only [vees_step] at h
        exact ih seen true dg res v h hlen hrest h0 hcount
      | some w =>
        simp only [vees_step] at h
        by_cases hr : 0 ≤ w ∧ w.toNat < count
        · rw [if_pos hr] at h
          by_cases hdup : seen.get? w.toNat = some true
          · rw [if_pos hdup] at h
            exact ih _ _ _ res v h hlen hrest h0 hcount
          · rw [if_neg hdup] at h
            exact ih _ _ _ res v h (by rw [List.length_set]; exact hlen)
              hrest h0 hcount
        · rw [if_neg hr, vees_fold_none] at h
          exact absurd h (by simp)

/-- A pattern whose value is already seen appends the duplicate
diagnostic. -/
theorem vees_fold_dup (count : Nat) : ∀ (l : List (Option Int)) seen
    (he : Bool) (dg : List ErrorKind) res (v : Int),
    l.foldl (vees_step count) (some (seen, he, dg)) = some res →
    some v ∈ l → 0 ≤ v → v.toNat < count →
    seen.get? v.toNat = some true →
    ErrorKind.ERROR_DUPLICATE_SWITCH_CASE ∈ res.2.2 := by
  intro l
  induction l with
  | nil =>
    intro seen he dg res v h hmem
    exact absurd hmem (by simp)
  | cons b rest ih =>
    intro seen he dg res v h hmem h0 hcount hseen
    rw [List.foldl_cons] at h
    rcases List.mem_cons.mp hmem with hb | hrest
    · subst hb
      simp only [vees_step] at h
      rw [if_pos ⟨h0, hcount⟩, if_pos hseen] at h
      exact (vees_fold_mono count rest _ _ _ res h).2.1 _ (by simp)
    · match b with
      | none =>
        simp only [vees_step] at h
        exact ih seen true dg res v h hrest h0 hcount hseen
      | some w =>
        simp only [vees_step] at h
        by_cases hr : 0 ≤ w ∧ w.toNat < count
        · rw [if_pos hr] at h
          by_cases hdup : seen.get? w.toNat = some true
          · rw [if_pos hdup] at h
            exact ih _ _ _ res v h hrest h0 hcount hseen
          · rw [if_neg hdup] at h
            refine ih _ _ _ res v h hrest h0 hcount ?_
            by_cases huv : w.toNat = v.toNat
            · rw [huv] at hdup
              exact absurd hseen hdup
            · rw [List.get?_set_ne true seen huv]
              exact hseen
        · rw [if_neg hr, vees_fold_none] at h
          exact absurd h (by simp)

/-- An enum value no pattern covers stays unseen. -/
theorem vees_fold_uncovered (count : Nat) : ∀ (l : List (Option Int)) seen
    (he : Bool) (dg : List ErrorKind) res (u : Nat),
    l.foldl (vees_step count) (some (seen, he, dg)) = some res →
    seen.get? u = some false →
    (∀ v : Int, some v ∈ l → ¬ (0 ≤ v ∧ v.toNat = u)) →
    res.1.get? u = some false := by
  intro l
  induction l with
  | nil =>
    intro seen he dg res u h hu hno
    rw [List.foldl_nil] at h
    injection h with h2
    subst h2
    exact hu
  | cons b rest ih =>
    intro seen he dg res u h hu hno
    rw [List.foldl_cons] at h
    match b with
    | none =>
      simp only [vees_step] at h
      exact ih seen true dg res u h hu
        (fun v hv => hno v (by simp [hv]))
    | some w =>
      simp only [vees_step] at h
      by_cases hr : 0 ≤ w ∧ w.toNat < count
      · have hwu : w.toNat ≠ u := fun hq => hno w (by simp) ⟨hr.1, hq⟩
        rw [if_pos hr] at h
        by_cases hdup : seen.get? w.toNat = some true
        · rw [if_pos hdup] at h
          exact ih _ _ _ res u h hu (fun v hv => hno v (by simp [hv]))
        · rw [if_neg hdup] at h
          refine ih _ _ _ res u h ?_ (fun v hv => hno v (by simp [hv]))
          rw [List.get?_set_ne true seen hwu]
          exact hu
      · rw [if_neg hr, vees_fold_none] at h
        exact absurd h (by simp)

/-- An else arm raises the else flag for good. -/
theorem vees_fold_else (count : Nat) : ∀ (l : List (Option Int)) seen
    (he : Bool) (dg : List ErrorKind) res,
    l.foldl (vees_step count) (some (seen, he, dg)) = some res →
    none ∈ l →
    res.2.1 = true := by
  intro l
  induction l with
  | nil =>
    intro seen he dg res h hmem
    exact absurd hmem (by simp)
  | cons b rest ih =>
    intro seen he dg res h hmem
    rw [List.foldl_cons] at h
    rcases List.mem_cons.mp hmem with hb | hrest
    · rw [← hb] at h
      simp only [vees_step] at h
      exact (vees_fold_mono count rest _ _ _ res h).2.2.2 rfl
    · match b with
      | none =>
        simp only [vees_step] at h
        exact ih seen true dg res h hrest
      | some w =>
        simp only [vees_step] at h
        by_cases hr : 0 ≤ w ∧ w.toNat < count
        · rw [if_pos hr] at h
          by_cases hdup : seen.get? w.toNat = some true
          · rw [if_pos hdup] at h
            exact ih _ _ _ res h hrest
          · rw [if_neg hdup] at h
            exact ih _ _ _ res h hrest
        · rw [if_neg hr, vees_fold_none] at h
          exact absurd h (by simp)

/-- Without an else arm the else flag stays down. -/
theorem vees_fold_noelse (count : Nat) : ∀ (l : List (Option Int)) seen
    (dg : List ErrorKind) res,
    l.foldl (vees_step count) (some (seen, false, dg)) = some res →
    none ∉ l →
    res.2.1 = false := by
  intro l
  induction l with
  | nil =>
    intro seen dg res h hno
    rw [List.foldl_nil] at h
    injection h with h2
    subst h2
    rfl
  | cons b rest ih =>
    intro seen dg res h hno
    rw [List.foldl_cons] at h
    match b with
    | none => exact absurd (by simp) hno
    | some w =>
      simp only [vees_step] at h
      by_cases hr : 0 ≤ w ∧ w.toNat < count
      · rw [if_pos hr] at h
        by_cases hdup : seen.get? w.toNat = some true
        · rw [if_pos hdup] at h
          exact ih _ _ res h (fun hm => hno (by simp [hm]))
        · rw [if_neg hdup] at h
          exact ih _ _ res h (fun hm => hno (by simp [hm]))
      · rw [if_neg hr, vees_fold_none] at h
        exact absurd h (by simp)

/-- Anything the fold accumulated survives the final else/exhaustiveness
stage of the validator. -/
theorem vees_mem_of_fold (count : Nat) (branches : List (Option Int))
    (diags : List ErrorKind) (seen : List Bool) (hasElse : Bool)
    (dgs : List ErrorKind) (k : ErrorKind)
    (hval : validate_exhaustive_enum_switch count branches = some diags)
    (hfold : branches.foldl (vees_step count)
      (some (List.replicate count false, false, [])) = some (seen, hasElse, dgs))
    (hk : k ∈ dgs) : k ∈ diags := by
  unfold validate_exhaustive_enum_switch at hval
  rw [hfold] at hval
  injection hval with h2
  rw [← h2]
  split
  · split <;> simp [hk]
  · split <;> simp [hk]

/-- Claim C6 (corrected): at the end of analyze_switch the enum-switch
validation runs exactly when the common result type is non-null, the arms
are consistent and the result type is **not void**; the validator then
reports ERROR_DUPLICATE_SWITCH_CASE for a repeated pattern value,
ERROR_ELSE_CASE_UNREACHABLE when every enum constant is covered yet an else
arm is present, and ERROR_SWITCH_NOT_EXHAUSTIVE when some enum constant is
uncovered and there is no else arm.  A switch whose common result type is
void skips the validation entirely and reports nothing. -/
theorem C6_switch_exhaustiveness :
    (∀ rt count branches, rt ≠ 0 → rt ≠ TYPE_VOID →
      analyze_switch_validation rt true true count branches
        = validate_exhaustive_enum_switch count branches) ∧
    (∀ count branches diags (v : Int) pre mid,
      validate_exhaustive_enum_switch count branches = some diags →
      branches = pre ++ some v :: mid → some v ∈ mid →
      0 ≤ v → v.toNat < count →
      ErrorKind.ERROR_DUPLICATE_SWITCH_CASE ∈ diags) ∧
    (∀ count branches diags,
      validate_exhaustive_enum_switch count branches = some diags →
      (∀ u, u < count → ∃ v : Int, some v ∈ branches ∧ 0 ≤ v ∧ v.toNat = u) →
      none ∈ branches →
      ErrorKind.ERROR_ELSE_CASE_UNREACHABLE ∈ diags) ∧
    (∀ count branches diags u,
      validate_exhaustive_enum_switch count branches = some diags →
      u < count →
      (∀ v : Int, some v ∈ branches → ¬ (0 ≤ v ∧ v.toNat = u)) →
      none ∉ branches →
      ErrorKind.ERROR_SWITCH_NOT_EXHAUSTIVE ∈ diags) ∧
    (∀ penum count branches,
      analyze_switch_validation TYPE_VOID true penum count branches
        = some []) := by
  refine ⟨?_, ?_, ?_, ?_, ?_⟩
  · intro rt count branches h0 hv
    unfold analyze_switch_validation
    rw [if_pos h0, if_neg (by simp : ¬ (true = false)), if_pos hv,
      if_pos rfl]
  · intro count branches diags v pre mid hval hbr hmem h0 hc
    subst hbr
    cases hpre : pre.foldl (vees_step count)
        (some (List.replicate count false, false, [])) with
    | none =>
      unfold validate_exhaustive_enum_switch at hval
      rw [List.foldl_append, hpre, vees_fold_none] at hval
      simp at hval
    | some st1 =>
      obtain ⟨seen1, he1, dg1⟩ := st1
      cases hall : (pre ++ some v :: mid).foldl (vees_step count)
          (some (List.replicate count false, false, [])) with
      | none =>
        unfold validate_exhaustive_enum_switch at hval
        rw [hall] at hval
        simp at hval
      | some st =>
        obtain ⟨seen, hasElse, dgs⟩ := st
        have hfold : mid.foldl (vees_step count)
            (vees_step count (some (seen1, he1, dg1)) (some v))
            = some (seen, hasElse, dgs) := by
          rw [← hpre, ← List.foldl_cons, ← List.foldl_append]
          exact hall
        refine vees_mem_of_fold count _ diags seen hasElse dgs _ hval hall ?_
        simp only [vees_step] at hfold
        rw [if_pos ⟨h0, hc⟩] at hfold
        by_cases hdup : seen1.get? v.toNat = some true
        · rw [if_pos hdup] at hfold
          exact (vees_fold_mono count mid _ _ _ _ hfold).2.1 _ (by simp)
        · rw [if_neg hdup] at hfold
          have hlen1 : seen1.length = count := by
            have := (vees_fold_mono count pre _ _ _ _ hpre).1
            simpa using this.symm
          refine vees_fold_dup count mid _ _ _ _ v hfold hmem h0 hc ?_
          exact List.get?_set_eq_of_lt true (by omega)
  · intro count branches diags hval hall hnone
    cases hfold : branches.foldl (vees_step count)
        (some (List.replicate count false, false, [])) with
    | none =>
      unfold validate_exhaustive_enum_switch at hval
      rw [hfold] at hval
      simp at hval
    | some st =>
      obtain ⟨seen, hasElse, dgs⟩ := st
      have hlen : seen.length = count := by
        have := (vees_fold_mono count branches _ _ _ _ hfold).1
        simpa using this.symm
      have hcov : ∀ u, u < count → seen.get? u = some true := by
        intro u hu
        obtain ⟨v, hv, h0, hvu⟩ := hall u hu
        have := vees_fold_covers count branches _ _ _ _ v hfold
          (by simp) hv h0 (by rw [hvu]; exact hu)
        rw [hvu] at this
        exact this
      have hasAll : seen.all (fun b => b) = true := by
        rw [List.all_eq_true]
        intro x hx
        obtain ⟨n, hn⟩ := List.mem_iff_get?.mp hx
        have hnc : n < count := by
          obtain ⟨hlt, -⟩ := List.get?_eq_some.mp hn
          omega
        have h4 := hcov n hnc
        rw [hn] at h4
        injection h4 with h3
      have hElse : hasElse = true :=
        vees_fold_else count branches _ _ _ _ hfold hnone
      unfold validate_exhaustive_enum_switch at hval
      rw [hfold] at hval
      injection hval with h2
      rw [← h2]
      have hc1 : (seen.all fun b => b) = true ∧ hasElse = true :=
        ⟨hasAll, hElse⟩
      have hc2 : ¬ (¬ (seen.all fun b => b) = true ∧ ¬ hasElse = true) :=
        fun hq => hq.1 hasAll
      rw [if_neg hc2, if_pos hc1]
      simp
  · intro count branches diags u hval hu hno hnone
    cases hfold : branches.foldl (vees_step count)
        (some (List.replicate count false, false, [])) with
    | none =>
      unfold validate_exhaustive_enum_switch at hval
      rw [hfold] at hval
      simp at hval
    | some st =>
      obtain ⟨seen, hasElse, dgs⟩ := st
      have hinit : (List.replicate count false).get? u = some false := by
        rw [List.get?_eq_some]
        refine ⟨by simpa using hu, ?_⟩
        simp
      have hfalse : seen.get? u = some false :=
        vees_fold_uncovered count branches _ _ _ _ u hfold hinit hno
      have hElse : hasElse = false :=
        vees_fold_noelse count branches _ _ _ hfold hnone
      have hnall : ¬ (seen.all (fun b => b)) = true := by
        intro hallT
        have hmem : (false : Bool) ∈ seen := List.get?_mem hfalse
        have := List.all_eq_true.mp hallT false hmem
        simp at this
      unfold validate_exhaustive_enum_switch at hval
      rw [hfold] at hval
      injection hval with h2
      rw [← h2]
      have hc1 : ¬ ((seen.all fun b => b) = true ∧ hasElse = true) :=
        fun hq => hnall hq.1
      have hc2 : ¬ (seen.all fun b => b) = true ∧ ¬ hasElse = true :=
        ⟨hnall, by rw [hElse]; simp⟩
      rw [if_pos hc2, if_neg hc1]
      simp
  · intro penum count branches
    rfl

/-- Claim C6 counterexample: a switch over a two-constant enum whose arms
share the void result type repeats its single pattern value and covers no
second constant without an else arm, yet the analysis emits no diagnostic;
the validator the original claim expects would report both the duplicate
and the missing case on the same branches. -/
theorem C6_switch_exhaustiveness_counterexample :
    analyze_switch_validation TYPE_VOID true true 2 [some 0, some 0]
      = some [] ∧
    validate_exhaustive_enum_switch 2 [some 0, some 0]
      = some [ErrorKind.ERROR_DUPLICATE_SWITCH_CASE,
              ErrorKind.ERROR_SWITCH_NOT_EXHAUSTIVE] :=
  ⟨rfl, rfl⟩

/-- Witness for C6: the duplicate case fires on a concrete branch list, and
a concrete void-result switch reports nothing. -/
theorem C6_switch_exhaustiveness_witness :
    ErrorKind.ERROR_DUPLICATE_SWITCH_CASE ∈
      [ErrorKind.ERROR_DUPLICATE_SWITCH_CASE] ∧
    analyze_switch_validation TYPE_VOID true true 2 [some 0, some 0]
      = some [] :=
  ⟨C6_switch_exhaustiveness.2.1 2 [some 0, some 0, none]
      [ErrorKind.ERROR_DUPLICATE_SWITCH_CASE] 0 [] [some 0, none]
      rfl rfl (by simp) (by decide) (by decide),
    C6_switch_exhaustiveness.2.2.2.2 true 2 [some 0, some 0]⟩

/-! ### Implicit array-to-slice conversion (claim C7) -/

/-- data/tir.h `TypeMatcher`: `extra` 0 means `match_ignore`; `extra = k+1`
binds or checks result slot `k`. -/
inductive TypeMatcher where
  | T (extra : Nat)
  | byte (extra : Nat)
  | array (extra : Nat) (index elem : TypeMatcher)
  | anyPointer (extra : Nat) (inner : TypeMatcher)
  | anySlice (extra : Nat) (inner : TypeMatcher)
  | pointer (extra : Nat) (inner : TypeMatcher)
  | slice (extra : Nat) (inner : TypeMatcher)
  | mutPointer (extra : Nat) (inner : TypeMatcher)
  | mutSlice (extra : Nat) (inner : TypeMatcher)
  | tagged (extra : Nat) (inner : TypeMatcher)
  deriving Repr

def TypeMatcher.extraOf : TypeMatcher → Nat
  | .T e | .byte e | .array e _ _ | .anyPointer e _ | .anySlice e _
  | .pointer e _ | .slice e _ | .mutPointer e _ | .mutSlice e _
  | .tagged e _ => e

/-- The `matcher->extra` prelude of tir.c `match_types_single`: bind a free
result slot or compare against an already bound one (mutation kept on
failure, as in the C). -/
def bindExtra (extra : Nat) (type : Nat) (results : List Nat) :
    Bool × List Nat :=
  if extra = 0 then (true, results)
  else if results.getD (extra - 1) 0 = 0 then
    (true, results.set (extra - 1) type)
  else if results.getD (extra - 1) 0 = type then (true, results)
  else (false, results)

/-- tir.c `match_types_single`, threading the mutable `results` array. -/
def match_types_single (ctx : TirContext) : TypeMatcher → Nat → List Nat →
    Bool × List Nat
  | m, type, results =>
    if type = 0 then (false, results)
    else
      match bindExtra m.extraOf type results with
      | (false, r) => (false, r)
      | (true, r) =>
        match m with
        | .T _ => (true, r)
        | .byte _ => (decide (type = TYPE_byte), r)
        | .array _ mi me =>
          match entryAt ctx type with
          | some (.array elem indexType) =>
            match match_types_single ctx mi indexType r with
            | (false, r2) => (false, r2)
            | (true, r2) => match_types_single ctx me elem r2
          | _ => (false, r)
        | .anyPointer _ mi =>
          match_types_single ctx mi (remove_pointer ctx type) r
        | .anySlice _ mi =>
          match_types_single ctx mi (remove_slice ctx type) r
        | .pointer _ mi =>
          if get_type_tag ctx type = some .ptr then
            match_types_single ctx mi (remove_pointer ctx type) r
          else (false, r)
        | .slice _ mi =>
          if get_type_tag ctx type = some .multiptr then
            match_types_single ctx mi (remove_slice ctx type) r
          else (false, r)
        | .mutPointer _ mi =>
          if get_type_tag ctx type = some .ptrMut then
            match_types_single ctx mi (remove_pointer ctx type) r
          else (false, r)
        | .mutSlice _ mi =>
          if get_type_tag ctx type = some .multiptrMut then
            match_types_single ctx mi (remove_slice ctx type) r
          else (false, r)
        | .tagged _ mi =>
          if get_type_tag ctx type = some .tagged then
            match_types_single ctx mi (remove_tags ctx type) r
          else (false, r)

/-- tir.c `match_types`: each type against its matcher, stopping at the
first failure. -/
def match_types (ctx : TirContext) (results : List Nat) :
    List (Nat × TypeMatcher) → Bool × List Nat
  | [] => (true, results)
  | (ty, m) :: rest =>
    match match_types_single ctx m ty results with
    | (false, r) => (false, r)
    | (true, r) => match_types ctx r rest

/-- Instruction tags `apply_implicit_conversion` can emit. -/
inductive ConvTag where
  | arrayToSlice
  | nop
  | ptrCast
  deriving Repr, DecidableEq

/-- Outcome of type-analysis.c `apply_implicit_conversion`: the value
unchanged, a freshly emitted instruction (tag, result type, operand payload,
second payload), or ERROR_EXPECTED_VALUE_TYPE with the null value. -/
inductive ConvResult where
  | unchanged
  | inst (tag : ConvTag) (type left right : Nat)
  | error
  deriving Repr, DecidableEq

/-- type-analysis.c `apply_implicit_conversion` (`provided` stands for
`get_value_type(c->tir, value)`).  The seven matcher blocks share one result
array `t`, which the C never resets between blocks. -/
def apply_implicit_conversion (ctx : TirContext) (valueId provided wanted :
    Nat) : ConvResult :=
  if wanted = 0 then .unchanged
  else if provided = wanted then .unchanged
  else
    let r1 := match_types ctx [0, 0]
      [(provided, .mutPointer 0 (.array 0 (.T 2) (.T 1))),
       (wanted, .mutSlice 0 (.T 1))]
    if r1.1 = true ∧ r1.2.getD 0 0 ≠ 0 then
      .inst .arrayToSlice wanted valueId (r1.2.getD 1 0)
    else
    let r2 := match_types ctx r1.2
      [(provided, .anyPointer 0 (.array 0 (.T 2) (.T 1))),
       (wanted, .slice 0 (.T 1))]
    if r2.1 = true ∧ r2.2.getD 0 0 ≠ 0 then
      .inst .arrayToSlice wanted valueId (r2.2.getD 1 0)
    else
    let r3 := match_types ctx r2.2
      [(provided, .mutPointer 0 (.T 1)), (wanted, .pointer 0 (.T 1))]
    if r3.1 = true ∧ r3.2.getD 0 0 ≠ 0 then .inst .nop wanted valueId 0
    else
    let r4 := match_types ctx r3.2
      [(provided, .mutSlice 0 (.T 1)), (wanted, .slice 0 (.T 1))]
    if r4.1 = true ∧ r4.2.getD 0 0 ≠ 0 then .inst .nop wanted valueId 0
    else
    let r5 := match_types ctx r4.2
      [(provided, .mutPointer 0 (.T 1)), (wanted, .mutPointer 0 (.byte 0))]
    if r5.1 = true ∧ r5.2.getD 0 0 ≠ 0 then .inst .ptrCast wanted valueId 0
    else
    let r6 := match_types ctx r5.2
      [(provided, .anyPointer 0 (.T 1)), (wanted, .pointer 0 (.byte 0))]
    if r6.1 = true ∧ r6.2.getD 0 0 ≠ 0 then .inst .ptrCast wanted valueId 0
    else
    let r7 := match_types ctx r6.2
      [(provided, .tagged 0 (.T 1)), (wanted, .T 1)]
    if r7.1 = true ∧ r7.2.getD 0 0 ≠ 0 then .inst .nop wanted valueId 0
    else .error

/-- The two MIR instructions tir2mir.c `transform_array_to_slice` emits for
an ARRAY_TO_SLICE (besides lowering the operand): the isize length constant
and the NEW_SLICE whose length operand it becomes. -/
inductive MirInstLite where
  | int (ty : Nat) (value : Int)
  | newSlice (ty : Nat)
  deriving Repr, DecidableEq

/-- tir2mir.c `transform_array_to_slice`: `data.right` is the ARRAY_LENGTH
type id; its stored length becomes a `MIR_INT` of type isize feeding
`MIR_NEW_SLICE` of the slice type.  `none` models the abort of
`get_array_length_type` on a non-ARRAY_LENGTH id. -/
def transform_array_to_slice (ctx : TirContext) (indexType sliceTy : Nat) :
    Option (MirInstLite × MirInstLite) :=
  match get_array_length_type ctx indexType with
  | none => none
  | some n => some (.int TYPE_isize n, .newSlice sliceTy)

theorem entryAt_ge_count {ctx : TirContext} {t : Nat} {e : TypeEntry}
    (h : entryAt ctx t = some e) : TYPE_COUNT ≤ t := by
  by_contra hlt
  push_neg at hlt
  rw [entryAt, if_pos hlt] at h
  exact absurd h (by simp)

/-- Claim C7: a pointer-to-array value offered where a slice type is wanted
converts implicitly (mut pointer to mut slice, and either pointer to const
slice), emitting one ARRAY_TO_SLICE instruction typed by the wanted slice
whose second payload is the ARRAY_LENGTH type id carrying the array length
N; lowering that instruction yields a MIR_INT isize N feeding a
MIR_NEW_SLICE of the slice type. -/
theorem C7_array_to_slice :
    ∀ ctx v pa arr il elem bp ws (n : Int),
      entryAt ctx arr = some (.array elem il) →
      entryAt ctx il = some (.arrayLength n) →
      elem ≠ 0 →
      ((entryAt ctx pa = some (.ptrMut arr) ∧
          entryAt ctx ws = some (.multiptrMut elem bp)) ∨
       (entryAt ctx pa = some (.ptrMut arr) ∧
          entryAt ctx ws = some (.multiptr elem bp)) ∨
       (entryAt ctx pa = some (.ptr arr) ∧
          entryAt ctx ws = some (.multiptr elem bp))) →
      apply_implicit_conversion ctx v pa ws
        = .inst .arrayToSlice ws v il ∧
      get_array_length_type ctx il = some n ∧
      transform_array_to_slice ctx il ws
        = some (.int TYPE_isize n, .newSlice ws) := by
  intro ctx v pa arr il elem bp ws n harr hil helem hcase
  have hlen : get_array_length_type ctx il = some n := by
    rw [get_array_length_type, hil]
  refine ⟨?_, hlen, by rw [transform_array_to_slice, hlen]⟩
  have harr0 : arr ≠ 0 := by
    have := entryAt_ge_count harr
    simp only [TYPE_COUNT] at this
    omega
  have hil0 : il ≠ 0 := by
    have := entryAt_ge_count hil
    simp only [TYPE_COUNT] at this
    omega
  have harrT : get_type_tag ctx arr = some .array := by
    rw [get_type_tag, if_neg (by have := entryAt_ge_count harr; omega), harr]
    rfl
  rcases hcase with ⟨hpa, hws⟩ | ⟨hpa, hws⟩ | ⟨hpa, hws⟩
  · have hpa0 : pa ≠ 0 := by
      have := entryAt_ge_count hpa
      simp only [TYPE_COUNT] at this
      omega
    have hws0 : ws ≠ 0 := by
      have := entryAt_ge_count hws
      simp only [TYPE_COUNT] at this
      omega
    have hpaws : pa ≠ ws := by
      intro h
      rw [h, hws] at hpa
      exact absurd hpa (by simp)
    have hptag : get_type_tag ctx pa = some .ptrMut := by
      rw [get_type_tag, if_neg (by have := entryAt_ge_count hpa; omega), hpa]
      rfl
    have hwtag : get_type_tag ctx ws = some .multiptrMut := by
      rw [get_type_tag, if_neg (by have := entryAt_ge_count hws; omega), hws]
      rfl
    have hrp : remove_pointer ctx pa = arr := by rw [remove_pointer, hpa]
    have hrs : remove_slice ctx ws = elem := by rw [remove_slice, hws]
    simp [apply_implicit_conversion, match_types, match_types_single,
      bindExtra, TypeMatcher.extraOf, hpaws, hws0, hpa0, harr0, hil0, helem,
      hptag, hwtag, hrp, hrs, harrT, harr]
  · have hpa0 : pa ≠ 0 := by
      have := entryAt_ge_count hpa
      simp only [TYPE_COUNT] at this
      omega
    have hws0 : ws ≠ 0 := by
      have := entryAt_ge_count hws
      simp only [TYPE_COUNT] at this
      omega
    have hpaws : pa ≠ ws := by
      intro h
      rw [h, hws] at hpa
      exact absurd hpa (by simp)
    have hptag : get_type_tag ctx pa = some .ptrMut := by
      rw [get_type_tag, if_neg (by have := entryAt_ge_count hpa; omega), hpa]
      rfl
    have hwtag : get_type_tag ctx ws = some .multiptr := by
      rw [get_type_tag, if_neg (by have := entryAt_ge_count hws; omega), hws]
      rfl
    have hrp : remove_pointer ctx pa = arr := by rw [remove_pointer, hpa]
    have hrs : remove_slice ctx ws = elem := by rw [remove_slice, hws]
    simp [apply_implicit_conversion, match_types, match_types_single,
      bindExtra, TypeMatcher.extraOf, hpaws, hws0, hpa0, harr0, hil0, helem,
      hptag, hwtag, hrp, hrs, harrT, harr]
  · have hpa0 : pa ≠ 0 := by
      have := entryAt_ge_count hpa
      simp only [TYPE_COUNT] at this
      omega
    have hws0 : ws ≠ 0 := by
      have := entryAt_ge_count hws
      simp only [TYPE_COUNT] at this
      omega
    have hpaws : pa ≠ ws := by
      intro h
      rw [h, hws] at hpa
      exact absurd hpa (by simp)
    have hptag : get_type_tag ctx pa = some .ptr := by
      rw [get_type_tag, if_neg (by have := entryAt_ge_count hpa; omega), hpa]
      rfl
    have hwtag : get_type_tag ctx ws = some .multiptr := by
      rw [get_type_tag, if_neg (by have := entryAt_ge_count hws; omega), hws]
      rfl
    have hrp : remove_pointer ctx pa = arr := by rw [remove_pointer, hpa]
    have hrs : remove_slice ctx ws = elem := by rw [remove_slice, hws]
    simp [apply_implicit_conversion, match_types, match_types_single,
      bindExtra, TypeMatcher.extraOf, hpaws, hws0, hpa0, harr0, hil0, helem,
      hptag, hwtag, hrp, hrs, harrT, harr]

/-- A concrete table for the C7 witness: intern the length 5, the array
i32[5], a mut pointer to it and the mut slice of i32 (ids 14–18). -/
def c7ctx : Option (Nat × TirContext) :=
  match new_array_length_type initContext 5 with
  | none => none
  | some (_, c1) =>
    match new_array_type c1 14 TYPE_i32 with
    | none => none
    | some (_, c2) =>
      match new_ptr_type c2 .ptrMut 15 with
      | none => none
      | some (_, c3) => new_multiptr_type c3 .multiptrMut TYPE_i32

/-- The context component of `c7ctx`. -/
def c7ctx4 : TirContext := (c7ctx.getD (0, initContext)).2

/-- Witness for C7 on a concrete table: i32[5] behind a mut pointer,
converted to a mut slice of i32. -/
theorem C7_array_to_slice_witness :
    c7ctx = some (18, c7ctx4) ∧
    apply_implicit_conversion c7ctx4 1 16 18
      = .inst .arrayToSlice 18 1 14 ∧
    transform_array_to_slice c7ctx4 14 18
      = some (.int TYPE_isize 5, .newSlice 18) := by
  refine ⟨rfl, ?_, ?_⟩
  · exact (C7_array_to_slice c7ctx4 1 16 15 14 TYPE_i32 17 18 5 rfl rfl
      (by decide) (.inl ⟨rfl, rfl⟩)).1
  · exact (C7_array_to_slice c7ctx4 1 16 15 14 TYPE_i32 17 18 5 rfl rfl
      (by decide) (.inl ⟨rfl, rfl⟩)).2.2

/-! ### Function lowering and terminators (claim C4) -/

/-- The MIR instruction tags emitted by the statement fragment modelled
below (mir.h). -/
inductive MirTag where
  | param
  | alloc
  | assign
  | tirValue
  | ret
  | retVoid
  | br
  | brIf
  | brIfNot
  deriving Repr, DecidableEq

/-- The terminator tags named by the spec: BR, BR_IF, BR_IF_NOT, RET,
RET_VOID. -/
def MirTag.isTerminator : MirTag → Bool
  | .br | .brIf | .brIfNot | .ret | .retVoid => true
  | _ => false

/-- Statement fragment of the TIR lowered by tir2mir.c `transform_node`,
with constant operands (so `transform_value` emits one MIR_TIR_VALUE):
`letStmt` is TIR_LET / TIR_MUT, `valueStmt` is TIR_VALUE, `returnStmt b` is
TIR_RETURN with or without an operand. -/
inductive TirStmt where
  | letStmt
  | valueStmt
  | returnStmt (hasOperand : Bool)
  deriving Repr, DecidableEq

/-- Tags emitted for one statement: tir2mir.c `transform_let` (ALLOC,
operand, ASSIGN), `transform_value_statement` (operand only) and
`transform_return` (operand then RET, or RET_VOID). -/
def lowerStmt : TirStmt → List MirTag
  | .letStmt => [.alloc, .tirValue, .assign]
  | .valueStmt => [.tirValue]
  | .returnStmt true => [.tirValue, .ret]
  | .returnStmt false => [.retVoid]

/-- The statement loop of tir2mir.c `transform_function`. -/
def lowerBlock (body : List TirStmt) : List MirTag :=
  body.foldl (fun acc s => acc ++ lowerStmt s) []

/-- tir2mir.c `transform_function`: parameters first, then the body, then
`RET_VOID` appended exactly when the return type is void and the body code
is empty or does not already end in RET_VOID. -/
def transform_function (retType paramCount : Nat) (body : List TirStmt) :
    List MirTag :=
  let code := lowerBlock body
  let insts := List.replicate paramCount .param ++ code
  if retType = TYPE_VOID ∧ (code = [] ∨ code.getLast? ≠ some .retVoid) then
    insts ++ [.retVoid]
  else insts

/-- The per-function loop of tir2mir.c `tir_to_mir`, accumulating the flat
MIR and recording `ends[i]` before each function. -/
def t2m_aux (mir : List MirTag) :
    List (Nat × Nat × List TirStmt) → List MirTag × List Nat
  | [] => (mir, [mir.length])
  | f :: rest =>
    let r := t2m_aux (mir ++ transform_function f.1 f.2.1 f.2.2) rest
    (r.1, mir.length :: r.2)

/-- tir2mir.c `tir_to_mir` restricted to the modelled statement fragment:
each function is (return type, parameter count, body). -/
def tir_to_mir (funcs : List (Nat × Nat × List TirStmt)) :
    List MirTag × List Nat :=
  t2m_aux [] funcs

/-- Each `[ends i, ends (i+1))` region of the flat MIR is exactly that
function's `transform_function` output. -/
theorem t2m_aux_spec : ∀ (funcs : List (Nat × Nat × List TirStmt))
    (mir : List MirTag),
    (∃ t, (t2m_aux mir funcs).1 = mir ++ t) ∧
    (t2m_aux mir funcs).2.get? 0 = some mir.length ∧
    ∀ i f, funcs.get? i = some f →
      ∃ a b, (t2m_aux mir funcs).2.get? i = some a ∧
        (t2m_aux mir funcs).2.get? (i + 1) = some b ∧
        b = a + (transform_function f.1 f.2.1 f.2.2).length ∧
        ((t2m_aux mir funcs).1.drop a).take (b - a)
          = transform_function f.1 f.2.1 f.2.2 := by
  intro funcs
  induction funcs with
  | nil =>
    intro mir
    refine ⟨⟨[], by simp [t2m_aux]⟩, by simp [t2m_aux], ?_⟩
    intro i f hf
    exact absurd hf (by simp)
  | cons f rest ih =>
    intro mir
    obtain ⟨⟨t, ht⟩, hh, hreg⟩ :=
      ih (mir ++ transform_function f.1 f.2.1 f.2.2)
    refine ⟨⟨transform_function f.1 f.2.1 f.2.2 ++ t, ?_⟩, ?_, ?_⟩
    · simp only [t2m_aux]
      rw [ht, List.append_assoc]
    · simp [t2m_aux]
    · intro i g hg
      match i with
      | 0 =>
        rw [List.get?_cons_zero] at hg
        injection hg with hg
        rw [← hg]
        refine ⟨mir.length,
          mir.length + (transform_function f.1 f.2.1 f.2.2).length,
          by simp [t2m_aux], ?_, rfl, ?_⟩
        · simp only [t2m_aux, List.get?_cons_succ]
          rw [hh]
          simp
        · simp only [t2m_aux]
          rw [ht, Nat.add_sub_cancel_left, List.append_assoc,
            List.drop_left, List.take_left]
      | Nat.succ j =>
        rw [List.get?_cons_succ] at hg
        obtain ⟨a, b, ha, hb, hlen, hregion⟩ := hreg j g hg
        refine ⟨a, b, ?_, ?_, hlen, ?_⟩
        · simp only [t2m_aux, List.get?_cons_succ]
          exact ha
        · simp only [t2m_aux, List.get?_cons_succ]
          exact hb
        · simp only [t2m_aux]
          exact hregion

/-- A void function's lowered code is non-empty and ends in RET_VOID. -/
theorem transform_function_void (pc : Nat) (body : List TirStmt) :
    transform_function TYPE_VOID pc body ≠ [] ∧
    (transform_function TYPE_VOID pc body).getLast? = some .retVoid := by
  unfold transform_function
  by_cases h : lowerBlock body = [] ∨
      (lowerBlock body).getLast? ≠ some MirTag.retVoid
  · rw [if_pos ⟨rfl, h⟩]
    constructor
    · simp
    · rw [List.getLast?_concat]
  · rw [if_neg (fun hq => h hq.2)]
    push_neg at h
    obtain ⟨hne, hlast⟩ := h
    constructor
    · simp [hne]
    · simp [List.getLast?_append, hlast]

/-- Claim C4 (corrected): for a **void** function, the MIR region
`[ends i, ends (i+1))` is non-empty and ends in the RET_VOID terminator;
and a void function whose body code does not already end in RET_VOID gets
one appended.  (A non-void function gets no such append, so its region can
end in a non-terminator — see the counterexample.) -/
theorem C4_region_terminators :
    (∀ funcs i pc body m e a b,
      tir_to_mir funcs = (m, e) →
      funcs.get? i = some (TYPE_VOID, pc, body) →
      e.get? i = some a → e.get? (i + 1) = some b →
      a < b ∧ ((m.drop a).take (b - a)).getLast? = some .retVoid ∧
      MirTag.isTerminator .retVoid = true) ∧
    (∀ pc body, (lowerBlock body).getLast? ≠ some .retVoid →
      transform_function TYPE_VOID pc body
        = List.replicate pc .param ++ lowerBlock body ++ [.retVoid]) := by
  constructor
  · intro funcs i pc body m e a b hrun hf ha hb
    obtain ⟨-, -, hreg⟩ := t2m_aux_spec funcs []
    obtain ⟨a2, b2, ha2, hb2, hlen2, hregion⟩ :=
      hreg i (TYPE_VOID, pc, body) hf
    have hm : (t2m_aux [] funcs).1 = m := congrArg Prod.fst hrun
    have he : (t2m_aux [] funcs).2 = e := congrArg Prod.snd hrun
    rw [he] at ha2 hb2
    rw [ha] at ha2
    rw [hb] at hb2
    injection ha2 with ha2
    injection hb2 with hb2
    subst ha2
    subst hb2
    rw [hm] at hregion
    dsimp only at hlen2 hregion
    obtain ⟨htne, htlast⟩ := transform_function_void pc body
    refine ⟨?_, ?_, rfl⟩
    · have : 0 < (transform_function TYPE_VOID pc body).length :=
        List.length_pos.mpr htne
      omega
    · rw [hregion]
      exact htlast
  · intro pc body h
    unfold transform_function
    rw [if_pos ⟨rfl, Or.inr h⟩]

/-- Claim C4 counterexample: a non-void (i32) function whose body is a
single `let` lowers to a region whose last instruction is MIR_ASSIGN —
not a terminator, and no RET_VOID is appended. -/
theorem C4_region_terminators_counterexample :
    tir_to_mir [(TYPE_i32, 0, [.letStmt])]
      = ([.alloc, .tirValue, .assign], [0, 3]) ∧
    ([MirTag.alloc, .tirValue, .assign].getLast? = some MirTag.assign) ∧
    MirTag.isTerminator .assign = false :=
  ⟨rfl, rfl, rfl⟩

/-- Witness for C4: a one-parameter void function ending in a `let` has
RET_VOID appended and its region ends in that terminator. -/
theorem C4_region_terminators_witness :
    0 < 5 ∧
    ((([MirTag.param, .alloc, .tirValue, .assign, .retVoid] :
        List MirTag).drop 0).take (5 - 0)).getLast?
      = some MirTag.retVoid ∧
    MirTag.isTerminator .retVoid = true :=
  C4_region_terminators.1 [(TYPE_VOID, 1, [.letStmt])] 0 1 [.letStmt]
    [.param, .alloc, .tirValue, .assign, .retVoid] [0, 5] 0 5
    rfl rfl rfl rfl

/-! ### The substructural (linear) checker of tir-analysis.c
(claims C1 and C5) -/

/-- tir-analysis.c `VariableState` (the arena is zero-initialised, so every
variable starts as VAR_NOT_CONSUMED = 0). -/
inductive VariableState where
  | notConsumed
  | consumed
  | borrowed
  | borrowedMut
  deriving Repr, DecidableEq

/-- tir-analysis.c `ExpectedValue`. -/
inductive ExpectedValue where
  | rvalue
  | lvalue
  | lvalueMut
  | statement
  deriving Repr, DecidableEq

/-- Value fragment checked here: integer constants and (mutable) variables,
each carrying its type id (`get_value_type`). -/
inductive LcValue where
  | constInt (ty : Nat)
  | var (idx : Nat) (ty : Nat)
  deriving Repr, DecidableEq

def LcValue.ty : LcValue → Nat
  | .constInt t => t
  | .var _ t => t

/-- The mutable checker state of tir-analysis.c `LinearChecker`: the
variable-state array, `var_states_top`, `var_states_loop_top`, and the
diagnostics printed so far (`print_diagnostic` writes globally even from the
branch copies, so the diagnostic list is threaded through everything). -/
structure LcState where
  varStates : List VariableState
  top : Nat
  loopTop : Nat
  diags : List ErrorKind
  deriving Repr

/-- tir-analysis.c `check_value`.  `none` models the `abort()` arms. -/
def check_value (ctx : TirContext) (st : LcState) (v : LcValue)
    (cat : ExpectedValue) : Option LcState :=
  if cat = .rvalue ∧ type_is_linear ctx v.ty = false then some st
  else
    match v with
    | .constInt _ => some st
    | .var idx _ =>
      match st.varStates.getD idx .notConsumed, cat with
      | .consumed, _ =>
        some { st with diags := st.diags ++ [.ERROR_CONSUMED_VALUE_USED] }
      | .notConsumed, .rvalue =>
        let st2 := { st with varStates := st.varStates.set idx .consumed }
        if idx < st.loopTop then
          some { st2 with diags := st2.diags ++ [.ERROR_CONSUMED_IN_LOOP] }
        else some st2
      | .notConsumed, _ => some st
      | .borrowed, .rvalue =>
        some { st with diags := st.diags ++ [.ERROR_MOVE_BORROWED] }
      | .borrowed, .lvalue => some st
      | .borrowed, .lvalueMut =>
        some { st with diags := st.diags ++ [.ERROR_BORROWED_MUTABLE_SHARED] }
      | .borrowed, .statement => none
      | .borrowedMut, .rvalue =>
        some { st with diags := st.diags ++ [.ERROR_MOVE_BORROWED] }
      | .borrowedMut, .lvalue =>
        some { st with diags := st.diags ++ [.ERROR_BORROWED_MUTABLE_SHARED] }
      | .borrowedMut, .lvalueMut =>
        some { st with diags := st.diags ++ [.ERROR_MULTIBLE_MUTABLE_BORROWS] }
      | .borrowedMut, .statement => none

/-- tir-analysis.c `check_let`: reset the freshly bound variable, bump the
top, check the initialiser as an rvalue. -/
def check_let (ctx : TirContext) (st : LcState) (var : Nat)
    (init : LcValue) : Option LcState :=
  check_value ctx { st with varStates := st.varStates.set var .notConsumed, top := st.top + 1 } init .rvalue

/-- tir-analysis.c `check_address`: the borrow operator checks its operand
with STATEMENT — it never writes VAR_BORROWED or VAR_BORROWED_MUT. -/
def check_address (ctx : TirContext) (st : LcState) (v : LcValue) :
    Option LcState :=
  check_value ctx st v .statement

/-- tir-analysis.c `check_assign`. -/
def check_assign (ctx : TirContext) (st : LcState) (left right : LcValue) :
    Option LcState :=
  let st1 := if type_is_linear ctx left.ty then
      { st with diags := st.diags ++ [.ERROR_LINEAR_ASSIGNMENT] }
    else st
  match check_value ctx st1 right .rvalue with
  | none => none
  | some st2 => check_value ctx st2 left .rvalue

/-- The pattern loop of tir-analysis.c `check_switch` (a null pattern is the
else arm). -/
def patternStep (ctx : TirContext) (acc : Option LcState)
    (br : Option LcValue × LcValue) : Option LcState :=
  match acc with
  | none => none
  | some s =>
    match br.1 with
    | none => some s
    | some p => check_value ctx s p .rvalue

/-- The merge loop of tir-analysis.c `check_switch`: positions below the top
whose state differs from the first branch, or which the first branch
consumed, become consumed. -/
def mergeSwitchAux (top : Nat) (first pat : List VariableState) :
    Nat → List VariableState → List VariableState
  | _, [] => []
  | i, s :: rest =>
    (if i < top ∧ (first.getD i .notConsumed ≠ pat.getD i .notConsumed ∨
        first.getD i .notConsumed = .consumed) then .consumed else s)
      :: mergeSwitchAux top first pat (i + 1) rest

/-- One non-first branch of tir-analysis.c `check_switch`: check the branch
value on a copy of the current state, then merge against the first branch's
state.  Only `j != 0` branches run this merge. -/
def branchStep (ctx : TirContext) (fc : LcState) (acc : Option LcState)
    (br : Option LcValue × LcValue) : Option LcState :=
  match acc with
  | none => none
  | some cur =>
    match check_value ctx cur br.2 .rvalue with
    | none => none
    | some pat =>
      some { cur with
        varStates := mergeSwitchAux cur.top fc.varStates pat.varStates 0
          cur.varStates,
        diags := pat.diags }

/-- tir-analysis.c `check_switch`: scrutinee, all patterns, then the first
branch value on a copy (`first_pattern_ctx`) whose variable states are never
merged back, then each further branch through `branchStep`. -/
def check_switch (ctx : TirContext) (st : LcState) (scrut : LcValue)
    (branches : List (Option LcValue × LcValue)) : Option LcState :=
  match check_value ctx st scrut .rvalue with
  | none => none
  | some st1 =>
    match branches.foldl (patternStep ctx) (some st1) with
    | none => none
    | some st2 =>
      match branches with
      | [] => some st2
      | (_, v0) :: rest =>
        match check_value ctx st2 v0 .rvalue with
        | none => none
        | some fc =>
          rest.foldl (branchStep ctx fc)
            (some { st2 with diags := fc.diags })

/-- Statement fragment: TIR_LET / TIR_MUT, TIR_VALUE, TIR_ADDRESS,
TIR_ASSIGN and TIR_SWITCH, dispatched as in `check_node`. -/
inductive LcStmt where
  | letStmt (var : Nat) (init : LcValue)
  | valueStmt (v : LcValue)
  | addressStmt (v : LcValue)
  | assignStmt (left right : LcValue)
  | switchStmt (scrut : LcValue)
      (branches : List (Option LcValue × LcValue))

/-- tir-analysis.c `check_node` on the modelled fragment. -/
def check_node (ctx : TirContext) (st : LcState) (s : LcStmt)
    (cat : ExpectedValue) : Option LcState :=
  match s with
  | .letStmt var init => check_let ctx st var init
  | .valueStmt v => check_value ctx st v cat
  | .addressStmt v => check_address ctx st v
  | .assignStmt l r => check_assign ctx st l r
  | .switchStmt scrut branches => check_switch ctx st scrut branches

/-- One statement of a block (`check_function` / block loops pass
STATEMENT). -/
def blockStep (ctx : TirContext) (acc : Option LcState) (s : LcStmt) :
    Option LcState :=
  match acc with
  | none => none
  | some st => check_node ctx st s .statement

def check_block (ctx : TirContext) (st : LcState) (body : List LcStmt) :
    Option LcState :=
  body.foldl (blockStep ctx) (some st)

/-- tir-analysis.c `check_function` + the per-function setup in
`check_substructural_types`: zero-initialised states, tops at 0. -/
def check_function (ctx : TirContext) (varCount : Nat)
    (body : List LcStmt) : Option LcState :=
  check_block ctx ⟨List.replicate varCount .notConsumed, 0, 0, []⟩ body

/-- The three diagnostics only the borrow states can produce. -/
def isBorrowErr : ErrorKind → Bool
  | .ERROR_MOVE_BORROWED => true
  | .ERROR_MULTIBLE_MUTABLE_BORROWS => true
  | .ERROR_BORROWED_MUTABLE_SHARED => true
  | _ => false

/-- No variable is in a borrow state. -/
def NoBorrowState (l : List VariableState) : Prop :=
  ∀ s ∈ l, s = .notConsumed ∨ s = .consumed

/-- The diagnostics grew only by non-borrow errors. -/
def DiagsGrow (old new : List ErrorKind) : Prop :=
  ∀ k, k ∈ new → k ∈ old ∨ isBorrowErr k = false

theorem DiagsGrow.rfl {d : List ErrorKind} : DiagsGrow d d :=
  fun _ hk => .inl hk

theorem DiagsGrow.trans {a b c : List ErrorKind} (h1 : DiagsGrow a b)
    (h2 : DiagsGrow b c) : DiagsGrow a c := by
  intro k hk
  rcases h2 k hk with hk2 | hk2
  · exact h1 k hk2
  · exact .inr hk2

theorem getD_mem_or_default {α : Type} (l : List α) (i : Nat) (d : α) :
    l.getD i d ∈ l ∨ l.getD i d = d := by
  cases h : l.get? i with
  | none =>
    right
    rw [List.getD_eq_getElem?_getD, ← List.get?_eq_getElem?, h]
    rfl
  | some x =>
    left
    rw [List.getD_eq_getElem?_getD, ← List.get?_eq_getElem?, h,
      Option.getD_some]
    exact List.get?_mem h

/-- `check_value` keeps the no-borrow invariant and never emits a borrow
diagnostic from a no-borrow state. -/
theorem check_value_inv {ctx st v cat st'}
    (h : check_value ctx st v cat = some st')
    (hs : NoBorrowState st.varStates) :
    NoBorrowState st'.varStates ∧ DiagsGrow st.diags st'.diags ∧
    st'.top = st.top ∧ st'.loopTop = st.loopTop := by
  unfold check_value at h
  by_cases hg : cat = .rvalue ∧ type_is_linear ctx (LcValue.ty v) = false
  · rw [if_pos hg] at h
    injection h with h
    subst h
    exact ⟨hs, DiagsGrow.rfl, rfl, rfl⟩
  · rw [if_neg hg] at h
    cases v with
    | constInt t =>
      injection h with h
      subst h
      exact ⟨hs, DiagsGrow.rfl, rfl, rfl⟩
    | var idx t =>
      dsimp only at h
      have hd : st.varStates.getD idx .notConsumed = .notConsumed ∨
          st.varStates.getD idx .notConsumed = .consumed := by
        rcases getD_mem_or_default st.varStates idx .notConsumed with hm | he
        · exact hs _ hm
        · exact .inl he
      rcases hd with hd | hd <;> rw [hd] at h
      · cases cat with
        | rvalue =>
          by_cases hl : idx < st.loopTop
          · rw [if_pos hl] at h
            injection h with h
            subst h
            refine ⟨?_, ?_, rfl, rfl⟩
            · intro s hsm
              rcases List.mem_or_eq_of_mem_set hsm with hm | he
              · exact hs s hm
              · exact .inr he
            · intro k hk
              rcases List.mem_append.mp hk with hk | hk
              · exact .inl hk
              · right
                simp at hk
                subst hk
                rfl
          · rw [if_neg hl] at h
            injection h with h
            subst h
            refine ⟨?_, fun k hk => .inl hk, rfl, rfl⟩
            intro s hsm
            rcases List.mem_or_eq_of_mem_set hsm with hm | he
            · exact hs s hm
            · exact .inr he
        | lvalue =>
          injection h with h
          subst h
          exact ⟨hs, DiagsGrow.rfl, rfl, rfl⟩
        | lvalueMut =>
          injection h with h
          subst h
          exact ⟨hs, DiagsGrow.rfl, rfl, rfl⟩
        | statement =>
          injection h with h
          subst h
          exact ⟨hs, DiagsGrow.rfl, rfl, rfl⟩
      · injection h with h
        subst h
        refine ⟨hs, ?_, rfl, rfl⟩
        intro k hk
        rcases List.mem_append.mp hk with hk | hk
        · exact .inl hk
        · right
          simp at hk
          subst hk
          rfl

theorem check_let_inv {ctx st var init st'}
    (h : check_let ctx st var init = some st')
    (hs : NoBorrowState st.varStates) :
    NoBorrowState st'.varStates ∧ DiagsGrow st.diags st'.diags := by
  unfold check_let at h
  have hs1 : NoBorrowState (st.varStates.set var .notConsumed) := by
    intro s hsm
    rcases List.mem_or_eq_of_mem_set hsm with hm | he
    · exact hs s hm
    · exact .inl he
  obtain ⟨h1, h2, -, -⟩ := check_value_inv h hs1
  exact ⟨h1, h2⟩

theorem check_assign_inv {ctx st l r st'}
    (h : check_assign ctx st l r = some st')
    (hs : NoBorrowState st.varStates) :
    NoBorrowState st'.varStates ∧ DiagsGrow st.diags st'.diags := by
  unfold check_assign at h
  by_cases hlin : type_is_linear ctx (LcValue.ty l) = true
  · rw [if_pos hlin] at h
    dsimp only at h
    cases h2 : check_value ctx { st with diags := st.diags ++ [.ERROR_LINEAR_ASSIGNMENT] } r .rvalue with
    | none =>
      rw [h2] at h
      exact absurd h (by simp)
    | some st2 =>
      rw [h2] at h
      obtain ⟨ha, hb, -, -⟩ := check_value_inv h2 hs
      obtain ⟨hc, hd, -, -⟩ := check_value_inv h ha
      refine ⟨hc, DiagsGrow.trans (DiagsGrow.trans ?_ hb) hd⟩
      intro k hk
      rcases List.mem_append.mp hk with hk | hk
      · exact .inl hk
      · right
        simp at hk
        subst hk
        rfl
  · rw [if_neg hlin] at h
    dsimp only at h
    cases h2 : check_value ctx st r .rvalue with
    | none =>
      rw [h2] at h
      exact absurd h (by simp)
    | some st2 =>
      rw [h2] at h
      obtain ⟨ha, hb, -, -⟩ := check_value_inv h2 hs
      obtain ⟨hc, hd, -, -⟩ := check_value_inv h ha
      exact ⟨hc, DiagsGrow.trans hb hd⟩

theorem patternStep_fold_none (ctx : TirContext)
    (l : List (Option LcValue × LcValue)) :
    l.foldl (patternStep ctx) none = none := by
  induction l with
  | nil => rfl
  | cons b r ihr => rw [List.foldl_cons]; exact ihr

theorem branchStep_fold_none (ctx : TirContext) (fc : LcState)
    (l : List (Option LcValue × LcValue)) :
    l.foldl (branchStep ctx fc) none = none := by
  induction l with
  | nil => rfl
  | cons b r ihr => rw [List.foldl_cons]; exact ihr

theorem blockStep_fold_none (ctx : TirContext) (l : List LcStmt) :
    l.foldl (blockStep ctx) none = none := by
  induction l with
  | nil => rfl
  | cons b r ihr => rw [List.foldl_cons]; exact ihr

theorem patternStep_fold_inv (ctx : TirContext) :
    ∀ (l : List (Option LcValue × LcValue)) (st st' : LcState),
    l.foldl (patternStep ctx) (some st) = some st' →
    NoBorrowState st.varStates →
    NoBorrowState st'.varStates ∧ DiagsGrow st.diags st'.diags := by
  intro l
  induction l with
  | nil =>
    intro st st' h hs
    rw [List.foldl_nil] at h
    injection h with h
    subst h
    exact ⟨hs, DiagsGrow.rfl⟩
  | cons br rest ih =>
    intro st st' h hs
    rw [List.foldl_cons] at h
    cases hp : br.1 with
    | none =>
      simp only [patternStep, hp] at h
      exact ih st st' h hs
    | some p =>
      simp only [patternStep, hp] at h
      cases h2 : check_value ctx st p .rvalue with
      | none =>
        rw [h2, patternStep_fold_none] at h
        exact absurd h (by simp)
      | some stp =>
        rw [h2] at h
        obtain ⟨ha, hb, -, -⟩ := check_value_inv h2 hs
        obtain ⟨hc, hd⟩ := ih stp st' h ha
        exact ⟨hc, DiagsGrow.trans hb hd⟩

theorem mergeSwitchAux_mem {top : Nat} {first pat : List VariableState} :
    ∀ (l : List VariableState) (i : Nat) (s : VariableState),
    s ∈ mergeSwitchAux top first pat i l → s = .consumed ∨ s ∈ l := by
  intro l
  induction l with
  | nil =>
    intro i s h
    exact absurd h (by simp [mergeSwitchAux])
  | cons x rest ih =>
    intro i s h
    rw [mergeSwitchAux] at h
    rcases List.mem_cons.mp h with hx | hx
    · by_cases hc : i < top ∧ (first.getD i .notConsumed ≠
          pat.getD i .notConsumed ∨ first.getD i .notConsumed = .consumed)
      · rw [if_pos hc] at hx
        exact .inl hx
      · rw [if_neg hc] at hx
        exact .inr (by simp [hx])
    · rcases ih (i + 1) s hx with hc | hc
      · exact .inl hc
      · exact .inr (by simp [hc])

theorem branchStep_fold_inv (ctx : TirContext) (fc : LcState) :
    ∀ (l : List (Option LcValue × LcValue)) (st st' : LcState),
    l.foldl (branchStep ctx fc) (some st) = some st' →
    NoBorrowState st.varStates →
    NoBorrowState st'.varStates ∧ DiagsGrow st.diags st'.diags := by
  intro l
  induction l with
  | nil =>
    intro st st' h hs
    rw [List.foldl_nil] at h
    injection h with h
    subst h
    exact ⟨hs, DiagsGrow.rfl⟩
  | cons br rest ih =>
    intro st st' h hs
    rw [List.foldl_cons] at h
    simp only [branchStep] at h
    cases h2 : check_value ctx st br.2 .rvalue with
    | none =>
      rw [h2, branchStep_fold_none] at h
      exact absurd h (by simp)
    | some pat =>
      rw [h2] at h
      obtain ⟨ha, hb, -, -⟩ := check_value_inv h2 hs
      have hsm : NoBorrowState (mergeSwitchAux st.top fc.varStates
          pat.varStates 0 st.varStates) := by
        intro s hmem
        rcases mergeSwitchAux_mem _ _ _ hmem with hc | hc
        · exact .inr hc
        · exact hs s hc
      obtain ⟨hc, hd⟩ := ih _ st' h hsm
      exact ⟨hc, DiagsGrow.trans hb hd⟩

theorem check_switch_inv {ctx st scrut branches st'}
    (h : check_switch ctx st scrut branches = some st')
    (hs : NoBorrowState st.varStates) :
    NoBorrowState st'.varStates ∧ DiagsGrow st.diags st'.diags := by
  unfold check_switch at h
  cases h1 : check_value ctx st scrut .rvalue with
  | none =>
    rw [h1] at h
    exact absurd h (by simp)
  | some st1 =>
    rw [h1] at h
    dsimp only at h
    obtain ⟨ha1, hb1, -, -⟩ := check_value_inv h1 hs
    cases h2 : branches.foldl (patternStep ctx) (some st1) with
    | none =>
      rw [h2] at h
      exact absurd h (by simp)
    | some st2 =>
      rw [h2] at h
      dsimp only at h
      obtain ⟨ha2, hb2⟩ := patternStep_fold_inv ctx branches st1 st2 h2 ha1
      cases branches with
      | nil =>
        injection h with h
        subst h
        exact ⟨ha2, DiagsGrow.trans hb1 hb2⟩
      | cons b0 rest =>
        obtain ⟨p0, v0⟩ := b0
        dsimp only at h
        cases h3 : check_value ctx st2 v0 .rvalue with
        | none =>
          rw [h3] at h
          exact absurd h (by simp)
        | some fc =>
          rw [h3] at h
          dsimp only at h
          obtain ⟨-, hb3, -, -⟩ := check_value_inv h3 ha2
          obtain ⟨hc, hd⟩ := branchStep_fold_inv ctx fc rest _ st' h ha2
          refine ⟨hc, DiagsGrow.trans hb1 (DiagsGrow.trans hb2
            (DiagsGrow.trans hb3 hd))⟩

theorem check_node_inv {ctx st s cat st'}
    (h : check_node ctx st s cat = some st')
    (hs : NoBorrowState st.varStates) :
    NoBorrowState st'.varStates ∧ DiagsGrow st.diags st'.diags := by
  cases s with
  | letStmt var init => exact check_let_inv h hs
  | valueStmt v =>
    obtain ⟨a, b, -, -⟩ := check_value_inv h hs
    exact ⟨a, b⟩
  | addressStmt v =>
    unfold check_node check_address at h
    obtain ⟨a, b, -, -⟩ := check_value_inv h hs
    exact ⟨a, b⟩
  | assignStmt l r => exact check_assign_inv h hs
  | switchStmt scrut branches => exact check_switch_inv h hs

theorem check_block_inv (ctx : TirContext) :
    ∀ (body : List LcStmt) (st st' : LcState),
    check_block ctx st body = some st' →
    NoBorrowState st.varStates →
    NoBorrowState st'.varStates ∧ DiagsGrow st.diags st'.diags := by
  intro body
  induction body with
  | nil =>
    intro st st' h hs
    unfold check_block at h
    rw [List.foldl_nil] at h
    injection h with h
    subst h
    exact ⟨hs, DiagsGrow.rfl⟩
  | cons s rest ih =>
    intro st st' h hs
    unfold check_block at h
    rw [List.foldl_cons] at h
    simp only [blockStep] at h
    cases h2 : check_node ctx st s .statement with
    | none =>
      rw [h2, blockStep_fold_none] at h
      exact absurd h (by simp)
    | some st2 =>
      rw [h2] at h
      obtain ⟨ha, hb⟩ := check_node_inv h2 hs
      obtain ⟨hc, hd⟩ := ih st2 st' h ha
      exact ⟨hc, DiagsGrow.trans hb hd⟩

/-- A table holding one linear type (id 14 wrapping i32), for the concrete
substructural-checker runs. -/
def linctx : TirContext :=
  ((new_linear_type initContext TYPE_i32).getD (0, initContext)).2

/-- Claim C1 (code bug): tir-analysis.c never assigns VAR_BORROWED or
VAR_BORROWED_MUT — `check_address` checks the borrow operand with STATEMENT
and the only writes are VAR_NOT_CONSUMED (`check_let`) and VAR_CONSUMED
(`check_value`, merges) — so from the zero-initialised state the three
borrow diagnostics are unreachable for every checked body; in particular
the program `let x : lin = c; &x; let y = x`, which moves `x` while the
claim expects it borrowed, checks without any diagnostic. -/
theorem C1_borrow_errors_unreachable :
    (∀ ctx varCount body st,
      check_function ctx varCount body = some st →
      ErrorKind.ERROR_MOVE_BORROWED ∉ st.diags ∧
      ErrorKind.ERROR_MULTIBLE_MUTABLE_BORROWS ∉ st.diags ∧
      ErrorKind.ERROR_BORROWED_MUTABLE_SHARED ∉ st.diags) ∧
    new_linear_type initContext TYPE_i32 = some (14, linctx) ∧
    (check_function linctx 2
      [.letStmt 0 (.constInt 14), .addressStmt (.var 0 14),
       .letStmt 1 (.var 0 14)]).map (fun s => s.diags) = some [] := by
  refine ⟨?_, rfl, rfl⟩
  intro ctx varCount body st h
  have hinit :
      NoBorrowState (List.replicate varCount VariableState.notConsumed) :=
    fun s hsm => .inl (List.eq_of_mem_replicate hsm)
  obtain ⟨-, hgrow⟩ := check_block_inv ctx body _ st h hinit
  refine ⟨?_, ?_, ?_⟩ <;> intro hmem
  · rcases hgrow _ hmem with hk | hk
    · exact absurd hk (by simp)
    · exact absurd hk (by decide)
  · rcases hgrow _ hmem with hk | hk
    · exact absurd hk (by simp)
    · exact absurd hk (by decide)
  · rcases hgrow _ hmem with hk | hk
    · exact absurd hk (by simp)
    · exact absurd hk (by decide)

/-- Witness for C1: the general part applied to the concrete borrow-then-
move program. -/
theorem C1_borrow_errors_unreachable_witness :
    ∃ st, check_function linctx 2
      [.letStmt 0 (.constInt 14), .addressStmt (.var 0 14),
       .letStmt 1 (.var 0 14)] = some st ∧
    ErrorKind.ERROR_MOVE_BORROWED ∉ st.diags := by
  refine ⟨_, rfl, ?_⟩
  exact (C1_borrow_errors_unreachable.1 linctx 2
    [.letStmt 0 (.constInt 14), .addressStmt (.var 0 14),
     .letStmt 1 (.var 0 14)] _ rfl).1

/-- Claim C5 (code bug): the lone branch of a single-branch switch is
checked on a discarded copy, so its consumption state never merges back:
the resulting variable states are independent of the branch value.  On the
concrete program `let x : lin = c; switch c2 else => x; let y = x` the
second consumption of `x` goes undiagnosed, while the same program with the
branch written twice is rejected with ERROR_CONSUMED_VALUE_USED. -/
theorem C5_switch_state_discarded :
    (∀ ctx st scrut p v w stv stw,
      check_switch ctx st scrut [(p, v)] = some stv →
      check_switch ctx st scrut [(p, w)] = some stw →
      stv.varStates = stw.varStates) ∧
    (check_function linctx 2
      [.letStmt 0 (.constInt 14),
       .switchStmt (.constInt TYPE_bool) [(none, .var 0 14)],
       .letStmt 1 (.var 0 14)]).map (fun s => s.diags) = some [] ∧
    (check_function linctx 2
      [.letStmt 0 (.constInt 14),
       .switchStmt (.constInt TYPE_bool)
         [(none, .var 0 14), (some (.constInt TYPE_i32), .var 0 14)],
       .letStmt 1 (.var 0 14)]).map (fun s => s.diags)
      = some [.ERROR_CONSUMED_VALUE_USED] := by
  refine ⟨?_, rfl, rfl⟩
  intro ctx st scrut p v w stv stw hv hw
  unfold check_switch at hv hw
  cases h1 : check_value ctx st scrut .rvalue with
  | none =>
    rw [h1] at hv
    exact absurd hv (by simp)
  | some st1 =>
    rw [h1] at hv hw
    dsimp only at hv hw
    rw [List.foldl_cons, List.foldl_nil] at hv hw
    cases hp : p with
    | none =>
      simp only [patternStep, hp] at hv hw
      cases h3 : check_value ctx st1 v .rvalue with
      | none =>
        rw [h3] at hv
        exact absurd hv (by simp)
      | some fcv =>
        rw [h3] at hv
        cases h4 : check_value ctx st1 w .rvalue with
        | none =>
          rw [h4] at hw
          exact absurd hw (by simp)
        | some fcw =>
          rw [h4] at hw
          dsimp only at hv hw
          rw [List.foldl_nil] at hv hw
          injection hv with hv
          injection hw with hw
          rw [← hv, ← hw]
    | some pp =>
      simp only [patternStep, hp] at hv hw
      cases h2 : check_value ctx st1 pp .rvalue with
      | none =>
        rw [h2] at hv
        exact absurd hv (by simp)
      | some st2 =>
        rw [h2] at hv hw
        dsimp only at hv hw
        cases h3 : check_value ctx st2 v .rvalue with
        | none =>
          rw [h3] at hv
          exact absurd hv (by simp)
        | some fcv =>
          rw [h3] at hv
          cases h4 : check_value ctx st2 w .rvalue with
          | none =>
            rw [h4] at hw
            exact absurd hw (by simp)
          | some fcw =>
            rw [h4] at hw
            dsimp only at hv hw
            rw [List.foldl_nil] at hv hw
            injection hv with hv
            injection hw with hw
            rw [← hv, ← hw]

/-- Witness for C5: two single-branch switches whose lone branches differ
(one consumes the linear variable, one does not) end with the same variable
states. -/
theorem C5_switch_state_discarded_witness :
    ∃ stv stw,
      check_switch linctx ⟨[.notConsumed], 1, 0, []⟩
        (.constInt TYPE_bool) [(none, .var 0 14)] = some stv ∧
      check_switch linctx ⟨[.notConsumed], 1, 0, []⟩
        (.constInt TYPE_bool) [(none, .constInt TYPE_i32)] = some stw ∧
      stv.varStates = stw.varStates := by
  refine ⟨_, _, rfl, rfl, ?_⟩
  exact C5_switch_state_discarded.1 linctx ⟨[.notConsumed], 1, 0, []⟩
    (.constInt TYPE_bool) none (.var 0 14) (.constInt TYPE_i32) _ _ rfl rfl

end Jellyc
